import Mathlib

/-!
Verification of the core runtime of the relic Lisp dialect, shallowly
embedded from the Rust sources (src/runtime.rs, src/env.rs, src/number.rs,
src/util.rs, src/node.rs, src/symbol.rs).

Modelling conventions:
- Heap indices (Rust `usize`) are `Nat`.
- Rust `i64` is modelled as `ℤ` and `f64` as `ℚ`; none of the verified
  claims depends on integer wrap-around or on IEEE-754 rounding, only on
  which constructor is produced and on whether an operation can fail
  (Rust `f64` division is total, as is `ℚ` division).
- Rust `HashMap<String, usize>` is modelled as an association list with
  unique keys; `map_to_assoc_lst` iteration order is the list order.
- The operand stack `Vec<usize>` is modelled as a `List Nat` whose head is
  the top of the stack.
- Functions that can panic (`unwrap`, `assert!`, stack underflow, explicit
  `panic!` calls) return an `abort` outcome; functions that return
  `Result<_, RuntimeError>` return an `err` outcome carrying the runtime
  state at the moment of the error (in Rust the caller keeps the mutated
  runtime when an `Err` is returned).  Unbounded recursion is modelled
  with an explicit fuel parameter; exhausting the fuel is the `fuelOut`
  outcome (in Rust: non-termination / stack overflow).
- Closure function pointers (`CVoidFunc`) are opaque: they are modelled as
  a `Nat` token compared by value, which mirrors function-pointer
  identity.
- Diagnostic message strings are abbreviated; no claim depends on them.
- The `packages` map and the debugger fields of `Runtime` are omitted:
  no verified claim mentions them and no modelled operation touches them.
-/

namespace Relic

/-- Numbers: Rust `enum Number \x7b Int(i64), Float(f64) \x7d`. -/
inductive Number where
  | Int (i : ℤ)
  | Float (q : ℚ)
deriving DecidableEq

/-- `impl From<Number> for f64` (ints cast to floats). -/
def Number.toF (n : Number) : ℚ :=
  match n with
  | .Int i => (i : ℚ)
  | .Float q => q

/-- `impl PartialEq for Number` (`rel_op!(==, ..)`) : ints compare exactly,
a mixed comparison casts the int to float first. -/
def Number.eqb (a b : Number) : Bool :=
  match a, b with
  | .Int x, .Int y => x = y
  | .Float x, .Float y => x = y
  | .Int x, .Float y => (x : ℚ) = y
  | .Float x, .Int y => x = (y : ℚ)

/-- `impl Add for Number` (`arith_op!(+, ..)`). -/
def Number.add (a b : Number) : Number :=
  match a, b with
  | .Int x, .Int y => .Int (x + y)
  | .Float x, .Float y => .Float (x + y)
  | .Int x, .Float y => .Float ((x : ℚ) + y)
  | .Float x, .Int y => .Float (x + (y : ℚ))

/-- `impl Sub for Number`. -/
def Number.sub (a b : Number) : Number :=
  match a, b with
  | .Int x, .Int y => .Int (x - y)
  | .Float x, .Float y => .Float (x - y)
  | .Int x, .Float y => .Float ((x : ℚ) - y)
  | .Float x, .Int y => .Float (x - (y : ℚ))

/-- `impl Mul for Number`. -/
def Number.mul (a b : Number) : Number :=
  match a, b with
  | .Int x, .Int y => .Int (x * y)
  | .Float x, .Float y => .Float (x * y)
  | .Int x, .Float y => .Float ((x : ℚ) * y)
  | .Float x, .Int y => .Float (x * (y : ℚ))

/-- `impl Div for Number`: both operands are cast to float and divided;
the result is always a `Float` and the operation never fails (IEEE
division is total; the ℚ payload abstracts the IEEE value). -/
def Number.div (a b : Number) : Number :=
  .Float (a.toF / b.toF)

/-- `rel_op!` comparisons used by `PartialOrd for Number`. -/
def Number.ltb (a b : Number) : Bool :=
  match a, b with
  | .Int x, .Int y => x < y
  | .Float x, .Float y => x < y
  | .Int x, .Float y => (x : ℚ) < y
  | .Float x, .Int y => x < (y : ℚ)

def Number.gtb (a b : Number) : Bool := Number.ltb b a

def Number.leb (a b : Number) : Bool :=
  match a, b with
  | .Int x, .Int y => x ≤ y
  | .Float x, .Float y => x ≤ y
  | .Int x, .Float y => (x : ℚ) ≤ y
  | .Float x, .Int y => x ≤ (y : ℚ)

def Number.geb (a b : Number) : Bool := Number.leb b a

/-- Built-in symbols (src/symbol.rs `enum Symbol`). -/
inductive Symbol where
  | Nil | Atom | Number | Eq | Car | Cdr | Cons | T | List
  | Add | Sub | Mul | Div | Quotient | Remainder
  | Floor | Ceiling | Sin | Cos | Abs
  | Gt | Lt | Ge | Le | EqNum
  | User (s : String)
deriving DecidableEq

/-- Closures (src/runtime.rs `struct Closure`): the C function pointer
`body` is opaque and modelled as a numeric token. -/
structure Closure where
  name : String
  body : Nat
  env : Nat
  nargs : Nat
  variadic : Bool
deriving DecidableEq

/-- Heap cells (src/runtime.rs `enum RuntimeNode`).  The `Environment`
variable map is an association list with unique keys. -/
inductive RuntimeNode where
  | Symbol (s : Relic.Symbol)
  | Number (n : Relic.Number)
  | Pair (car cdr : Nat)
  | Environment (name : String) (map : List (String × Nat)) (outer : Option Nat)
  | Closure (c : Relic.Closure)
  | BrokenHeart (dst : Nat)
deriving DecidableEq

/-- The runtime state (src/runtime.rs `struct Runtime`), restricted to the
fields the verified claims touch.  `areas.1` is the active semi-space,
`areas.2` the inactive one.  The head of `stack` is the top of the
stack (the end of the Rust `Vec`). -/
structure Runtime where
  stack : List Nat
  areas : List RuntimeNode × List RuntimeNode
  size : Nat
  roots : List (String × Nat)
deriving DecidableEq

/-- `Runtime::get_node(true, i)` reads the active area; the Rust
`.get(i).unwrap()` panics when `i` is out of bounds, hence `Option`. -/
def heapGet (r : Runtime) (i : Nat) : Option RuntimeNode :=
  r.areas.1.get? i

/-- `Runtime::get_free()`: the length of the active area. -/
def get_free (r : Runtime) : Nat := r.areas.1.length

/-- Association-list lookup modelling `HashMap::get`. -/
def mapGet (m : List (String × Nat)) (k : String) : Option Nat :=
  match m with
  | [] => none
  | (k', v) :: rest => if k' = k then some v else mapGet rest k

/-- Association-list insert modelling `HashMap::insert` (replaces the
binding if the key is present, otherwise adds it). -/
def mapInsert (m : List (String × Nat)) (k : String) (v : Nat) :
    List (String × Nat) :=
  match m with
  | [] => [(k, v)]
  | (k', v') :: rest =>
      if k' = k then (k, v) :: rest else (k', v') :: mapInsert rest k v

/-- `HashMap` equality (`impl Eq`) is order-insensitive: same size and
every binding of one present in the other.  With unique keys this is
exactly Rust's `HashMap::eq`. -/
def mapEqb (m1 m2 : List (String × Nat)) : Bool :=
  m1.length = m2.length &&
    m1.all (fun kv => mapGet m2 kv.1 = some kv.2)

/-- Result of `Runtime::node_eq`: a boolean, a panic (comparing two
closures executes `panic!("Comparing closures")`, and an out-of-bounds
index panics in `get_node`), or exhaustion of the recursion budget
(`node_eq` has no cycle detection, so on cyclic pairs the Rust code
recurses forever). -/
inductive EqRes where
  | val (b : Bool)
  | abort (msg : String)
  | fuelOut
deriving DecidableEq

/-- `Runtime::node_eq` (src/runtime.rs): structural recursion over the two
cells.  Pairs recurse on both components with `&&` short-circuiting;
closures hit `impl PartialEq for Closure`, which panics. -/
def node_eq (fuel : Nat) (r : Runtime) (a b : Nat) : EqRes :=
  match fuel with
  | 0 => .fuelOut
  | fuel + 1 =>
    match heapGet r a, heapGet r b with
    | some na, some nb =>
      match na, nb with
      | .Symbol x, .Symbol y => .val (x = y)
      | .Number x, .Number y => .val (x.eqb y)
      | .Pair a1 b1, .Pair c1 d1 =>
          match node_eq fuel r a1 c1 with
          | .val true => node_eq fuel r b1 d1
          | .val false => .val false
          | e => e
      | .Environment n1 m1 o1, .Environment n2 m2 o2 =>
          .val (n1 = n2 && mapEqb m1 m2 && o1 = o2)
      | .Closure _, .Closure _ => .abort "Comparing closures"
      | .BrokenHeart x, .BrokenHeart y => .val (x = y)
      | _, _ => .val false
    | _, _ => .abort "index out of bounds"

/-- `Runtime::get_cur_env(idx, key)`: on an `Environment` cell return the
map lookup; on any other cell log an error and return `None` (inner
`none`); on an out-of-bounds index `get_node` panics (outer `none`). -/
def get_cur_env (r : Runtime) (idx : Nat) (key : String) :
    Option (Option Nat) :=
  match heapGet r idx with
  | some (.Environment _ m _) => some (mapGet m key)
  | some _ => some none
  | none => none

/-- `Runtime::insert_cur_env(idx, key, value)`: updates the variable map of
the environment cell at `idx` in place; panics (`none`) otherwise. -/
def insert_cur_env (r : Runtime) (idx : Nat) (key : String) (value : Nat) :
    Option Runtime :=
  match heapGet r idx with
  | some (.Environment nm m o) =>
      some { r with
             areas := (r.areas.1.set idx
                        (.Environment nm (mapInsert m key value) o),
                       r.areas.2) }
  | _ => none

/-- The `set` operator of the `Env` trait (src/env.rs) instantiated at
`usize` environment indices: if the current environment binds `key`,
insert the new value there and return `Some(value)`; otherwise recurse
into the outer environment (`get_outer_env` panics on a non-environment
cell); with no outer environment return `None` (unbound).  The fuel
bounds the walk along the outer chain. -/
def envSet (fuel : Nat) (r : Runtime) (idx : Nat) (key : String)
    (value : Nat) : Option (Option Nat × Runtime) :=
  match fuel with
  | 0 => none
  | fuel + 1 =>
    match get_cur_env r idx key with
    | none => none
    | some (some _) =>
        match insert_cur_env r idx key value with
        | none => none
        | some r' => some (some value, r')
    | some none =>
        match heapGet r idx with
        | some (.Environment _ _ (some o)) => envSet fuel r o key value
        | some (.Environment _ _ none) => some (none, r)
        | _ => none

/-- The environment cell at `e` binds `key` in its own map. -/
def envBindsKey (r : Runtime) (e : Nat) (key : String) : Prop :=
  ∃ nm m o, heapGet r e = some (.Environment nm m o) ∧
    (mapGet m key).isSome

/-- A well-formed outer chain starting at `idx`, listing the environment
indices from the innermost to the outermost. -/
inductive EnvChain (r : Runtime) : Nat → List Nat → Prop where
  | last (idx : Nat) (name : String) (m : List (String × Nat))
      (h : heapGet r idx = some (.Environment name m none)) :
      EnvChain r idx [idx]
  | cons (idx o : Nat) (name : String) (m : List (String × Nat)) (l : List Nat)
      (h : heapGet r idx = some (.Environment name m (some o)))
      (ho : EnvChain r o l) : EnvChain r idx (idx :: l)

/-- A two-environment chain used to exhibit the return value of `set`:
the inner environment 0 binds nothing, the outer environment 1 binds
`x` to index 2. -/
def envCexRuntime : Runtime :=
  { stack := []
    areas := ([.Environment "inner" [] (some 1),
               .Environment "top" [("x", 2)] none,
               .Number (.Int 5), .Number (.Int 7)], [])
    size := 4
    roots := [] }

/-- A heap whose first two cells are self-referential pairs (a cyclic heap)
and whose cells 3 and 4 are closures; used to exhibit the behaviour of
`node_eq` on cycles and on closures. -/
def cycCloRuntime : Runtime :=
  { stack := []
    areas := ([.Pair 0 2, .Pair 1 2, .Symbol .Nil,
               .Closure ⟨"f", 0, 2, 1, false⟩,
               .Closure ⟨"g", 1, 2, 1, false⟩], [])
    size := 5
    roots := [("a", 0)] }

/-- Outgoing heap references of a cell: car/cdr of a `Pair`, the variable
map values and the outer of an `Environment`, the captured environment of
a `Closure`. -/
def nodeRefs : RuntimeNode → List Nat
  | .Pair a b => [a, b]
  | .Environment _ m o =>
      m.map Prod.snd ++ (match o with | some x => [x] | none => [])
  | .Closure c => [c.env]
  | _ => []

def nodeIsBH : RuntimeNode → Bool
  | .BrokenHeart _ => true
  | _ => false

/-- Number of cells not yet turned into `BrokenHeart` tombstones; this is
the quantity that shrinks at every copying step of `gc_dfs`. -/
def nonBH (src : List RuntimeNode) : Nat :=
  src.countP (fun n => !nodeIsBH n)

/-- A well-formed area: no tombstones, and every outgoing reference is a
valid index of the area. -/
def wfArea (a : List RuntimeNode) : Bool :=
  a.all fun n => !nodeIsBH n && (nodeRefs n).all (· < a.length)

/-- Well-formed runtime: well-formed active area and all roots and stack
entries in bounds. -/
def wfB (r : Runtime) : Bool :=
  wfArea r.areas.1 &&
  (r.roots.map Prod.snd).all (· < r.areas.1.length) &&
  r.stack.all (· < r.areas.1.length)

mutual

/-- `Runtime::gc_dfs` (src/runtime.rs): Cheney-style forwarding of the cell
at `cur` from `src` (the old active area, progressively tombstoned) into
`dst` (the new area).  A cell already forwarded returns its tombstone
target; otherwise the shallow copy is appended to `dst`, the tombstone is
written into `src` before any recursive call, the outgoing references are
forwarded recursively, and the updated copy is written back.  The fuel
bounds the recursion depth (Rust uses the call stack); an out-of-bounds
index models the `get_node` panic. -/
def gc_dfs (fuel : Nat) (src dst : List RuntimeNode) (cur : Nat) :
    Option (Nat × List RuntimeNode × List RuntimeNode) :=
  match fuel with
  | 0 => none
  | fuel + 1 =>
    match src.get? cur with
    | none => none
    | some (.BrokenHeart d) => some (d, src, dst)
    | some (.Closure c) =>
        match gc_dfs fuel (src.set cur (.BrokenHeart dst.length))
                (dst ++ [.Closure c]) c.env with
        | none => none
        | some (e', src2, dst2) =>
            some (dst.length, src2,
              dst2.set dst.length (.Closure { c with env := e' }))
    | some (.Environment nm m o) =>
        match gc_dfs_entries fuel (src.set cur (.BrokenHeart dst.length))
                (dst ++ [.Environment nm m o]) m with
        | none => none
        | some (m', src2, dst2) =>
            match o with
            | none =>
                some (dst.length, src2,
                  dst2.set dst.length (.Environment nm m' none))
            | some ov =>
                match gc_dfs fuel src2 dst2 ov with
                | none => none
                | some (o', src3, dst3) =>
                    some (dst.length, src3,
                      dst3.set dst.length (.Environment nm m' (some o')))
    | some (.Pair car cdr) =>
        match gc_dfs fuel (src.set cur (.BrokenHeart dst.length))
                (dst ++ [.Pair car cdr]) car with
        | none => none
        | some (car', src2, dst2) =>
            match gc_dfs fuel src2 dst2 cdr with
            | none => none
            | some (cdr', src3, dst3) =>
                some (dst.length, src3,
                  dst3.set dst.length (.Pair car' cdr'))
    | some (.Symbol s) =>
        some (dst.length, src.set cur (.BrokenHeart dst.length),
          dst ++ [.Symbol s])
    | some (.Number n) =>
        some (dst.length, src.set cur (.BrokenHeart dst.length),
          dst ++ [.Number n])
termination_by (fuel, 0)

/-- Forwarding of the values of an environment's variable map, in
iteration order (the `for (name, var) in map_to_assoc_lst(map)` loop of
`gc_dfs`). -/
def gc_dfs_entries (fuel : Nat) (src dst : List RuntimeNode)
    (es : List (String × Nat)) :
    Option (List (String × Nat) × List RuntimeNode × List RuntimeNode) :=
  match es with
  | [] => some ([], src, dst)
  | (k, v) :: rest =>
      match gc_dfs fuel src dst v with
      | none => none
      | some (v', src1, dst1) =>
          match gc_dfs_entries fuel src1 dst1 rest with
          | none => none
          | some (rest', src2, dst2) => some ((k, v') :: rest', src2, dst2)
termination_by (fuel, es.length + 1)

end

/-- Sequential forwarding of a list of root indices (used for the named
roots and then for the stack inside `Runtime::gc`). -/
def gcList (fuel : Nat) (src dst : List RuntimeNode) (xs : List Nat) :
    Option (List Nat × List RuntimeNode × List RuntimeNode) :=
  match xs with
  | [] => some ([], src, dst)
  | x :: rest =>
      match gc_dfs fuel src dst x with
      | none => none
      | some (x', src1, dst1) =>
          match gcList fuel src1 dst1 rest with
          | none => none
          | some (rest', src2, dst2) => some (x' :: rest', src2, dst2)

/-- `Runtime::gc` (src/runtime.rs): clear the inactive buffer, forward
every named root (updating the root map) and then every stack element
(bottom to top, hence the `reverse`), swap the two areas, and double
`size` when the collection reclaimed no cell.  `none` models a panic
during the traversal (out-of-bounds reference) or exhaustion of the call
stack. -/
def gc (r : Runtime) : Option Runtime :=
  let fuel := r.areas.1.length + 1
  match gcList fuel r.areas.1 [] (r.roots.map Prod.snd) with
  | none => none
  | some (rootVals, src1, dst1) =>
      match gcList fuel src1 dst1 r.stack.reverse with
      | none => none
      | some (stackRev, src2, dst2) =>
          some { r with
                 stack := stackRev.reverse
                 areas := (dst2, src2)
                 roots := (r.roots.map Prod.fst).zip rootVals
                 size := if dst2.length = r.areas.1.length
                         then r.size * 2 else r.size }

/-- `Runtime::try_gc`: run `gc` only when the active area is full. -/
def try_gc (r : Runtime) : Option Runtime :=
  if get_free r < r.size then some r else gc r

/-- `Runtime::new_node`: append a node to the active area; the
`assert!(result < self.size)` panics (`none`) when the area is full. -/
def new_node (r : Runtime) (node : RuntimeNode) : Option (Nat × Runtime) :=
  if get_free r < r.size then
    some (get_free r, { r with areas := (r.areas.1 ++ [node], r.areas.2) })
  else none

/-- `Runtime::new_node_with_gc`: `try_gc` then `new_node`. -/
def new_node_with_gc (r : Runtime) (node : RuntimeNode) :
    Option (Nat × Runtime) :=
  match try_gc r with
  | none => none
  | some r1 => new_node r1 node

/-- `RuntimeNode::load_to`: allocate (collecting first if needed) and push
the new index. -/
def loadNode (r : Runtime) (node : RuntimeNode) : Option Runtime :=
  match new_node_with_gc r node with
  | none => none
  | some (idx, r1) => some { r1 with stack := idx :: r1.stack }

/-- `Runtime::new_pair`: `try_gc` first, then pop car and cdr, allocate
the pair and push its index.  The pops happen after the collection, so
the stored indices are the post-collection ones. -/
def new_pair (r : Runtime) : Option Runtime :=
  match try_gc r with
  | none => none
  | some r1 =>
    match r1.stack with
    | car :: cdr :: rest =>
        match new_node { r1 with stack := rest } (.Pair car cdr) with
        | none => none
        | some (idx, r2) => some { r2 with stack := idx :: r2.stack }
    | _ => none

/-- `Runtime::new_env`: push the outer index, `try_gc`, pop it back (so a
collection remaps it), and allocate a fresh environment with an empty
map and that outer. -/
def new_env (r : Runtime) (name : String) (outer : Nat) :
    Option (Nat × Runtime) :=
  match try_gc { r with stack := outer :: r.stack } with
  | none => none
  | some r1 =>
    match r1.stack with
    | outer' :: rest =>
        new_node { r1 with stack := rest } (.Environment name [] (some outer'))
    | [] => none

/-- `Runtime::set_root` (upsert into the root map). -/
def set_root (r : Runtime) (name : String) (v : Nat) : Runtime :=
  { r with roots := mapInsert r.roots name v }

/-- `Runtime::current_env`: `roots.get("__cur_env").unwrap()`; `none` is
the panic on a missing root. -/
def current_env (r : Runtime) : Option Nat := mapGet r.roots "__cur_env"

/-- `Runtime::move_to_env`: set `__cur_env`, panicking on a
non-environment index. -/
def move_to_env (r : Runtime) (env : Nat) : Option Runtime :=
  match heapGet r env with
  | some (.Environment _ _ _) => some (set_root r "__cur_env" env)
  | _ => none

/-- `src'` records that the cell at old index `i` was forwarded to new
index `d` (the `BrokenHeart` tombstone). -/
def fwdTo (src' : List RuntimeNode) (i d : Nat) : Prop :=
  src'.get? i = some (.BrokenHeart d)

/-- Pointwise forwarding of environment map entries: same keys in the same
iteration order, each value forwarded. -/
def entriesFwd (src' : List RuntimeNode)
    (m m' : List (String × Nat)) : Prop :=
  List.Forall₂ (fun kv kv' => kv'.1 = kv.1 ∧ fwdTo src' kv.2 kv'.2) m m'

def optFwd (src' : List RuntimeNode) : Option Nat → Option Nat → Prop
  | none, none => True
  | some a, some b => fwdTo src' a b
  | _, _ => False

/-- The copied cell `c` is the cell `a` with every outgoing reference
replaced by its forwarded index, consistently with the tombstones of
`src'`. -/
def refsFwd (src' : List RuntimeNode) : RuntimeNode → RuntimeNode → Prop
  | .Pair a b, .Pair a' b' => fwdTo src' a a' ∧ fwdTo src' b b'
  | .Environment nm m o, .Environment nm' m' o' =>
      nm' = nm ∧ entriesFwd src' m m' ∧ optFwd src' o o'
  | .Closure c, .Closure c' =>
      c'.name = c.name ∧ c'.body = c.body ∧ c'.nargs = c.nargs ∧
      c'.variadic = c.variadic ∧ fwdTo src' c.env c'.env
  | .Symbol s, .Symbol s' => s' = s
  | .Number n, .Number n' => n' = n
  | _, _ => False

/-- The old cell at `i` (read in the pre-collection area `A`) has a
faithful copy at index `d` of the new area. -/
def cellCopiedAt (A src' dst' : List RuntimeNode) (i d : Nat) : Prop :=
  ∃ a c, A.get? i = some a ∧ dst'.get? d = some c ∧ refsFwd src' a c

/-- Mid-collection invariant: every tombstoned cell either is still being
copied (its destination is in the in-flight list `exc`) or already has a
faithful copy in `dst'`. -/
def srcOK (A src' dst' : List RuntimeNode) (exc : List Nat) : Prop :=
  ∀ i d, fwdTo src' i d →
    d ∈ exc ∨ (d < dst'.length ∧ cellCopiedAt A src' dst' i d)

/-- `src` is the pre-collection area `A` with some cells tombstoned. -/
def srcCompat (A src : List RuntimeNode) : Prop :=
  src.length = A.length ∧
  ∀ i, src.get? i = A.get? i ∨ ∃ d, src.get? i = some (.BrokenHeart d)

/-- All tombstone targets already point into `dst`. -/
def bhBounded (src dst : List RuntimeNode) : Prop :=
  ∀ i d, fwdTo src i d → d < dst.length

/-- Bookkeeping facts shared by every successful `gc_dfs` /
`gc_dfs_entries` call: lengths, tombstone persistence, `dst` grows as an
extension, and the tombstone count balances the growth of `dst`. -/
structure DfsPost (src dst src' dst' : List RuntimeNode) : Prop where
  len : src'.length = src.length
  persist : ∀ i d, fwdTo src i d → fwdTo src' i d
  orig : ∀ i, src'.get? i = src.get? i ∨ ∃ d, src'.get? i = some (.BrokenHeart d)
  pre : ∀ j, j < dst.length → dst'.get? j = dst.get? j
  le : dst.length ≤ dst'.length
  bal : dst'.length + nonBH src' = dst.length + nonBH src
  new : ∀ i d, fwdTo src' i d →
    fwdTo src i d ∨ (dst.length ≤ d ∧ d < dst'.length)

/-- A well-formed runtime with a self-referential (cyclic) pair rooted by
both a named root and a stack entry; exercises the collector on a
cycle. -/
def gcWitRuntime : Runtime :=
  { stack := [1]
    areas := ([.Pair 0 0, .Symbol .Nil], [])
    size := 2
    roots := [("a", 0)] }

/-- A full heap in which every cell is live: collecting it reclaims
nothing. -/
def gcFullRuntime : Runtime :=
  { stack := []
    areas := ([.Pair 0 0], [])
    size := 1
    roots := [("a", 0)] }

/-- A runtime with two atoms on the stack, used to exercise `new_pair` and
`new_env` at their allocation boundary (the active area is full, so the
allocation triggers a collection). -/
def c10Runtime : Runtime :=
  { stack := [0, 1]
    areas := ([.Symbol .Nil, .Number (.Int 5)], [])
    size := 2
    roots := [] }

/-- Heap reachability: `Reaches A i k` when `k` is reachable from `i` by
following outgoing references in area `A`. -/
inductive Reaches (A : List RuntimeNode) : Nat → Nat → Prop where
  | refl (i : Nat) : Reaches A i i
  | step (i j k : Nat) (n : RuntimeNode) (h : Reaches A i j)
      (hj : A.get? j = some n) (hk : k ∈ nodeRefs n) : Reaches A i k

/-- Reachable from a named root or from a stack entry. -/
def ReachRoots (r : Runtime) (i : Nat) : Prop :=
  ∃ s, (s ∈ r.roots.map Prod.snd ∨ s ∈ r.stack) ∧ Reaches r.areas.1 s i

/-- Outcome of a runtime operation that returns
`Result<(), RuntimeError>` in Rust: success or error keep the mutated
runtime; a panic aborts; `fuelOut` models non-termination of the
unbounded recursion inside (only `eq?`'s `node_eq` recurses). -/
inductive ExecRes where
  | ok (r : Runtime)
  | err (r : Runtime) (msg : String)
  | abort (msg : String)
  | fuelOut
deriving DecidableEq

def ExecRes.isOk : ExecRes → Bool
  | .ok _ => true
  | _ => false

/-- `Runtime::get_number`: outer `none` is the `get_node` panic on an
out-of-bounds index, inner `none` the `RuntimeError`. -/
def get_number (r : Runtime) (idx : Nat) : Option (Option Relic.Number) :=
  match heapGet r idx with
  | none => none
  | some (.Number v) => some (some v)
  | some _ => some none

/-- `Runtime::get_symbol`. -/
def get_symbol (r : Runtime) (idx : Nat) : Option (Option Relic.Symbol) :=
  match heapGet r idx with
  | none => none
  | some (.Symbol v) => some (some v)
  | some _ => some none

/-- `util::no_less_than_n_params`. -/
def no_less_than_n_params {α : Type} (lst : List α) (n : Nat) :
    Except String Unit :=
  if lst.length < n then .error "Fewer parameters than requested" else .ok ()

/-- `util::exactly_n_params`. -/
def exactly_n_params {α : Type} (lst : List α) (n : Nat) :
    Except String Unit :=
  if lst.length > n then .error "More parameters than requested"
  else no_less_than_n_params lst n

/-- `impl TryFrom<RuntimeNode> for Number`. -/
def nodeToNumber : RuntimeNode → Except String Relic.Number
  | .Number v => .ok v
  | _ => .error "is not a number"

/-- `impl TryFrom<Number> for usize`: a non-negative integer casts, all
else is an error. -/
def usizeFromNumber : Relic.Number → Except String Nat
  | .Int i => if 0 ≤ i then .ok i.toNat else .error "Can not cast to usize"
  | .Float _ => .error "Can not cast to usize"

/-- The conversion loop of `eval_arith`/`eval_rel`
(`for value in values ... try_into()?`), failing at the first non-number
in order. -/
def numbersOf : List RuntimeNode → Except String (List Relic.Number)
  | [] => .ok []
  | v :: rest =>
      match nodeToNumber v with
      | .error e => .error e
      | .ok n =>
          match numbersOf rest with
          | .error e => .error e
          | .ok ns => .ok (n :: ns)

/-- `util::eval_arith`: at least two parameters, convert all to numbers,
then fold from the first operand. -/
def eval_arith (values : List RuntimeNode)
    (op : Relic.Number → Relic.Number → Relic.Number) :
    Except String Relic.Number :=
  match no_less_than_n_params values 2 with
  | .error e => .error e
  | .ok _ =>
      match numbersOf values with
      | .error e => .error e
      | .ok [] => .error "Fewer parameters than requested"
      | .ok (first :: rest) => .ok (rest.foldl op first)

/-- `util::eval_rel`: exactly two parameters. -/
def eval_rel (values : List RuntimeNode)
    (op : Relic.Number → Relic.Number → Bool) :
    Except String Relic.Symbol :=
  match exactly_n_params values 2 with
  | .error e => .error e
  | .ok _ =>
      match numbersOf values with
      | .error e => .error e
      | .ok [a, b] => .ok (if op a b then .T else .Nil)
      | .ok _ => .error "More parameters than requested"

/-- `Runtime::node_vec_from_stack`: pop `n` indices (panicking on
underflow or an out-of-bounds index) and clone their cells, first popped
first. -/
def node_vec_from_stack : Runtime → Nat → Option (List RuntimeNode × Runtime)
  | r, 0 => some ([], r)
  | r, n + 1 =>
      match r.stack with
      | [] => none
      | idx :: rest =>
          match heapGet r idx with
          | none => none
          | some node =>
              match node_vec_from_stack { r with stack := rest } n with
              | none => none
              | some (ops, r') => some (node :: ops, r')

/-- `StackMachine::pop` iterated `n` times. -/
def popN : Runtime → Nat → Option (List Nat × Runtime)
  | r, 0 => some ([], r)
  | r, n + 1 =>
      match r.stack with
      | [] => none
      | idx :: rest =>
          match popN { r with stack := rest } n with
          | none => none
          | some (xs, r') => some (idx :: xs, r')

/-- Push a list of indices in order (`for node in nodes ... push`). -/
def pushList (r : Runtime) (xs : List Nat) : Runtime :=
  xs.foldl (fun r x => { r with stack := x :: r.stack }) r

/-- `StackMachine::swap` (asserts at least two entries). -/
def swapStack (r : Runtime) : Option Runtime :=
  match r.stack with
  | a :: b :: rest => some { r with stack := b :: a :: rest }
  | _ => none

/-- The `swap`/`new_pair` loop of `zip_stack_nodes`. -/
def zipLoop : Nat → Runtime → Option Runtime
  | 0, r => some r
  | n + 1, r =>
      match swapStack r with
      | none => none
      | some r1 =>
          match new_pair r1 with
          | none => none
          | some r2 => zipLoop n r2

/-- `Runtime::zip_stack_nodes`: pop `n` indices, push them back in popped
order (reversing the segment), load `nil`, then cons `n` times. -/
def zip_stack_nodes (r : Runtime) (n : Nat) : Option Runtime :=
  match popN r n with
  | none => none
  | some (nodes, r1) =>
      match loadNode (pushList r1 nodes) (.Symbol .Nil) with
      | none => none
      | some r2 => zipLoop n r2

/-- `Runtime::pop_as_node`. -/
def pop_as_node (r : Runtime) : Option (RuntimeNode × Runtime) :=
  match r.stack with
  | [] => none
  | idx :: rest =>
      match heapGet r idx with
      | none => none
      | some node => some (node, { r with stack := rest })

/-- `load_to!` in a context where `load_to` cannot return a parse error:
allocation panics become aborts, otherwise the result is pushed. -/
def loadRes (r : Runtime) (node : RuntimeNode) : ExecRes :=
  match loadNode r node with
  | none => .abort "allocation failure"
  | some r' => .ok r'

/-- The `arith_op!` macro arm of `apply`. -/
def arithOp (r : Runtime) (nargs : Nat)
    (op : Relic.Number → Relic.Number → Relic.Number) : ExecRes :=
  match node_vec_from_stack r nargs with
  | none => .abort "Stack underflow"
  | some (operands, r1) =>
      match eval_arith operands op with
      | .error e => .err r1 e
      | .ok v => loadRes r1 (.Number v)

/-- The `rel_op!` macro arm of `apply`. -/
def relOp (r : Runtime) (nargs : Nat)
    (op : Relic.Number → Relic.Number → Bool) : ExecRes :=
  match node_vec_from_stack r nargs with
  | none => .abort "Stack underflow"
  | some (operands, r1) =>
      match eval_rel operands op with
      | .error e => .err r1 e
      | .ok v => loadRes r1 (.Symbol v)

/-- The `Remainder`/`Quotient` arms: `assert_eq!(nargs, 2)`, two pops,
int-only. -/
def intBinOp (r : Runtime) (nargs : Nat) (op : ℤ → ℤ → ℤ) : ExecRes :=
  if nargs = 2 then
    match r.stack with
    | lhs :: rhs :: rest =>
        match heapGet r lhs, heapGet r rhs with
        | some nl, some nr =>
            match nl, nr with
            | .Number (.Int a), .Number (.Int b) =>
                loadRes { r with stack := rest } (.Number (.Int (op a b)))
            | _, _ => .err { r with stack := rest } "Expected two integers"
        | _, _ => .abort "index out of bounds"
    | _ => .abort "Stack underflow"
  else .abort "assertion failed"

/-- The `unary_op!` macro arm: `assert_eq!(nargs, 1)`, one pop, numeric
only. -/
def unaryOp (r : Runtime) (nargs : Nat)
    (op : Relic.Number → Relic.Number) : ExecRes :=
  if nargs = 1 then
    match r.stack with
    | idx :: rest =>
        match get_number r idx with
        | none => .abort "index out of bounds"
        | some none => .err { r with stack := rest } "is not a number"
        | some (some v) => loadRes { r with stack := rest } (.Number (op v))
    | [] => .abort "Stack underflow"
  else .abort "assertion failed"

/-- `f64::sin` on the rational stand-in for `f64`.  No verified claim
depends on the value of `sin`, only on the fact that the operator
produces a Float; the payload map is left as the identity. -/
def f64sin (q : ℚ) : ℚ := q

/-- `f64::cos` on the rational stand-in (see `f64sin`). -/
def f64cos (q : ℚ) : ℚ := q

/-- The operator dispatch of `StackMachine::apply` after the operator
symbol and the operand count have been popped. -/
def applyOp (fuel : Nat) (r : Runtime) (operator : Relic.Symbol)
    (nargs : Nat) : ExecRes :=
  match operator with
  | .Nil => .err r "can not be the head of a list"
  | .T => .err r "can not be the head of a list"
  | .Add => arithOp r nargs Number.add
  | .Mul => arithOp r nargs Number.mul
  | .Sub => arithOp r nargs Number.sub
  | .Div => arithOp r nargs Number.div
  | .Remainder => intBinOp r nargs (fun a b => Int.tmod a b)
  | .Quotient => intBinOp r nargs (fun a b => Int.tdiv a b)
  | .Floor => unaryOp r nargs (fun v => .Int (Rat.floor v.toF))
  | .Ceiling => unaryOp r nargs (fun v => .Int (Rat.ceil v.toF))
  | .Sin => unaryOp r nargs (fun v => .Float (f64sin v.toF))
  | .Cos => unaryOp r nargs (fun v => .Float (f64cos v.toF))
  | .Abs => unaryOp r nargs (fun v =>
      match v with
      | .Int i => .Int |i|
      | .Float q => .Float |q|)
  | .Eq =>
      if nargs = 2 then
        match r.stack with
        | lhs :: rhs :: rest =>
            match node_eq fuel r lhs rhs with
            | .val b =>
                loadRes { r with stack := rest }
                  (.Symbol (if b then .T else .Nil))
            | .abort m => .abort m
            | .fuelOut => .fuelOut
        | _ => .abort "Stack underflow"
      else .abort "assertion failed"
  | .EqNum => relOp r nargs (fun a b => a.eqb b)
  | .Gt => relOp r nargs (fun a b => a.gtb b)
  | .Lt => relOp r nargs (fun a b => a.ltb b)
  | .Ge => relOp r nargs (fun a b => a.geb b)
  | .Le => relOp r nargs (fun a b => a.leb b)
  | .Atom =>
      if nargs = 1 then
        match pop_as_node r with
        | none => .abort "Stack underflow or bad index"
        | some (node, r1) =>
            loadRes r1 (.Symbol (match node with
              | .Pair _ _ => .Nil
              | _ => .T))
      else .abort "assertion failed"
  | .Car =>
      if nargs = 1 then
        match r.stack with
        | idx :: rest =>
            match heapGet r idx with
            | none => .abort "index out of bounds"
            | some (.Pair car _) => .ok { r with stack := car :: rest }
            | some _ => .err { r with stack := rest } "is not a pair"
        | [] => .abort "Stack underflow"
      else .abort "assertion failed"
  | .Cdr =>
      if nargs = 1 then
        match r.stack with
        | idx :: rest =>
            match heapGet r idx with
            | none => .abort "index out of bounds"
            | some (.Pair _ cdr) => .ok { r with stack := cdr :: rest }
            | some _ => .err { r with stack := rest } "is not a pair"
        | [] => .abort "Stack underflow"
      else .abort "assertion failed"
  | .Cons =>
      match new_pair r with
      | none => .abort "allocation failure"
      | some r' => .ok r'
  | .List =>
      match zip_stack_nodes r nargs with
      | none => .abort "allocation failure"
      | some r' => .ok r'
  | .Number =>
      if nargs = 1 then
        match pop_as_node r with
        | none => .abort "Stack underflow or bad index"
        | some (node, r1) =>
            loadRes r1 (.Symbol (match node with
              | .Number _ => .T
              | _ => .Nil))
      else .abort "assertion failed"
  | .User _ => .abort "You should call the closure's function in C"

/-- `StackMachine::apply` for `Runtime` (src/runtime.rs): pop the operator
symbol, pop the operand count, then dispatch.  The fuel is consumed only
by `node_eq` inside the `eq?` arm. -/
def apply (fuel : Nat) (r : Runtime) : ExecRes :=
  match r.stack with
  | [] => .abort "Stack underflow"
  | iop :: stack1 =>
    match heapGet r iop with
    | none => .abort "index out of bounds"
    | some (.Symbol operator) =>
        match stack1 with
        | [] => .abort "Stack underflow"
        | iN :: stack2 =>
          match heapGet r iN with
          | none => .abort "index out of bounds"
          | some (.Number nv) =>
              match usizeFromNumber nv with
              | .error e => .err { r with stack := stack2 } e
              | .ok nargs => applyOp fuel { r with stack := stack2 }
                  operator nargs
          | some _ => .err { r with stack := stack2 } "is not a number"
    | some _ => .err { r with stack := stack1 } "is not a symbol"

/-- `Runtime::move_to_closure_env` (src/runtime.rs): read the closure at
`cid`, build a fresh environment named "closure" whose outer is the
closure's captured environment, and move `__cur_env` there.  The error
is the "is not a closure" runtime error; `none` models a panic. -/
def move_to_closure_env (r : Runtime) (cid : Nat) :
    Option (Except String (Relic.Closure × Runtime)) :=
  match heapGet r cid with
  | none => none
  | some (.Closure c) =>
      match new_env r "closure" c.env with
      | none => none
      | some (env, r1) =>
          match move_to_env r1 env with
          | none => none
          | some r2 => some (.ok (c, r2))
  | some _ => some (.error "is not a closure")

/-- `self.current_env().define(key, value, self)` — `Env::define` is
`insert_cur` into the current environment. -/
def define_cur (r : Runtime) (key : String) (v : Nat) : Option Runtime :=
  match current_env r with
  | none => none
  | some env => insert_cur_env r env key v

/-- The `for i in 0..c.nargs - 1` binding loop of `prepare_args`: pop one
stack entry per iteration and define it as `#⟨start+j⟩_func_⟨name⟩`. -/
def bindArgs : Nat → Runtime → String → Nat → Option Runtime
  | 0, r, _, _ => some r
  | count + 1, r, name, start =>
      match r.stack with
      | [] => none
      | v :: rest =>
          match define_cur { r with stack := rest }
              ("#" ++ toString start ++ "_func_" ++ name) v with
          | none => none
          | some r1 => bindArgs count r1 name (start + 1)

/-- `Runtime::prepare_args` (src/runtime.rs): move to a fresh closure
environment, pop the operand count, check the arity rule, bind the first
`c.nargs - 1` operands, pack the variadic residual (or load `'()` when
it is empty) and bind the last parameter. -/
def prepare_args (r : Runtime) (cid : Nat) :
    Option (Except String Runtime) :=
  match move_to_closure_env r cid with
  | none => none
  | some (.error e) => some (.error e)
  | some (.ok (c, r0)) =>
      match r0.stack with
      | [] => none
      | idx :: rest =>
          match get_number { r0 with stack := rest } idx with
          | none => none
          | some none => some (.error "is not a number")
          | some (some nv) =>
              match usizeFromNumber nv with
              | .error e => some (.error e)
              | .ok nparams =>
                  if (!c.variadic && c.nargs ≠ nparams) ∨
                     (c.variadic && c.nargs > nparams + 1) then
                    some (.error ("arity mismatch: expect " ++
                      toString c.nargs ++ ", found " ++ toString nparams))
                  else if c.nargs = 0 then
                    some (.ok { r0 with stack := rest })
                  else
                    match bindArgs (c.nargs - 1) { r0 with stack := rest }
                        c.name 0 with
                    | none => none
                    | some r1 =>
                        match (if c.variadic then
                                 (if c.nargs ≤ nparams then
                                    zip_stack_nodes r1
                                      (nparams - c.nargs + 1)
                                  else loadNode r1 (.Symbol .Nil))
                               else some r1) with
                        | none => none
                        | some r2 =>
                            match r2.stack with
                            | [] => none
                            | last :: rest2 =>
                                match define_cur { r2 with stack := rest2 }
                                    ("#" ++ toString (c.nargs - 1) ++
                                     "_func_" ++ c.name) last with
                                | none => none
                                | some r3 => some (.ok r3)

/-- The runtime state reached inside `prepare_args` after
`move_to_closure_env` and the pop of the operand count: the fresh
closure environment is appended, `__cur_env` points at it, and `sr` is
the remaining stack. -/
def pargsEnv (r : Runtime) (c : Relic.Closure) (sr : List Nat) : Runtime :=
  { stack := sr
    areas := (r.areas.1 ++ [.Environment "closure" [] (some c.env)],
              r.areas.2)
    size := r.size
    roots := mapInsert r.roots "__cur_env" (get_free r) }

/-- `impl Display for Symbol` (src/symbol.rs). -/
def symStr : Relic.Symbol → String
  | .User str => str
  | .Nil => "nil"
  | .Atom => "atom?"
  | .Number => "number?"
  | .Eq => "eq?"
  | .Car => "car"
  | .Cdr => "cdr"
  | .Cons => "cons"
  | .T => "t"
  | .List => "list"
  | .Add => "+"
  | .Sub => "-"
  | .Mul => "*"
  | .Div => "/"
  | .Remainder => "remainder"
  | .Quotient => "quotient"
  | .Floor => "floor"
  | .Ceiling => "ceiling"
  | .Sin => "sin"
  | .Cos => "cos"
  | .Abs => "abs"
  | .Gt => ">"
  | .Lt => "<"
  | .Ge => ">="
  | .Le => "<="
  | .EqNum => "="

/-- `impl Display for Number` (src/number.rs) over the model types; the
rendering of the ℚ stand-in for `f64` abstracts the IEEE decimal
formatting, which no claim depends on. -/
def numStr : Relic.Number → String
  | .Int i => toString i
  | .Float q => toString q

/-- The `for (k, v) in map` part of `to_node`'s `Environment` arm. -/
def envEntriesStr : List (String × Nat) → String
  | [] => ""
  | (k, v) :: rest => k ++ "=" ++ toString v ++ ", " ++ envEntriesStr rest

/-- The conversion a non-pair heap cell undergoes in `to_node`
(src/runtime.rs:1073): symbols and numbers directly, everything else as
a `Symbol::User` of its description.  The Bool records whether the node
is `Symbol::Nil` (the proper-list terminator of the printer).  `none`
for a `Pair`, which `to_node` never hands to this path. -/
def leafView : RuntimeNode → Option (Bool × String)
  | .Symbol s => some (s = .Nil, symStr s)
  | .Number v => some (false, numStr v)
  | .BrokenHeart dst => some (false, "<BrokenHeart " ++ toString dst ++ ">")
  | .Closure c => some (false, "<Closure env: " ++ toString c.env ++
      ", nargs: " ++ toString c.nargs ++ ">")
  | .Environment name map outer =>
      some (false, "<Env " ++ name ++ ": " ++ envEntriesStr map ++
        (match outer with
         | some env => "; outer = " ++ toString env
         | none => "") ++ ">")
  | .Pair _ _ => none

/-- Identity of an `Rc<RefCell<Node>>` cell in the graph built by
`to_node`: pairs are memoized in the `visited` map by heap index, so a
pair cell's identity is its heap index; every non-pair reference gets a
fresh cell per `to_node` call, i.e. one per (parent pair, car/cdr
side). -/
inductive RcKey where
  | pairCell (i : Nat)
  | atomCell (parent : Nat) (isCdr : Bool)
deriving DecidableEq

/-- The content of a graph cell as seen by `fmt_with_visited`. -/
inductive PNode where
  | pair (car cdr : RcKey)
  | leaf (isNil : Bool) (s : String)
deriving DecidableEq

/-- The identity of the `Rc` that `to_node` stores for child `j` of the
pair at `parent`: the memoized pair cell when `j` is a pair, otherwise
the fresh per-reference cell. -/
def childKey (r : Runtime) (parent j : Nat) (isCdr : Bool) : RcKey :=
  match heapGet r j with
  | some (.Pair _ _) => .pairCell j
  | _ => .atomCell parent isCdr

/-- Dereference a graph cell of the `to_node` output. -/
def rcNode (r : Runtime) : RcKey → Option PNode
  | .pairCell i =>
      match heapGet r i with
      | some (.Pair car cdr) =>
          some (.pair (childKey r i car false) (childKey r i cdr true))
      | _ => none
  | .atomCell parent isCdr =>
      match heapGet r parent with
      | some (.Pair car cdr) =>
          match heapGet r (if isCdr then cdr else car) with
          | some nd =>
              match leafView nd with
              | some (isNil, s) => some (.leaf isNil s)
              | none => none
          | none => none
      | _ => none

/-- The pointer-keyed `visited` map of `fmt_with_visited`. -/
def keyGet (visited : List (RcKey × Nat)) (k : RcKey) : Option Nat :=
  match visited with
  | [] => none
  | (k2, v) :: rest => if k2 = k then some v else keyGet rest k

/-- `Runtime::to_node` reduced to its `visited` set of memoized pair
indices (the graph it builds is described by `rcNode`/`childKey`): the
tombstone-style `visited.insert` happens before the recursion into car
and cdr, so cycles terminate.  `none` models a panic (out-of-bounds
reference) or exhausted fuel. -/
def to_node : Nat → Runtime → Nat → List Nat → Option (List Nat)
  | 0, _, _, _ => none
  | fuel + 1, r, index, visited =>
      if index ∈ visited then some visited
      else
        match heapGet r index with
        | none => none
        | some (.Pair car cdr) =>
            match to_node fuel r car (index :: visited) with
            | none => none
            | some v2 => to_node fuel r cdr v2
        | some _ => some visited

mutual

/-- `Node::fmt_with_visited` (src/node.rs:267) on the graph built by
`to_node`.  Returns the printed string and the final `visited` map;
`none` is exhausted fuel or a dangling reference. -/
def fmtNode : Nat → Runtime → List (RcKey × Nat) → RcKey → Nat →
    Option (String × List (RcKey × Nat))
  | 0, _, _, _, _ => none
  | fuel + 1, r, visited, key, id =>
      match rcNode r key with
      | none => none
      | some (.leaf _ s) => some (s, visited)
      | some (.pair carK cdrK) =>
          match keyGet visited cdrK with
          | some prev => some ("#" ++ toString prev ++ "#", visited)
          | none =>
              match keyGet ((cdrK, id) :: visited) carK with
              | some prev =>
                  match fmtTail fuel r ((cdrK, id) :: visited) cdrK id with
                  | none => none
                  | some (t, v2) =>
                      some ("(#" ++ toString prev ++ "#" ++ t ++ ")", v2)
              | none =>
                  match fmtNode fuel r ((cdrK, id) :: visited) carK id with
                  | none => none
                  | some (s, v2) =>
                      match fmtTail fuel r ((carK, id) :: v2) cdrK id with
                      | none => none
                      | some (t, v3) => some ("(" ++ s ++ t ++ ")", v3)

/-- The cdr-walking `loop` of `fmt_with_visited`: prints the tail of the
list (after the already-printed car), back-referencing visited cells. -/
def fmtTail : Nat → Runtime → List (RcKey × Nat) → RcKey → Nat →
    Option (String × List (RcKey × Nat))
  | 0, _, _, _, _ => none
  | fuel + 1, r, visited, key, curId =>
      match rcNode r key with
      | none => none
      | some (.leaf isNil s) =>
          if isNil then some ("", visited) else some (" . " ++ s, visited)
      | some (.pair carK cdrK) =>
          match keyGet visited cdrK with
          | some prev => some (" . #" ++ toString prev ++ "#", visited)
          | none =>
              match keyGet ((cdrK, curId + 1) :: visited) carK with
              | some prev =>
                  match fmtTail fuel r ((cdrK, curId + 1) :: visited) cdrK
                      (curId + 1) with
                  | none => none
                  | some (t, v2) =>
                      some (" #" ++ toString prev ++ "#" ++ t, v2)
              | none =>
                  match fmtNode fuel r ((cdrK, curId + 1) :: visited) carK
                      (curId + 1) with
                  | none => none
                  | some (s, v2) =>
                      match fmtTail fuel r ((carK, curId + 1) :: v2) cdrK
                          (curId + 1) with
                      | none => none
                      | some (t, v3) => some (" " ++ s ++ t, v3)

end

/-- Every `Rc` identity that can appear in the `visited` map when
printing from runtime `r`. -/
def allKeys (r : Runtime) : List RcKey :=
  ((List.range r.areas.1.length).map .pairCell) ++
  ((List.range r.areas.1.length).map (fun i => .atomCell i false)) ++
  ((List.range r.areas.1.length).map (fun i => .atomCell i true))

/-- The number of printable cell identities not yet in the `visited`
map: the termination measure of `fmt_with_visited`. -/
def unvisitedCount (r : Runtime) (visited : List (RcKey × Nat)) : Nat :=
  (allKeys r).countP (fun k => (keyGet visited k).isNone)

/-- The number of pair cells not yet memoized by `to_node`: its
termination measure. -/
def pairsLeft (r : Runtime) (visited : List Nat) : Nat :=
  (List.range r.areas.1.length).countP (fun i =>
    (match heapGet r i with
     | some (.Pair _ _) => true
     | _ => false) && !(visited.contains i))

/-- Every pair cell holds in-bounds car and cdr references — without
this the Rust printer dereferences out of bounds and panics. -/
def pairWF (r : Runtime) : Bool :=
  r.areas.1.all (fun nd =>
    match nd with
    | .Pair car cdr => decide (car < r.areas.1.length) &&
        decide (cdr < r.areas.1.length)
    | _ => true)

/-- `Runtime::display_node_idx` (src/runtime.rs:1164): build the node
graph with `to_node` (fresh memo table), then print it with
`fmt_with_visited` (fresh visited map, id 0).  The fuel bounds are the
ones proved sufficient for every well-formed heap. -/
def display_node_idx (r : Runtime) (index : Nat) : Option String :=
  match to_node (r.areas.1.length + 2) r index [] with
  | none => none
  | some _ =>
      match heapGet r index with
      | none => none
      | some (.Pair _ _) =>
          match fmtNode (3 * r.areas.1.length + 2) r [] (.pairCell index)
              0 with
          | none => none
          | some (s, _) => some s
      | some nd =>
          match leafView nd with
          | none => none
          | some (_, s) => some s

/-- A cyclic heap: the pair at index 0 is its own car. -/
def c9Runtime : Runtime :=
  { stack := []
    areas := ([.Pair 0 1, .Symbol .Nil], [])
    size := 4
    roots := [] }

/-- A variadic one-parameter closure, used as the concrete witness for
`prepare_args`. -/
def c3Closure : Relic.Closure :=
  { name := "f", body := 0, env := 0, nargs := 1, variadic := true }

/-- Stack loaded for calling `c3Closure` with zero operands (the empty
variadic residual): the operand count 0 sits on top of the stack. -/
def c3Runtime : Runtime :=
  { stack := [1]
    areas := ([.Closure c3Closure, .Number (.Int 0)], [])
    size := 6
    roots := [] }

/-- Stack loaded for `(+ 5)` — one single operand: operator `+` at 0,
operand count 1 at 1, the operand at 2. -/
def c6Runtime : Runtime :=
  { stack := [0, 1, 2]
    areas := ([.Symbol .Add, .Number (.Int 1), .Number (.Int 5)], [])
    size := 5
    roots := [] }

/-- Stack loaded for `(+ 5 7)`. -/
def c6wRuntime : Runtime :=
  { stack := [0, 1, 2, 3]
    areas := ([.Symbol .Add, .Number (.Int 2), .Number (.Int 5),
               .Number (.Int 7)], [])
    size := 5
    roots := [] }

/-- The result of evaluating `(+ 5 7)` on `c6wRuntime`. -/
def c6wRes : Runtime :=
  { c6wRuntime with
    stack := [4]
    areas := (c6wRuntime.areas.1 ++ [.Number (.Int 12)],
              c6wRuntime.areas.2) }

/-- Stack loaded for `(/ 1 0)` — a division by zero. -/
def c7Runtime : Runtime :=
  { stack := [0, 1, 2, 3]
    areas := ([.Symbol .Div, .Number (.Int 2), .Number (.Int 1),
               .Number (.Int 0)], [])
    size := 5
    roots := [] }

/-- Stack loaded with operator `cons`, operand count 3, and four atoms:
`cons` ignores the count and always pops exactly two operands. -/
def c2Runtime : Runtime :=
  { stack := [0, 1, 2, 3, 4, 5]
    areas := ([.Symbol .Cons, .Number (.Int 3), .Symbol .Nil,
               .Number (.Int 7), .Number (.Int 8), .Number (.Int 9)], [])
    size := 7
    roots := [] }

/- ===================== theorems ===================== -/

/-- Helper: `node_eq` applied to two self-referential pairs exhausts every
recursion budget (the Rust code recurses forever). -/
theorem node_eq_self_loop (r : Runtime) (a b x y : Nat)
    (ha : heapGet r a = some (.Pair a x)) (hb : heapGet r b = some (.Pair b y)) :
    ∀ fuel, node_eq fuel r a b = .fuelOut := by
  intro fuel
  induction fuel with
  | zero => rfl
  | succ n ih => simp only [node_eq, ha, hb, ih]

/-- C4, counterexample: comparing two closures does abort: `node_eq` on the
two closure cells of `cycCloRuntime` executes the
`panic!("Comparing closures")` of `impl PartialEq for Closure` instead of
returning a boolean, contradicting the claim that comparing two closures
never aborts the program. -/
theorem node_eq_closure_aborts :
    node_eq 1 cycCloRuntime 3 4 = .abort "Comparing closures" := by rfl

/-- C4, amended: `node_eq` is structural but not cycle-safe: on two
self-referential pairs every recursion budget is exhausted (the Rust code
never terminates), and comparing two closures always panics instead of
comparing them by identity. -/
theorem node_eq_not_cycle_safe (r : Runtime) (a b x y : Nat)
    (ha : heapGet r a = some (.Pair a x))
    (hb : heapGet r b = some (.Pair b y)) :
    (∀ fuel, node_eq fuel r a b = .fuelOut) ∧
    (∀ c d ca cb fuel, heapGet r c = some (.Closure ca) →
      heapGet r d = some (.Closure cb) →
      node_eq (fuel + 1) r c d = .abort "Comparing closures") := by
  refine ⟨node_eq_self_loop r a b x y ha hb, ?_⟩
  intro c d ca cb fuel hc hd
  simp only [node_eq, hc, hd]

/-- C4, witness for the amended theorem at a concrete cyclic heap. -/
theorem node_eq_not_cycle_safe_witness :
    (heapGet cycCloRuntime 0 = some (.Pair 0 2) ∧
     heapGet cycCloRuntime 1 = some (.Pair 1 2)) ∧
    ((∀ fuel, node_eq fuel cycCloRuntime 0 1 = .fuelOut) ∧
     (∀ c d ca cb fuel, heapGet cycCloRuntime c = some (.Closure ca) →
       heapGet cycCloRuntime d = some (.Closure cb) →
       node_eq (fuel + 1) cycCloRuntime c d = .abort "Comparing closures")) :=
  ⟨⟨by decide, by decide⟩,
   node_eq_not_cycle_safe cycCloRuntime 0 1 2 2 (by decide) (by decide)⟩

/-- Helper: an index with a `get?` hit is in bounds. -/
theorem get?_bound {α : Type} {l : List α} {n : Nat} {a : α}
    (h : l.get? n = some a) : n < l.length :=
  (List.get?_eq_some.mp h).1

/-- Helper: replacing one element rebalances `countP` by the predicate
values of the old and new elements. -/
theorem countP_set_balance (p : RuntimeNode → Bool) :
    ∀ (l : List RuntimeNode) (i : Nat) (a b : RuntimeNode),
      l.get? i = some a →
      (l.set i b).countP p + (if p a then 1 else 0) =
        l.countP p + (if p b then 1 else 0) := by
  intro l
  induction l with
  | nil => intro i a b h; simp at h
  | cons x xs ih =>
      intro i a b h
      cases i with
      | zero =>
          rw [List.get?_cons_zero] at h
          injection h with h
          subst h
          rw [List.set_cons_zero, List.countP_cons, List.countP_cons]
          omega
      | succ n =>
          rw [List.get?_cons_succ] at h
          have hih := ih n a b h
          rw [List.set_cons_succ, List.countP_cons, List.countP_cons]
          omega

theorem nonBH_le_length (src : List RuntimeNode) : nonBH src ≤ src.length :=
  List.countP_le_length _

/-- Writing a tombstone over a live cell decreases the live count by 1. -/
theorem nonBH_set_tombstone (src : List RuntimeNode) (cur d : Nat)
    (node : RuntimeNode) (h : src.get? cur = some node)
    (hn : nodeIsBH node = false) :
    nonBH (src.set cur (.BrokenHeart d)) + 1 = nonBH src := by
  have hb := countP_set_balance (fun n => !nodeIsBH n) src cur node
    (.BrokenHeart d) h
  simp only [hn, Bool.not_false, if_true] at hb
  have hbh : nodeIsBH (RuntimeNode.BrokenHeart d) = true := rfl
  simp only [hbh, Bool.not_true, Bool.false_eq_true, if_false] at hb
  simp only [nonBH]
  omega

/-- A live (non-tombstone) cell is not forwarded. -/
theorem fwdTo_ne_of_not_bh {src : List RuntimeNode} {cur : Nat}
    {node : RuntimeNode} (h : src.get? cur = some node)
    (hn : nodeIsBH node = false) (d : Nat) : ¬ fwdTo src cur d := by
  intro hf
  rw [fwdTo, h] at hf
  injection hf with hf
  subst hf
  simp [nodeIsBH] at hn

theorem DfsPost.rfl (src dst : List RuntimeNode) : DfsPost src dst src dst :=
  ⟨Eq.refl _, fun _ _ h => h, fun _ => Or.inl (Eq.refl _), fun _ _ => Eq.refl _,
   le_refl _, Eq.refl _, fun _ _ h => Or.inl h⟩

theorem DfsPost.trans {s0 d0 s1 d1 s2 d2 : List RuntimeNode}
    (h1 : DfsPost s0 d0 s1 d1) (h2 : DfsPost s1 d1 s2 d2) :
    DfsPost s0 d0 s2 d2 := by
  refine ⟨h2.len.trans h1.len, fun i d h => h2.persist i d (h1.persist i d h),
    ?_, ?_, h1.le.trans h2.le, by have := h1.bal; have := h2.bal; omega, ?_⟩
  · intro i
    rcases h2.orig i with h | h
    · rcases h1.orig i with h' | h'
      · exact Or.inl (h.trans h')
      · obtain ⟨d, hd⟩ := h'
        exact Or.inr ⟨d, h.trans hd⟩
    · exact Or.inr h
  · intro j hj
    exact (h2.pre j (lt_of_lt_of_le hj h1.le)).trans (h1.pre j hj)
  · intro i d h
    rcases h2.new i d h with h' | h'
    · rcases h1.new i d h' with h'' | h''
      · exact Or.inl h''
      · exact Or.inr ⟨h''.1, lt_of_lt_of_le h''.2 h2.le⟩
    · exact Or.inr ⟨h1.le.trans h'.1, h'.2⟩

/-- The tombstone-then-append step at the head of every copying branch of
`gc_dfs`. -/
theorem DfsPost.tombstone {src : List RuntimeNode}
    (dst : List RuntimeNode) {cur : Nat}
    {node : RuntimeNode} (h : src.get? cur = some node)
    (hn : nodeIsBH node = false) :
    DfsPost src dst (src.set cur (.BrokenHeart dst.length))
      (dst ++ [node]) := by
  have hcur := get?_bound h
  refine ⟨List.length_set .., ?_, ?_, ?_, by simp, ?_, ?_⟩
  · intro i d hf
    have hne : cur ≠ i := by
      intro he; subst he; exact fwdTo_ne_of_not_bh h hn d hf
    rw [fwdTo, List.get?_set_ne _ _ hne]
    exact hf
  · intro i
    by_cases he : i = cur
    · subst he
      exact Or.inr ⟨dst.length, List.get?_set_eq_of_lt _ hcur⟩
    · exact Or.inl (List.get?_set_ne _ _ (fun hc => he hc.symm))
  · intro j hj
    exact List.get?_append hj
  · rw [List.length_append]
    have := nonBH_set_tombstone src cur dst.length node h hn
    simp only [List.length_cons, List.length_nil]
    omega
  · intro i d hf
    by_cases he : i = cur
    · subst he
      rw [fwdTo, List.get?_set_eq_of_lt _ hcur] at hf
      injection hf with hf
      injection hf with hf
      subst hf
      exact Or.inr ⟨le_refl _, by simp⟩
    · rw [fwdTo, List.get?_set_ne _ _ (fun hc => he hc.symm)] at hf
      exact Or.inl hf

/-- Writing the forwarded copy back at its reserved slot preserves the
bookkeeping (the slot is at or above the caller's `dst` watermark). -/
theorem DfsPost.set_dst {src dst src' dst' : List RuntimeNode} {dl : Nat}
    (h : DfsPost src dst src' dst') (hdl : dst.length ≤ dl)
    (content : RuntimeNode) :
    DfsPost src dst src' (dst'.set dl content) := by
  refine ⟨h.len, h.persist, h.orig, ?_, ?_, ?_, ?_⟩
  · intro j hj
    have hne : dl ≠ j := by omega
    rw [List.get?_set_ne _ _ hne]
    exact h.pre j hj
  · rw [List.length_set]; exact h.le
  · rw [List.length_set]; exact h.bal
  · intro i d hf
    rcases h.new i d hf with h' | h'
    · exact Or.inl h'
    · exact Or.inr ⟨h'.1, by rw [List.length_set]; exact h'.2⟩

theorem srcCompat_of_post {A src dst src' dst' : List RuntimeNode}
    (hc : srcCompat A src) (hp : DfsPost src dst src' dst') :
    srcCompat A src' := by
  refine ⟨hp.len.trans hc.1, ?_⟩
  intro i
  rcases hp.orig i with h | h
  · rcases hc.2 i with h' | h'
    · exact Or.inl (h.trans h')
    · obtain ⟨d, hd⟩ := h'
      exact Or.inr ⟨d, h.trans hd⟩
  · exact Or.inr h

theorem bhBounded_of_post {src dst src' dst' : List RuntimeNode}
    (hb : bhBounded src dst) (hp : DfsPost src dst src' dst') :
    bhBounded src' dst' := by
  intro i d h
  rcases hp.new i d h with h' | h'
  · exact lt_of_lt_of_le (hb i d h') hp.le
  · exact h'.2

/-- Bookkeeping facts of every successful `gc_dfs` call, together with the
tombstone for the argument cell, and (for `gc_dfs_entries`) the pointwise
forwarding of the processed entries. -/
theorem gc_dfs_post : ∀ fuel : Nat,
    (∀ src dst cur res src' dst',
      gc_dfs fuel src dst cur = some (res, src', dst') →
      DfsPost src dst src' dst' ∧ fwdTo src' cur res ∧
        (bhBounded src dst → res < dst'.length)) ∧
    (∀ src dst es es' src' dst',
      gc_dfs_entries fuel src dst es = some (es', src', dst') →
      DfsPost src dst src' dst' ∧ entriesFwd src' es es' ∧
        (bhBounded src dst → ∀ kv ∈ es', kv.2 < dst'.length)) := by
  intro fuel
  induction fuel with
  | zero =>
      constructor
      · intro src dst cur res src' dst' h
        rw [gc_dfs] at h
        exact Option.noConfusion h
      · intro src dst es es' src' dst' h
        cases es with
        | nil =>
            simp only [gc_dfs_entries, Option.some.injEq, Prod.mk.injEq] at h
            obtain ⟨h1, h2, h3⟩ := h
            subst h1; subst h2; subst h3
            exact ⟨DfsPost.rfl _ _, List.Forall₂.nil,
              fun _ kv hkv => absurd hkv (List.not_mem_nil kv)⟩
        | cons kv rest =>
            obtain ⟨k, v⟩ := kv
            rw [gc_dfs_entries] at h
            rw [gc_dfs] at h
            dsimp only at h
            exact Option.noConfusion h
  | succ fuel ih =>
      obtain ⟨ihd, _ihe⟩ := ih
      have hdfs : ∀ src dst cur res src' dst',
          gc_dfs (fuel + 1) src dst cur = some (res, src', dst') →
          DfsPost src dst src' dst' ∧ fwdTo src' cur res ∧
            (bhBounded src dst → res < dst'.length) := by
        intro src dst cur res src' dst' h
        rw [gc_dfs] at h
        cases hsrc : src.get? cur with
        | none => rw [hsrc] at h; dsimp only at h; simp at h
        | some node =>
          rw [hsrc] at h
          have hcur := get?_bound hsrc
          cases node with
          | BrokenHeart d =>
              dsimp only at h
              simp only [Option.some.injEq, Prod.mk.injEq] at h
              obtain ⟨h1, h2, h3⟩ := h
              subst h1; subst h2; subst h3
              exact ⟨DfsPost.rfl _ _, hsrc, fun hb => hb cur _ hsrc⟩
          | Symbol s =>
              dsimp only at h
              simp only [Option.some.injEq, Prod.mk.injEq] at h
              obtain ⟨h1, h2, h3⟩ := h
              subst h1; subst h2; subst h3
              refine ⟨DfsPost.tombstone dst hsrc rfl,
                List.get?_set_eq_of_lt _ hcur, fun _ => ?_⟩
              simp
          | Number n =>
              dsimp only at h
              simp only [Option.some.injEq, Prod.mk.injEq] at h
              obtain ⟨h1, h2, h3⟩ := h
              subst h1; subst h2; subst h3
              refine ⟨DfsPost.tombstone dst hsrc rfl,
                List.get?_set_eq_of_lt _ hcur, fun _ => ?_⟩
              simp
          | Closure c =>
              dsimp only at h
              cases h1 : gc_dfs fuel (src.set cur (.BrokenHeart dst.length))
                  (dst ++ [.Closure c]) c.env with
              | none => rw [h1] at h; dsimp only at h; simp at h
              | some t =>
                  obtain ⟨e', src2, dst2⟩ := t
                  rw [h1] at h
                  dsimp only at h
                  simp only [Option.some.injEq, Prod.mk.injEq] at h
                  obtain ⟨hres, hs', hd'⟩ := h
                  subst hres; subst hs'; subst hd'
                  obtain ⟨P1, _f1, _b1⟩ := ihd _ _ _ _ _ _ h1
                  have P01 := (DfsPost.tombstone dst hsrc rfl).trans P1
                  have hstart : fwdTo (src.set cur (.BrokenHeart dst.length))
                      cur dst.length := List.get?_set_eq_of_lt _ hcur
                  refine ⟨P01.set_dst (le_refl _) _,
                    P1.persist _ _ hstart, fun _ => ?_⟩
                  have hl := P1.le
                  rw [List.length_append] at hl
                  rw [List.length_set]
                  simp only [List.length_cons, List.length_nil] at hl
                  omega
          | Pair car cdr =>
              dsimp only at h
              cases h1 : gc_dfs fuel (src.set cur (.BrokenHeart dst.length))
                  (dst ++ [.Pair car cdr]) car with
              | none => rw [h1] at h; dsimp only at h; simp at h
              | some t =>
                  obtain ⟨car', src2, dst2⟩ := t
                  rw [h1] at h
                  dsimp only at h
                  cases h2 : gc_dfs fuel src2 dst2 cdr with
                  | none => rw [h2] at h; dsimp only at h; simp at h
                  | some t2 =>
                      obtain ⟨cdr', src3, dst3⟩ := t2
                      rw [h2] at h
                      dsimp only at h
                      simp only [Option.some.injEq, Prod.mk.injEq] at h
                      obtain ⟨hres, hs', hd'⟩ := h
                      subst hres; subst hs'; subst hd'
                      obtain ⟨P1, _f1, _b1⟩ := ihd _ _ _ _ _ _ h1
                      obtain ⟨P2, _f2, _b2⟩ := ihd _ _ _ _ _ _ h2
                      have P02 :=
                        ((DfsPost.tombstone dst hsrc rfl).trans P1).trans P2
                      have hstart : fwdTo (src.set cur (.BrokenHeart dst.length))
                          cur dst.length := List.get?_set_eq_of_lt _ hcur
                      refine ⟨P02.set_dst (le_refl _) _,
                        P2.persist _ _ (P1.persist _ _ hstart), fun _ => ?_⟩
                      have hl := P1.le
                      have hl2 := P2.le
                      rw [List.length_append] at hl
                      rw [List.length_set]
                      simp only [List.length_cons, List.length_nil] at hl
                      omega
          | Environment nm m o =>
              dsimp only at h
              cases h1 : gc_dfs_entries fuel
                  (src.set cur (.BrokenHeart dst.length))
                  (dst ++ [.Environment nm m o]) m with
              | none => rw [h1] at h; dsimp only at h; simp at h
              | some t =>
                  obtain ⟨m', src2, dst2⟩ := t
                  rw [h1] at h
                  dsimp only at h
                  obtain ⟨P1, _F1, _B1⟩ := _ihe _ _ _ _ _ _ h1
                  have P01 := (DfsPost.tombstone dst hsrc rfl).trans P1
                  have hstart : fwdTo (src.set cur (.BrokenHeart dst.length))
                      cur dst.length := List.get?_set_eq_of_lt _ hcur
                  have hl := P1.le
                  rw [List.length_append] at hl
                  simp only [List.length_cons, List.length_nil] at hl
                  cases o with
                  | none =>
                      dsimp only at h
                      simp only [Option.some.injEq, Prod.mk.injEq] at h
                      obtain ⟨hres, hs', hd'⟩ := h
                      subst hres; subst hs'; subst hd'
                      refine ⟨P01.set_dst (le_refl _) _,
                        P1.persist _ _ hstart, fun _ => ?_⟩
                      rw [List.length_set]
                      omega
                  | some ov =>
                      dsimp only at h
                      cases h2 : gc_dfs fuel src2 dst2 ov with
                      | none => rw [h2] at h; dsimp only at h; simp at h
                      | some t2 =>
                          obtain ⟨o', src3, dst3⟩ := t2
                          rw [h2] at h
                          dsimp only at h
                          simp only [Option.some.injEq, Prod.mk.injEq] at h
                          obtain ⟨hres, hs', hd'⟩ := h
                          subst hres; subst hs'; subst hd'
                          obtain ⟨P2, _f2, _b2⟩ := ihd _ _ _ _ _ _ h2
                          refine ⟨(P01.trans P2).set_dst (le_refl _) _,
                            P2.persist _ _ (P1.persist _ _ hstart),
                            fun _ => ?_⟩
                          have hl2 := P2.le
                          rw [List.length_set]
                          omega
      refine ⟨hdfs, ?_⟩
      intro src dst es
      induction es generalizing src dst with
      | nil =>
          intro es' src' dst' h
          simp only [gc_dfs_entries, Option.some.injEq, Prod.mk.injEq] at h
          obtain ⟨h1, h2, h3⟩ := h
          subst h1; subst h2; subst h3
          exact ⟨DfsPost.rfl _ _, List.Forall₂.nil,
            fun _ kv hkv => absurd hkv (List.not_mem_nil kv)⟩
      | cons kv rest ihes =>
          intro es' src' dst' h
          obtain ⟨k, v⟩ := kv
          rw [gc_dfs_entries] at h
          cases h1 : gc_dfs (fuel + 1) src dst v with
          | none => rw [h1] at h; dsimp only at h; simp at h
          | some t =>
              obtain ⟨v', src1, dst1⟩ := t
              rw [h1] at h
              dsimp only at h
              cases h2 : gc_dfs_entries (fuel + 1) src1 dst1 rest with
              | none => rw [h2] at h; dsimp only at h; simp at h
              | some t2 =>
                  obtain ⟨rest', src2, dst2⟩ := t2
                  rw [h2] at h
                  dsimp only at h
                  simp only [Option.some.injEq, Prod.mk.injEq] at h
                  obtain ⟨h1', h2', h3'⟩ := h
                  subst h1'; subst h2'; subst h3'
                  obtain ⟨P1, f1, b1⟩ := hdfs _ _ _ _ _ _ h1
                  obtain ⟨P2, F2, B2⟩ := ihes _ _ _ _ _ h2
                  refine ⟨P1.trans P2, ?_, ?_⟩
                  · exact List.Forall₂.cons ⟨rfl, P2.persist _ _ f1⟩ F2
                  · intro hb kv' hkv'
                    rcases List.mem_cons.mp hkv' with h' | h'
                    · subst h'
                      exact lt_of_lt_of_le (b1 hb) P2.le
                    · exact B2 (bhBounded_of_post hb P1) kv' h'

/-- A live cell of `src` is the original cell of `A`. -/
theorem compat_live {A src : List RuntimeNode} {cur : Nat}
    {node : RuntimeNode} (hc : srcCompat A src)
    (h : src.get? cur = some node) (hn : nodeIsBH node = false) :
    A.get? cur = some node := by
  rcases hc.2 cur with h' | h'
  · rw [← h', h]
  · obtain ⟨d, hd⟩ := h'
    rw [h] at hd
    injection hd with hd
    subst hd
    simp [nodeIsBH] at hn

theorem wfArea_refs {A : List RuntimeNode} {i : Nat} {a : RuntimeNode}
    (hw : wfArea A = true) (h : A.get? i = some a) :
    ∀ k ∈ nodeRefs a, k < A.length := by
  intro k hk
  have hmem := List.get?_mem h
  have hall := (List.all_eq_true.mp hw) a hmem
  simp only [Bool.and_eq_true] at hall
  have := (List.all_eq_true.mp hall.2) k hk
  simpa using this

theorem wfArea_live {A : List RuntimeNode} {i : Nat} {a : RuntimeNode}
    (hw : wfArea A = true) (h : A.get? i = some a) : nodeIsBH a = false := by
  have hmem := List.get?_mem h
  have hall := (List.all_eq_true.mp hw) a hmem
  simp only [Bool.and_eq_true] at hall
  simpa using hall.1

theorem nonBH_pos {src : List RuntimeNode} {cur : Nat} {node : RuntimeNode}
    (h : src.get? cur = some node) (hn : nodeIsBH node = false) :
    1 ≤ nonBH src := by
  have := nonBH_set_tombstone src cur 0 node h hn
  omega

theorem nonBH_le_of_post {src dst src' dst' : List RuntimeNode}
    (hp : DfsPost src dst src' dst') : nonBH src' ≤ nonBH src := by
  have h1 := hp.bal
  have h2 := hp.le
  omega

/-- Termination of the copying traversal: for a well-formed original area,
a fuel exceeding the number of live cells always suffices — also on
cyclic heaps, because the tombstone is written before the recursive
calls, making the live count strictly decrease. -/
theorem gc_dfs_total : ∀ fuel : Nat,
    (∀ (A src dst : List RuntimeNode) (cur : Nat),
      srcCompat A src → wfArea A = true → cur < src.length →
      nonBH src < fuel → (gc_dfs fuel src dst cur).isSome) ∧
    (∀ (A src dst : List RuntimeNode) (es : List (String × Nat)),
      srcCompat A src → wfArea A = true →
      (∀ kv ∈ es, (kv : String × Nat).2 < src.length) →
      nonBH src < fuel → (gc_dfs_entries fuel src dst es).isSome) := by
  intro fuel
  induction fuel with
  | zero =>
      exact ⟨fun A src dst cur _ _ _ hf => absurd hf (by omega),
             fun A src dst es _ _ _ hf => absurd hf (by omega)⟩
  | succ fuel ih =>
      obtain ⟨ihd, ihe⟩ := ih
      have hdfs : ∀ (A src dst : List RuntimeNode) (cur : Nat),
          srcCompat A src → wfArea A = true → cur < src.length →
          nonBH src < fuel + 1 → (gc_dfs (fuel + 1) src dst cur).isSome := by
        intro A src dst cur hc hw hcur hf
        rw [gc_dfs]
        cases hsrc : src.get? cur with
        | none =>
            have := List.get?_eq_none.mp hsrc
            omega
        | some node =>
          cases node with
          | BrokenHeart d => dsimp only; simp
          | Symbol s => dsimp only; simp
          | Number n => dsimp only; simp
          | Closure c =>
              dsimp only
              have hAcur : A.get? cur = some (.Closure c) :=
                compat_live hc hsrc rfl
              have henv : c.env < src.length := by
                have := wfArea_refs hw hAcur c.env (by simp [nodeRefs])
                have hl := hc.1
                omega
              have hnb1 : nonBH (src.set cur (.BrokenHeart dst.length)) < fuel := by
                have := nonBH_set_tombstone src cur dst.length _ hsrc rfl
                have := nonBH_pos hsrc (show nodeIsBH (.Closure c) = false from rfl)
                omega
              have hcomp1 := srcCompat_of_post hc (DfsPost.tombstone dst hsrc rfl)
              have hchild := ihd A _ (dst ++ [.Closure c]) c.env hcomp1 hw
                (by rw [List.length_set]; exact henv) hnb1
              obtain ⟨t, ht⟩ := Option.isSome_iff_exists.mp hchild
              obtain ⟨e', src2, dst2⟩ := t
              rw [ht]
              dsimp only
              simp
          | Pair car cdr =>
              dsimp only
              have hAcur : A.get? cur = some (.Pair car cdr) :=
                compat_live hc hsrc rfl
              have hlen := hc.1
              have hcarb : car < src.length := by
                have := wfArea_refs hw hAcur car (by simp [nodeRefs])
                omega
              have hcdrb : cdr < src.length := by
                have := wfArea_refs hw hAcur cdr (by simp [nodeRefs])
                omega
              have hnb1 : nonBH (src.set cur (.BrokenHeart dst.length)) < fuel := by
                have := nonBH_set_tombstone src cur dst.length _ hsrc rfl
                have := nonBH_pos hsrc (show nodeIsBH (.Pair car cdr) = false from rfl)
                omega
              have hcomp1 := srcCompat_of_post hc (DfsPost.tombstone dst hsrc rfl)
              have hchild := ihd A _ (dst ++ [.Pair car cdr]) car hcomp1 hw
                (by rw [List.length_set]; exact hcarb) hnb1
              obtain ⟨t, ht⟩ := Option.isSome_iff_exists.mp hchild
              obtain ⟨car', src2, dst2⟩ := t
              rw [ht]
              dsimp only
              obtain ⟨P1, _, _⟩ := (gc_dfs_post fuel).1 _ _ _ _ _ _ ht
              have hcomp2 := srcCompat_of_post hcomp1 P1
              have hchild2 := ihd A src2 dst2 cdr hcomp2 hw
                (by rw [P1.len, List.length_set]; exact hcdrb)
                (by have := nonBH_le_of_post P1; omega)
              obtain ⟨t2, ht2⟩ := Option.isSome_iff_exists.mp hchild2
              obtain ⟨cdr', src3, dst3⟩ := t2
              rw [ht2]
              dsimp only
              simp
          | Environment nm m o =>
              dsimp only
              have hAcur : A.get? cur = some (.Environment nm m o) :=
                compat_live hc hsrc rfl
              have hlen := hc.1
              have hnb1 : nonBH (src.set cur (.BrokenHeart dst.length)) < fuel := by
                have := nonBH_set_tombstone src cur dst.length _ hsrc rfl
                have := nonBH_pos hsrc
                  (show nodeIsBH (.Environment nm m o) = false from rfl)
                omega
              have hcomp1 := srcCompat_of_post hc (DfsPost.tombstone dst hsrc rfl)
              have hment : ∀ kv ∈ m, (kv : String × Nat).2 <
                  (src.set cur (.BrokenHeart dst.length)).length := by
                intro kv hkv
                rw [List.length_set]
                have : kv.2 ∈ nodeRefs (.Environment nm m o) := by
                  simp only [nodeRefs]
                  exact List.mem_append_left _ (List.mem_map_of_mem Prod.snd hkv)
                have := wfArea_refs hw hAcur kv.2 this
                omega
              have hchild := ihe A _ (dst ++ [.Environment nm m o]) m hcomp1 hw
                hment hnb1
              obtain ⟨t, ht⟩ := Option.isSome_iff_exists.mp hchild
              obtain ⟨m', src2, dst2⟩ := t
              rw [ht]
              dsimp only
              obtain ⟨P1, _, _⟩ := (gc_dfs_post fuel).2 _ _ _ _ _ _ ht
              cases o with
              | none => dsimp only; simp
              | some ov =>
                  dsimp only
                  have hovb : ov < src2.length := by
                    have : ov ∈ nodeRefs (.Environment nm m (some ov)) := by
                      simp [nodeRefs]
                    have := wfArea_refs hw hAcur ov this
                    rw [P1.len, List.length_set]
                    omega
                  have hcomp2 := srcCompat_of_post hcomp1 P1
                  have hchild2 := ihd A src2 dst2 ov hcomp2 hw hovb
                    (by have := nonBH_le_of_post P1; omega)
                  obtain ⟨t2, ht2⟩ := Option.isSome_iff_exists.mp hchild2
                  obtain ⟨o', src3, dst3⟩ := t2
                  rw [ht2]
                  dsimp only
                  simp
      refine ⟨hdfs, ?_⟩
      intro A src dst es
      induction es generalizing src dst with
      | nil =>
          intro _hc _hw _hb _hf
          rw [gc_dfs_entries]
          simp
      | cons kv rest ihes =>
          intro hc hw hb hf
          obtain ⟨k, v⟩ := kv
          rw [gc_dfs_entries]
          have h1 := hdfs A src dst v hc hw (hb (k, v) (by simp)) hf
          obtain ⟨t, ht⟩ := Option.isSome_iff_exists.mp h1
          obtain ⟨v', src1, dst1⟩ := t
          rw [ht]
          dsimp only
          obtain ⟨P1, _, _⟩ := (gc_dfs_post (fuel + 1)).1 _ _ _ _ _ _ ht
          have h2 := ihes src1 dst1 (srcCompat_of_post hc P1)
            hw
            (fun kv' hkv' => by
              rw [P1.len]
              exact hb kv' (List.mem_cons_of_mem _ hkv'))
            (by have := nonBH_le_of_post P1; omega)
          obtain ⟨t2, ht2⟩ := Option.isSome_iff_exists.mp h2
          obtain ⟨rest', src2, dst2⟩ := t2
          rw [ht2]
          dsimp only
          simp

theorem entriesFwd_mono {s s' : List RuntimeNode}
    (hm : ∀ i d, fwdTo s i d → fwdTo s' i d) {m m' : List (String × Nat)}
    (h : entriesFwd s m m') : entriesFwd s' m m' :=
  h.imp (fun _ _ hkv => ⟨hkv.1, hm _ _ hkv.2⟩)

theorem optFwd_mono {s s' : List RuntimeNode}
    (hm : ∀ i d, fwdTo s i d → fwdTo s' i d) {o o' : Option Nat}
    (h : optFwd s o o') : optFwd s' o o' := by
  cases o <;> cases o' <;> simp only [optFwd] at h ⊢
  exact hm _ _ h

theorem refsFwd_mono {s s' : List RuntimeNode}
    (hm : ∀ i d, fwdTo s i d → fwdTo s' i d) {a c : RuntimeNode}
    (h : refsFwd s a c) : refsFwd s' a c := by
  cases a <;> cases c <;> simp only [refsFwd] at h ⊢ <;>
    first
      | exact h
      | exact ⟨hm _ _ h.1, hm _ _ h.2⟩
      | exact ⟨h.1, entriesFwd_mono hm h.2.1, optFwd_mono hm h.2.2⟩
      | exact ⟨h.1, h.2.1, h.2.2.1, h.2.2.2.1, hm _ _ h.2.2.2.2⟩

theorem cellCopiedAt_mono {A s dst s' dst' : List RuntimeNode} {i d : Nat}
    (hm : ∀ i d, fwdTo s i d → fwdTo s' i d)
    (hd : dst'.get? d = dst.get? d)
    (h : cellCopiedAt A s dst i d) : cellCopiedAt A s' dst' i d := by
  obtain ⟨a, c, ha, hc, hr⟩ := h
  exact ⟨a, c, ha, hd.trans hc, refsFwd_mono hm hr⟩

theorem srcOK_weaken {A s dst : List RuntimeNode} {exc exc' : List Nat}
    (h : srcOK A s dst exc) (hsub : ∀ x ∈ exc, x ∈ exc') :
    srcOK A s dst exc' := by
  intro i d hf
  rcases h i d hf with h' | h'
  · exact Or.inl (hsub _ h')
  · exact Or.inr h'

theorem srcOK_mono {A src dst src' dst' : List RuntimeNode} {exc : List Nat}
    (hok : srcOK A src dst exc) (hp : DfsPost src dst src' dst')
    (hnew : ∀ i d, fwdTo src' i d → ¬ fwdTo src i d →
      d ∈ exc ∨ (d < dst'.length ∧ cellCopiedAt A src' dst' i d)) :
    srcOK A src' dst' exc := by
  intro i d hf
  by_cases hold : fwdTo src i d
  · rcases hok i d hold with h' | h'
    · exact Or.inl h'
    · exact Or.inr ⟨lt_of_lt_of_le h'.1 hp.le,
        cellCopiedAt_mono hp.persist (hp.pre d h'.1) h'.2⟩
  · exact hnew i d hf hold

/-- The tombstone step leaves the invariant intact, with the reserved
destination slot added to the in-flight list. -/
theorem srcOK_tombstone {A src dst : List RuntimeNode} {cur : Nat}
    {node : RuntimeNode} {exc : List Nat}
    (h : src.get? cur = some node) (hn : nodeIsBH node = false)
    (hok : srcOK A src dst exc) :
    srcOK A (src.set cur (.BrokenHeart dst.length)) (dst ++ [node])
      (dst.length :: exc) := by
  apply srcOK_mono (srcOK_weaken hok (fun x hx => List.mem_cons_of_mem _ hx))
    (DfsPost.tombstone dst h hn)
  intro i d hf hnot
  by_cases he : i = cur
  · subst he
    rw [fwdTo, List.get?_set_eq_of_lt _ (get?_bound h)] at hf
    injection hf with hf
    injection hf with hf
    subst hf
    exact Or.inl (List.mem_cons_self _ _)
  · rw [fwdTo, List.get?_set_ne _ _ (fun hc => he hc.symm)] at hf
    exact absurd hf hnot

/-- A tombstone pointing at the freshly reserved slot can only be the one
written for `cur`. -/
theorem fwd_src1_at_dl {src dst : List RuntimeNode} {cur : Nat}
    {node : RuntimeNode} (h : src.get? cur = some node)
    (hb : bhBounded src dst) {i : Nat}
    (hf : fwdTo (src.set cur (.BrokenHeart dst.length)) i dst.length) :
    i = cur := by
  by_cases he : i = cur
  · exact he
  · rw [fwdTo, List.get?_set_ne _ _ (fun hc => he hc.symm)] at hf
    exact absurd (hb i dst.length hf) (lt_irrefl _)

theorem fwd_final_at_dl {src1 dst1 src3 dst3 : List RuntimeNode} {dl : Nat}
    (hp : DfsPost src1 dst1 src3 dst3) (hdl : dl < dst1.length) {i : Nat}
    (hf : fwdTo src3 i dl) : fwdTo src1 i dl := by
  rcases hp.new i dl hf with h | h
  · exact h
  · omega

/-- Copy correctness: a successful `gc_dfs` preserves the invariant that
every tombstoned cell outside the in-flight list has a faithful copy,
with all outgoing references of the copy forwarded consistently. -/
theorem gc_dfs_copy : ∀ fuel : Nat,
    (∀ (A src dst : List RuntimeNode) (cur : Nat) (exc : List Nat)
       (res : Nat) (src' dst' : List RuntimeNode),
      gc_dfs fuel src dst cur = some (res, src', dst') →
      srcCompat A src → bhBounded src dst → srcOK A src dst exc →
      srcOK A src' dst' exc) ∧
    (∀ (A src dst : List RuntimeNode) (es : List (String × Nat))
       (exc : List Nat) (es' : List (String × Nat))
       (src' dst' : List RuntimeNode),
      gc_dfs_entries fuel src dst es = some (es', src', dst') →
      srcCompat A src → bhBounded src dst → srcOK A src dst exc →
      srcOK A src' dst' exc) := by
  intro fuel
  induction fuel with
  | zero =>
      constructor
      · intro A src dst cur exc res src' dst' h
        rw [gc_dfs] at h
        exact Option.noConfusion h
      · intro A src dst es exc es' src' dst' h
        cases es with
        | nil =>
            simp only [gc_dfs_entries, Option.some.injEq, Prod.mk.injEq] at h
            obtain ⟨h1, h2, h3⟩ := h
            subst h1; subst h2; subst h3
            exact fun _ _ hok => hok
        | cons kv rest =>
            obtain ⟨k, v⟩ := kv
            rw [gc_dfs_entries, gc_dfs] at h
            dsimp only at h
            exact Option.noConfusion h
  | succ fuel ih =>
      obtain ⟨ihd, ihe⟩ := ih
      have hdfs : ∀ (A src dst : List RuntimeNode) (cur : Nat) (exc : List Nat)
          (res : Nat) (src' dst' : List RuntimeNode),
          gc_dfs (fuel + 1) src dst cur = some (res, src', dst') →
          srcCompat A src → bhBounded src dst → srcOK A src dst exc →
          srcOK A src' dst' exc := by
        intro A src dst cur exc res src' dst' h hc hb hok
        rw [gc_dfs] at h
        cases hsrc : src.get? cur with
        | none => rw [hsrc] at h; dsimp only at h; simp at h
        | some node =>
          rw [hsrc] at h
          have hcur := get?_bound hsrc
          cases node with
          | BrokenHeart d =>
              dsimp only at h
              simp only [Option.some.injEq, Prod.mk.injEq] at h
              obtain ⟨h1, h2, h3⟩ := h
              subst h1; subst h2; subst h3
              exact hok
          | Symbol s =>
              dsimp only at h
              simp only [Option.some.injEq, Prod.mk.injEq] at h
              obtain ⟨h1, h2, h3⟩ := h
              subst h1; subst h2; subst h3
              apply srcOK_mono hok (DfsPost.tombstone dst hsrc rfl)
              intro i d hf hnot
              by_cases he : i = cur
              · subst he
                rw [fwdTo, List.get?_set_eq_of_lt _ hcur] at hf
                injection hf with hf
                injection hf with hf
                subst hf
                refine Or.inr ⟨by simp, ?_⟩
                refine ⟨.Symbol s, .Symbol s, compat_live hc hsrc rfl,
                  List.get?_concat_length dst _, ?_⟩
                simp [refsFwd]
              · rw [fwdTo, List.get?_set_ne _ _ (fun hcq => he hcq.symm)] at hf
                exact absurd hf hnot
          | Number n =>
              dsimp only at h
              simp only [Option.some.injEq, Prod.mk.injEq] at h
              obtain ⟨h1, h2, h3⟩ := h
              subst h1; subst h2; subst h3
              apply srcOK_mono hok (DfsPost.tombstone dst hsrc rfl)
              intro i d hf hnot
              by_cases he : i = cur
              · subst he
                rw [fwdTo, List.get?_set_eq_of_lt _ hcur] at hf
                injection hf with hf
                injection hf with hf
                subst hf
                refine Or.inr ⟨by simp, ?_⟩
                refine ⟨.Number n, .Number n, compat_live hc hsrc rfl,
                  List.get?_concat_length dst _, ?_⟩
                simp [refsFwd]
              · rw [fwdTo, List.get?_set_ne _ _ (fun hcq => he hcq.symm)] at hf
                exact absurd hf hnot
          | Closure c =>
              dsimp only at h
              cases h1 : gc_dfs fuel (src.set cur (.BrokenHeart dst.length))
                  (dst ++ [.Closure c]) c.env with
              | none => rw [h1] at h; dsimp only at h; simp at h
              | some t =>
                  obtain ⟨e', src2, dst2⟩ := t
                  rw [h1] at h
                  dsimp only at h
                  simp only [Option.some.injEq, Prod.mk.injEq] at h
                  obtain ⟨hres, hs', hd'⟩ := h
                  subst hres; subst hs'; subst hd'
                  obtain ⟨P1, f1, _⟩ := (gc_dfs_post fuel).1 _ _ _ _ _ _ h1
                  have hok2 : srcOK A src2 dst2 (dst.length :: exc) :=
                    ihd A _ _ c.env (dst.length :: exc) _ _ _ h1
                      (srcCompat_of_post hc (DfsPost.tombstone dst hsrc rfl))
                      (bhBounded_of_post hb (DfsPost.tombstone dst hsrc rfl))
                      (srcOK_tombstone hsrc rfl hok)
                  have hlt : dst.length < dst2.length := by
                    have := P1.le
                    simp only [List.length_append, List.length_cons,
                      List.length_nil] at this
                    omega
                  intro i d hf
                  by_cases hddl : d = dst.length
                  · subst hddl
                    have hi : i = cur := fwd_src1_at_dl hsrc hb
                      (fwd_final_at_dl P1 (by simp) hf)
                    subst hi
                    refine Or.inr ⟨by rw [List.length_set]; exact hlt, ?_⟩
                    refine ⟨.Closure c, .Closure { c with env := e' },
                      compat_live hc hsrc rfl,
                      List.get?_set_eq_of_lt _ hlt, ?_⟩
                    simp only [refsFwd]
                    exact ⟨trivial, trivial, trivial, trivial, f1⟩
                  · rcases hok2 i d hf with h' | h'
                    · rcases List.mem_cons.mp h' with h'' | h''
                      · exact absurd h'' hddl
                      · exact Or.inl h''
                    · refine Or.inr ⟨by rw [List.length_set]; exact h'.1, ?_⟩
                      exact cellCopiedAt_mono (fun _ _ hh => hh)
                        (List.get?_set_ne _ _ (fun hcq => hddl hcq.symm)) h'.2
          | Pair car cdr =>
              dsimp only at h
              cases h1 : gc_dfs fuel (src.set cur (.BrokenHeart dst.length))
                  (dst ++ [.Pair car cdr]) car with
              | none => rw [h1] at h; dsimp only at h; simp at h
              | some t =>
                  obtain ⟨car', src2, dst2⟩ := t
                  rw [h1] at h
                  dsimp only at h
                  cases h2 : gc_dfs fuel src2 dst2 cdr with
                  | none => rw [h2] at h; dsimp only at h; simp at h
                  | some t2 =>
                      obtain ⟨cdr', src3, dst3⟩ := t2
                      rw [h2] at h
                      dsimp only at h
                      simp only [Option.some.injEq, Prod.mk.injEq] at h
                      obtain ⟨hres, hs', hd'⟩ := h
                      subst hres; subst hs'; subst hd'
                      obtain ⟨P1, f1, _⟩ := (gc_dfs_post fuel).1 _ _ _ _ _ _ h1
                      obtain ⟨P2, f2, _⟩ := (gc_dfs_post fuel).1 _ _ _ _ _ _ h2
                      have hcomp1 := srcCompat_of_post hc
                        (DfsPost.tombstone dst hsrc rfl)
                      have hb1 := bhBounded_of_post hb
                        (DfsPost.tombstone dst hsrc rfl)
                      have hok2 : srcOK A src2 dst2 (dst.length :: exc) :=
                        ihd A _ _ car (dst.length :: exc) _ _ _ h1 hcomp1 hb1
                          (srcOK_tombstone hsrc rfl hok)
                      have hok3 : srcOK A src3 dst3 (dst.length :: exc) :=
                        ihd A _ _ cdr (dst.length :: exc) _ _ _ h2
                          (srcCompat_of_post hcomp1 P1)
                          (bhBounded_of_post hb1 P1) hok2
                      have hlt : dst.length < dst3.length := by
                        have := P1.le
                        have := P2.le
                        simp only [List.length_append, List.length_cons,
                          List.length_nil] at *
                        omega
                      intro i d hf
                      by_cases hddl : d = dst.length
                      · subst hddl
                        have hi : i = cur := fwd_src1_at_dl hsrc hb
                          (fwd_final_at_dl (P1.trans P2) (by simp) hf)
                        subst hi
                        refine Or.inr ⟨by rw [List.length_set]; exact hlt, ?_⟩
                        refine ⟨.Pair car cdr, .Pair car' cdr',
                          compat_live hc hsrc rfl,
                          List.get?_set_eq_of_lt _ hlt, ?_⟩
                        simp only [refsFwd]
                        exact ⟨P2.persist _ _ f1, f2⟩
                      · rcases hok3 i d hf with h' | h'
                        · rcases List.mem_cons.mp h' with h'' | h''
                          · exact absurd h'' hddl
                          · exact Or.inl h''
                        · refine Or.inr ⟨by rw [List.length_set]; exact h'.1, ?_⟩
                          exact cellCopiedAt_mono (fun _ _ hh => hh)
                            (List.get?_set_ne _ _ (fun hcq => hddl hcq.symm)) h'.2
          | Environment nm m o =>
              dsimp only at h
              cases h1 : gc_dfs_entries fuel
                  (src.set cur (.BrokenHeart dst.length))
                  (dst ++ [.Environment nm m o]) m with
              | none => rw [h1] at h; dsimp only at h; simp at h
              | some t =>
                  obtain ⟨m', src2, dst2⟩ := t
                  rw [h1] at h
                  dsimp only at h
                  obtain ⟨P1, F1, _⟩ := (gc_dfs_post fuel).2 _ _ _ _ _ _ h1
                  have hcomp1 := srcCompat_of_post hc
                    (DfsPost.tombstone dst hsrc rfl)
                  have hb1 := bhBounded_of_post hb
                    (DfsPost.tombstone dst hsrc rfl)
                  have hok2 : srcOK A src2 dst2 (dst.length :: exc) :=
                    ihe A _ _ m (dst.length :: exc) _ _ _ h1 hcomp1 hb1
                      (srcOK_tombstone hsrc rfl hok)
                  cases o with
                  | none =>
                      dsimp only at h
                      simp only [Option.some.injEq, Prod.mk.injEq] at h
                      obtain ⟨hres, hs', hd'⟩ := h
                      subst hres; subst hs'; subst hd'
                      have hlt : dst.length < dst2.length := by
                        have := P1.le
                        simp only [List.length_append, List.length_cons,
                          List.length_nil] at this
                        omega
                      intro i d hf
                      by_cases hddl : d = dst.length
                      · subst hddl
                        have hi : i = cur := fwd_src1_at_dl hsrc hb
                          (fwd_final_at_dl P1 (by simp) hf)
                        subst hi
                        refine Or.inr ⟨by rw [List.length_set]; exact hlt, ?_⟩
                        refine ⟨.Environment nm m none, .Environment nm m' none,
                          compat_live hc hsrc rfl,
                          List.get?_set_eq_of_lt _ hlt, ?_⟩
                        simp only [refsFwd]
                        exact ⟨trivial, F1, trivial⟩
                      · rcases hok2 i d hf with h' | h'
                        · rcases List.mem_cons.mp h' with h'' | h''
                          · exact absurd h'' hddl
                          · exact Or.inl h''
                        · refine Or.inr ⟨by rw [List.length_set]; exact h'.1, ?_⟩
                          exact cellCopiedAt_mono (fun _ _ hh => hh)
                            (List.get?_set_ne _ _ (fun hcq => hddl hcq.symm)) h'.2
                  | some ov =>
                      dsimp only at h
                      cases h2 : gc_dfs fuel src2 dst2 ov with
                      | none => rw [h2] at h; dsimp only at h; simp at h
                      | some t2 =>
                          obtain ⟨o', src3, dst3⟩ := t2
                          rw [h2] at h
                          dsimp only at h
                          simp only [Option.some.injEq, Prod.mk.injEq] at h
                          obtain ⟨hres, hs', hd'⟩ := h
                          subst hres; subst hs'; subst hd'
                          obtain ⟨P2, f2, _⟩ := (gc_dfs_post fuel).1 _ _ _ _ _ _ h2
                          have hok3 : srcOK A src3 dst3 (dst.length :: exc) :=
                            ihd A _ _ ov (dst.length :: exc) _ _ _ h2
                              (srcCompat_of_post hcomp1 P1)
                              (bhBounded_of_post hb1 P1) hok2
                          have hlt : dst.length < dst3.length := by
                            have := P1.le
                            have := P2.le
                            simp only [List.length_append, List.length_cons,
                              List.length_nil] at *
                            omega
                          intro i d hf
                          by_cases hddl : d = dst.length
                          · subst hddl
                            have hi : i = cur := fwd_src1_at_dl hsrc hb
                              (fwd_final_at_dl (P1.trans P2) (by simp) hf)
                            subst hi
                            refine Or.inr ⟨by rw [List.length_set]; exact hlt, ?_⟩
                            refine ⟨.Environment nm m (some ov),
                              .Environment nm m' (some o'),
                              compat_live hc hsrc rfl,
                              List.get?_set_eq_of_lt _ hlt, ?_⟩
                            simp only [refsFwd]
                            exact ⟨trivial, entriesFwd_mono P2.persist F1, f2⟩
                          · rcases hok3 i d hf with h' | h'
                            · rcases List.mem_cons.mp h' with h'' | h''
                              · exact absurd h'' hddl
                              · exact Or.inl h''
                            · refine Or.inr ⟨by rw [List.length_set]; exact h'.1, ?_⟩
                              exact cellCopiedAt_mono (fun _ _ hh => hh)
                                (List.get?_set_ne _ _ (fun hcq => hddl hcq.symm)) h'.2
      refine ⟨hdfs, ?_⟩
      intro A src dst es exc es' src' dst' h hc hb hok
      induction es generalizing src dst es' src' dst' with
      | nil =>
          simp only [gc_dfs_entries, Option.some.injEq, Prod.mk.injEq] at h
          obtain ⟨h1, h2, h3⟩ := h
          subst h1; subst h2; subst h3
          exact hok
      | cons kv rest ihes =>
          obtain ⟨k, v⟩ := kv
          rw [gc_dfs_entries] at h
          cases h1 : gc_dfs (fuel + 1) src dst v with
          | none => rw [h1] at h; dsimp only at h; simp at h
          | some t =>
              obtain ⟨v', src1, dst1⟩ := t
              rw [h1] at h
              dsimp only at h
              cases h2 : gc_dfs_entries (fuel + 1) src1 dst1 rest with
              | none => rw [h2] at h; dsimp only at h; simp at h
              | some t2 =>
                  obtain ⟨rest', src2, dst2⟩ := t2
                  rw [h2] at h
                  dsimp only at h
                  simp only [Option.some.injEq, Prod.mk.injEq] at h
                  obtain ⟨h1', h2', h3'⟩ := h
                  subst h1'; subst h2'; subst h3'
                  obtain ⟨P1, _, _⟩ := (gc_dfs_post (fuel + 1)).1 _ _ _ _ _ _ h1
                  have hok1 := hdfs A src dst v exc _ _ _ h1 hc hb hok
                  exact ihes src1 dst1 _ _ _ h2
                    (srcCompat_of_post hc P1) (bhBounded_of_post hb P1) hok1

theorem gcList_post : ∀ (fuel : Nat) (xs : List Nat)
    (src dst : List RuntimeNode) (xs' : List Nat)
    (src' dst' : List RuntimeNode),
    gcList fuel src dst xs = some (xs', src', dst') →
    DfsPost src dst src' dst' ∧
      List.Forall₂ (fun x x' => fwdTo src' x x') xs xs' := by
  intro fuel xs
  induction xs with
  | nil =>
      intro src dst xs' src' dst' h
      simp only [gcList, Option.some.injEq, Prod.mk.injEq] at h
      obtain ⟨h1, h2, h3⟩ := h
      subst h1; subst h2; subst h3
      exact ⟨DfsPost.rfl _ _, List.Forall₂.nil⟩
  | cons x rest ih =>
      intro src dst xs' src' dst' h
      rw [gcList] at h
      cases h1 : gc_dfs fuel src dst x with
      | none => rw [h1] at h; dsimp only at h; simp at h
      | some t =>
          obtain ⟨x', src1, dst1⟩ := t
          rw [h1] at h
          dsimp only at h
          cases h2 : gcList fuel src1 dst1 rest with
          | none => rw [h2] at h; dsimp only at h; simp at h
          | some t2 =>
              obtain ⟨rest', src2, dst2⟩ := t2
              rw [h2] at h
              dsimp only at h
              simp only [Option.some.injEq, Prod.mk.injEq] at h
              obtain ⟨h1', h2', h3'⟩ := h
              subst h1'; subst h2'; subst h3'
              obtain ⟨P1, f1, _⟩ := (gc_dfs_post fuel).1 _ _ _ _ _ _ h1
              obtain ⟨P2, F2⟩ := ih _ _ _ _ _ h2
              exact ⟨P1.trans P2, List.Forall₂.cons (P2.persist _ _ f1) F2⟩

theorem gcList_total : ∀ (fuel : Nat) (xs : List Nat)
    (A src dst : List RuntimeNode),
    srcCompat A src → wfArea A = true → (∀ x ∈ xs, x < src.length) →
    nonBH src < fuel → (gcList fuel src dst xs).isSome := by
  intro fuel xs
  induction xs with
  | nil => intro A src dst _ _ _ _; rw [gcList]; simp
  | cons x rest ih =>
      intro A src dst hc hw hbnd hf
      rw [gcList]
      have h1 := (gc_dfs_total fuel).1 A src dst x hc hw (hbnd x (by simp)) hf
      obtain ⟨t, ht⟩ := Option.isSome_iff_exists.mp h1
      obtain ⟨x', src1, dst1⟩ := t
      rw [ht]
      dsimp only
      obtain ⟨P1, _, _⟩ := (gc_dfs_post fuel).1 _ _ _ _ _ _ ht
      have h2 := ih A src1 dst1 (srcCompat_of_post hc P1)
        hw
        (fun y hy => by rw [P1.len]; exact hbnd y (List.mem_cons_of_mem _ hy))
        (by have := nonBH_le_of_post P1; omega)
      obtain ⟨t2, ht2⟩ := Option.isSome_iff_exists.mp h2
      obtain ⟨rest', src2, dst2⟩ := t2
      rw [ht2]
      dsimp only
      simp

theorem gcList_copy : ∀ (fuel : Nat) (xs : List Nat)
    (A src dst : List RuntimeNode) (exc : List Nat) (xs' : List Nat)
    (src' dst' : List RuntimeNode),
    gcList fuel src dst xs = some (xs', src', dst') →
    srcCompat A src → bhBounded src dst → srcOK A src dst exc →
    srcOK A src' dst' exc := by
  intro fuel xs
  induction xs with
  | nil =>
      intro A src dst exc xs' src' dst' h
      simp only [gcList, Option.some.injEq, Prod.mk.injEq] at h
      obtain ⟨h1, h2, h3⟩ := h
      subst h1; subst h2; subst h3
      exact fun _ _ hok => hok
  | cons x rest ih =>
      intro A src dst exc xs' src' dst' h hc hb hok
      rw [gcList] at h
      cases h1 : gc_dfs fuel src dst x with
      | none => rw [h1] at h; dsimp only at h; simp at h
      | some t =>
          obtain ⟨x', src1, dst1⟩ := t
          rw [h1] at h
          dsimp only at h
          cases h2 : gcList fuel src1 dst1 rest with
          | none => rw [h2] at h; dsimp only at h; simp at h
          | some t2 =>
              obtain ⟨rest', src2, dst2⟩ := t2
              rw [h2] at h
              dsimp only at h
              simp only [Option.some.injEq, Prod.mk.injEq] at h
              obtain ⟨h1', h2', h3'⟩ := h
              subst h1'; subst h2'; subst h3'
              obtain ⟨P1, _, _⟩ := (gc_dfs_post fuel).1 _ _ _ _ _ _ h1
              have hok1 := (gc_dfs_copy fuel).1 A src dst x exc _ _ _ h1 hc hb hok
              exact ih A src1 dst1 exc _ _ _ h2
                (srcCompat_of_post hc P1) (bhBounded_of_post hb P1) hok1

theorem roots_zip_forall₂ {s' : List RuntimeNode} :
    ∀ (rts : List (String × Nat)) (vals : List Nat),
    List.Forall₂ (fun x x' => fwdTo s' x x') (rts.map Prod.snd) vals →
    List.Forall₂ (fun p p' => (p' : String × Nat).1 = (p : String × Nat).1 ∧
      fwdTo s' p.2 p'.2) rts ((rts.map Prod.fst).zip vals) := by
  intro rts
  induction rts with
  | nil =>
      intro vals h
      cases h
      exact List.Forall₂.nil
  | cons p rest ih =>
      intro vals h
      rw [List.map_cons] at h
      cases h with
      | cons hx hrest => exact List.Forall₂.cons ⟨rfl, hx⟩ (ih _ hrest)

/-- Full specification of `Runtime::gc` on a well-formed runtime: the
collection terminates (returns `some`), the old active area survives as
the inactive area with tombstones recording the forwarding map, every
named root and every stack entry is remapped to its forwarded index, and
every forwarded cell has a faithful copy in the new active area whose
outgoing references are the forwarded indices.  The new area is no larger
than the old one, and `size` doubles exactly when nothing was
reclaimed. -/
theorem gc_full (r : Runtime) (h : wfB r = true) :
    ∃ r', gc r = some r' ∧
      r'.areas.2.length = r.areas.1.length ∧
      srcOK r.areas.1 r'.areas.2 r'.areas.1 [] ∧
      List.Forall₂ (fun p p' => (p' : String × Nat).1 = (p : String × Nat).1 ∧
        fwdTo r'.areas.2 p.2 p'.2) r.roots r'.roots ∧
      List.Forall₂ (fun x x' => fwdTo r'.areas.2 x x') r.stack r'.stack ∧
      bhBounded r'.areas.2 r'.areas.1 ∧
      r'.areas.1.length ≤ r.areas.1.length ∧
      r'.size = (if r'.areas.1.length = r.areas.1.length then r.size * 2
                 else r.size) ∧
      r'.stack.length = r.stack.length ∧ r'.roots.length = r.roots.length := by
  simp only [wfB, Bool.and_eq_true] at h
  obtain ⟨⟨hwa, hrb⟩, hsb⟩ := h
  have hrb' := List.all_eq_true.mp hrb
  have hsb' := List.all_eq_true.mp hsb
  have hcompat0 : srcCompat r.areas.1 r.areas.1 := ⟨rfl, fun _ => Or.inl rfl⟩
  have hbh0 : bhBounded r.areas.1 [] := by
    intro i d hf
    have := wfArea_live hwa hf
    simp [nodeIsBH] at this
  have hok0 : srcOK r.areas.1 r.areas.1 [] [] := by
    intro i d hf
    have := wfArea_live hwa hf
    simp [nodeIsBH] at this
  have hfuel : nonBH r.areas.1 < r.areas.1.length + 1 := by
    have := nonBH_le_length r.areas.1
    omega
  have ht1 := gcList_total (r.areas.1.length + 1) (r.roots.map Prod.snd)
    r.areas.1 r.areas.1 [] hcompat0 hwa
    (fun x hx => by simpa using hrb' x hx) hfuel
  obtain ⟨t1, ht1e⟩ := Option.isSome_iff_exists.mp ht1
  obtain ⟨rootVals, src1, dst1⟩ := t1
  obtain ⟨P1, F1⟩ := gcList_post _ _ _ _ _ _ _ ht1e
  have hok1 := gcList_copy _ _ r.areas.1 _ _ [] _ _ _ ht1e hcompat0 hbh0 hok0
  have hcompat1 := srcCompat_of_post hcompat0 P1
  have hbh1 := bhBounded_of_post hbh0 P1
  have ht2 := gcList_total (r.areas.1.length + 1) r.stack.reverse
    r.areas.1 src1 dst1 hcompat1 hwa
    (fun x hx => by
      rw [P1.len]
      have : x ∈ r.stack := List.mem_reverse.mp hx
      simpa using hsb' x this)
    (by have := nonBH_le_of_post P1; omega)
  obtain ⟨t2, ht2e⟩ := Option.isSome_iff_exists.mp ht2
  obtain ⟨stackRev, src2, dst2⟩ := t2
  obtain ⟨P2, F2⟩ := gcList_post _ _ _ _ _ _ _ ht2e
  have hok2 := gcList_copy _ _ r.areas.1 _ _ [] _ _ _ ht2e hcompat1 hbh1 hok1
  have hgc : gc r = some { r with
      stack := stackRev.reverse
      areas := (dst2, src2)
      roots := (r.roots.map Prod.fst).zip rootVals
      size := if dst2.length = r.areas.1.length then r.size * 2
              else r.size } := by
    rw [gc]
    rw [ht1e]
    dsimp only
    rw [ht2e]
  refine ⟨_, hgc, ?_, hok2, ?_, ?_, ?_, ?_, ?_, ?_, ?_⟩
  · exact P2.len.trans P1.len
  · exact (roots_zip_forall₂ r.roots rootVals F1).imp
      (fun p p' hp => ⟨hp.1, P2.persist _ _ hp.2⟩)
  · have := List.forall₂_reverse_iff.mpr F2
    rw [List.reverse_reverse] at this
    exact this
  · exact bhBounded_of_post hbh1 P2
  · dsimp only
    have hb1 := P1.bal
    have hb2 := P2.bal
    have := nonBH_le_length r.areas.1
    simp only [List.length_nil] at hb1
    omega
  · rfl
  · dsimp only
    have hthis := List.forall₂_reverse_iff.mpr F2
    rw [List.reverse_reverse] at hthis
    exact hthis.length_eq.symm
  · dsimp only
    have hl := F1.length_eq
    rw [List.length_map] at hl
    rw [List.length_zip, List.length_map, ← hl, min_self]

theorem forall₂_mem_left {α β : Type} {R : α → β → Prop} {l : List α}
    {l' : List β} (h : List.Forall₂ R l l') :
    ∀ x ∈ l, ∃ y ∈ l', R x y := by
  induction h with
  | nil => intro x hx; exact absurd hx (List.not_mem_nil x)
  | cons hr _ ih =>
      intro x hx
      rcases List.mem_cons.mp hx with hx | hx
      · subst hx; exact ⟨_, by simp, hr⟩
      · obtain ⟨y, hy, hR⟩ := ih x hx
        exact ⟨y, List.mem_cons_of_mem _ hy, hR⟩

/-- A faithfully copied cell has all of its outgoing references
forwarded. -/
theorem refsFwd_refs {s : List RuntimeNode} {a c : RuntimeNode}
    (h : refsFwd s a c) : ∀ k ∈ nodeRefs a, ∃ d, fwdTo s k d := by
  intro k hk
  cases a with
  | Symbol _ => simp [nodeRefs] at hk
  | Number _ => simp [nodeRefs] at hk
  | BrokenHeart _ => simp [nodeRefs] at hk
  | Pair x y =>
      cases c <;> simp only [refsFwd] at h
      simp only [nodeRefs, List.mem_cons, List.not_mem_nil, or_false] at hk
      rcases hk with hk | hk
      · subst hk; exact ⟨_, h.1⟩
      · subst hk; exact ⟨_, h.2⟩
  | Closure cl =>
      cases c <;> simp only [refsFwd] at h
      simp only [nodeRefs, List.mem_singleton] at hk
      subst hk
      exact ⟨_, h.2.2.2.2⟩
  | Environment nm m o =>
      cases c with
      | Environment nm' m' o' =>
          simp only [refsFwd] at h
          obtain ⟨-, hm, ho⟩ := h
          simp only [nodeRefs, List.mem_append] at hk
          rcases hk with hk | hk
          · obtain ⟨kv, hkv, hks⟩ := List.mem_map.mp hk
            subst hks
            obtain ⟨kv', _, -, hfw⟩ := forall₂_mem_left hm kv hkv
            exact ⟨kv'.2, hfw⟩
          · cases o with
            | none => simp at hk
            | some ov =>
                simp only [List.mem_singleton] at hk
                subst hk
                cases o' with
                | none => exact absurd ho (by simp [optFwd])
                | some ob => exact ⟨ob, ho⟩
      | Symbol _ => simp only [refsFwd] at h
      | Number _ => simp only [refsFwd] at h
      | Pair _ _ => simp only [refsFwd] at h
      | Closure _ => simp only [refsFwd] at h
      | BrokenHeart _ => simp only [refsFwd] at h

/-- The set of forwarded indices is closed under reachability in the
pre-collection area. -/
theorem reach_forwarded {A s dst : List RuntimeNode}
    (hok : srcOK A s dst []) {i j : Nat} (hreach : Reaches A i j)
    (hi : ∃ d, fwdTo s i d) : ∃ d, fwdTo s j d := by
  induction hreach with
  | refl => exact hi
  | step j' k n hr hj hk ih =>
      obtain ⟨d, hd⟩ := ih
      rcases hok j' d hd with h' | h'
      · exact absurd h' (List.not_mem_nil d)
      · obtain ⟨a, c, ha, hcget, hr'⟩ := h'.2
        rw [hj] at ha
        injection ha with ha
        subst ha
        exact refsFwd_refs hr' k hk

/-- C1: for a well-formed runtime (including heaps with cyclic pairs), the
collection terminates, every named root and every stack entry is remapped
to an index into the new active semi-space, every index reachable from a
root or a stack entry before the collection carries a tombstone naming
its new index, and each forwarded cell's copy has all of its transitive
references (car/cdr of a Pair, the variable map and outer of an
Environment, the captured env of a Closure) rewritten to the forwarded
indices. -/
theorem gc_correct (r : Runtime) (h : wfB r = true) :
    ∃ r', gc r = some r' ∧
      List.Forall₂ (fun p p' => (p' : String × Nat).1 = (p : String × Nat).1 ∧
        fwdTo r'.areas.2 p.2 p'.2 ∧ p'.2 < r'.areas.1.length)
        r.roots r'.roots ∧
      List.Forall₂ (fun x x' => fwdTo r'.areas.2 x x' ∧
        x' < r'.areas.1.length) r.stack r'.stack ∧
      (∀ i, ReachRoots r i → ∃ d, fwdTo r'.areas.2 i d ∧
        d < r'.areas.1.length ∧
        cellCopiedAt r.areas.1 r'.areas.2 r'.areas.1 i d) := by
  obtain ⟨r', hgc, _hlen, hok, hroots, hstack, hbh, _hle, _hsz, _, _⟩ :=
    gc_full r h
  refine ⟨r', hgc, ?_, ?_, ?_⟩
  · exact hroots.imp (fun p p' hp => ⟨hp.1, hp.2, hbh _ _ hp.2⟩)
  · exact hstack.imp (fun x x' hx => ⟨hx, hbh _ _ hx⟩)
  · intro i hri
    obtain ⟨s, hs, hreach⟩ := hri
    have hstart : ∃ d, fwdTo r'.areas.2 s d := by
      rcases hs with hs | hs
      · obtain ⟨kv, hkv, hks⟩ := List.mem_map.mp hs
        obtain ⟨kv', _, hkeq⟩ := forall₂_mem_left hroots kv hkv
        exact ⟨kv'.2, hks ▸ hkeq.2⟩
      · obtain ⟨x', _, hx⟩ := forall₂_mem_left hstack s hs
        exact ⟨x', hx⟩
    obtain ⟨d, hd⟩ := reach_forwarded hok hreach hstart
    rcases hok i d hd with h' | h'
    · exact absurd h' (List.not_mem_nil d)
    · exact ⟨d, hd, h'.1, h'.2⟩

/-- C1, witness: a concrete well-formed runtime whose heap contains a
self-referential pair rooted both by a named root and by the stack. -/
theorem gc_correct_witness :
    (wfB gcWitRuntime = true) ∧
    (∃ r', gc gcWitRuntime = some r' ∧
      List.Forall₂ (fun p p' => (p' : String × Nat).1 = (p : String × Nat).1 ∧
        fwdTo r'.areas.2 p.2 p'.2 ∧ p'.2 < r'.areas.1.length)
        gcWitRuntime.roots r'.roots ∧
      List.Forall₂ (fun x x' => fwdTo r'.areas.2 x x' ∧
        x' < r'.areas.1.length) gcWitRuntime.stack r'.stack ∧
      (∀ i, ReachRoots gcWitRuntime i →
        ∃ d, fwdTo r'.areas.2 i d ∧ d < r'.areas.1.length ∧
          cellCopiedAt gcWitRuntime.areas.1 r'.areas.2 r'.areas.1 i d)) :=
  ⟨by decide, gc_correct gcWitRuntime (by decide)⟩

/-- C8: on a well-formed runtime the collection returns; when it reclaims
zero cells (the used-cell count is unchanged) the capacity `size` is
doubled, otherwise it is kept; the capacity never shrinks. -/
theorem gc_zero_reclaim_doubles (r : Runtime) (h : wfB r = true) :
    ∃ r', gc r = some r' ∧
      (get_free r' = get_free r → r'.size = r.size * 2) ∧
      (get_free r' ≠ get_free r → r'.size = r.size) ∧
      r.size ≤ r'.size := by
  obtain ⟨r', hgc, _, _, _, _, _, _, hsz, _, _⟩ := gc_full r h
  refine ⟨r', hgc, ?_, ?_, ?_⟩
  · intro he
    simp only [get_free] at he
    rw [hsz, if_pos he]
  · intro he
    simp only [get_free] at he
    rw [hsz, if_neg he]
  · rw [hsz]
    by_cases he : r'.areas.1.length = r.areas.1.length
    · rw [if_pos he]; omega
    · rw [if_neg he]

/-- C8, witness: a full heap in which everything is live, so the
collection reclaims nothing and `size` doubles. -/
theorem gc_zero_reclaim_doubles_witness :
    (wfB gcFullRuntime = true) ∧
    (∃ r', gc gcFullRuntime = some r' ∧
      (get_free r' = get_free gcFullRuntime →
        r'.size = gcFullRuntime.size * 2) ∧
      (get_free r' ≠ get_free gcFullRuntime →
        r'.size = gcFullRuntime.size) ∧
      gcFullRuntime.size ≤ r'.size) :=
  ⟨by decide, gc_zero_reclaim_doubles gcFullRuntime (by decide)⟩

theorem forall₂_mem_right {α β : Type} {R : α → β → Prop} {l : List α}
    {l' : List β} (h : List.Forall₂ R l l') :
    ∀ y ∈ l', ∃ x ∈ l, R x y := by
  induction h with
  | nil => intro y hy; exact absurd hy (List.not_mem_nil y)
  | cons hr _ ih =>
      intro y hy
      rcases List.mem_cons.mp hy with hy | hy
      · subst hy; exact ⟨_, by simp, hr⟩
      · obtain ⟨x, hx, hR⟩ := ih y hy
        exact ⟨x, List.mem_cons_of_mem _ hx, hR⟩

theorem wfB_stack_bound {r : Runtime} (h : wfB r = true) :
    ∀ x ∈ r.stack, x < get_free r := by
  simp only [wfB, Bool.and_eq_true] at h
  intro x hx
  have := (List.all_eq_true.mp h.2) x hx
  simpa [get_free] using this

theorem wfB_push {r : Runtime} (h : wfB r = true) {x : Nat}
    (hx : x < get_free r) : wfB { r with stack := x :: r.stack } = true := by
  simp only [wfB, Bool.and_eq_true, List.all_cons] at h ⊢
  refine ⟨h.1, ?_, h.2⟩
  simpa [get_free] using hx

/-- `try_gc` on a well-formed runtime whose used count does not exceed
`size`: it returns, preserves the stack depth, leaves every stack entry a
valid index, and leaves headroom for one allocation; moreover either it
was a no-op (there was headroom already) or it ran the full collection
and the stack entries are the forwarded images of the old ones. -/
theorem try_gc_spec (r : Runtime) (h : wfB r = true)
    (hcap : get_free r ≤ r.size) :
    ∃ r1, try_gc r = some r1 ∧
      r1.stack.length = r.stack.length ∧
      (∀ x ∈ r1.stack, x < get_free r1) ∧
      (0 < get_free r → get_free r1 < r1.size) ∧
      ((get_free r < r.size ∧ r1 = r) ∨
       (¬ get_free r < r.size ∧ gc r = some r1 ∧
         List.Forall₂ (fun x x' => fwdTo r1.areas.2 x x') r.stack r1.stack)) := by
  by_cases hfree : get_free r < r.size
  · refine ⟨r, ?_, rfl, wfB_stack_bound h, fun _ => hfree,
      Or.inl ⟨hfree, rfl⟩⟩
    rw [try_gc, if_pos hfree]
  · obtain ⟨r1, hgc, _hl2, _hok, _hroots, hstack, hbh, hle, hsz, hslen, _⟩ :=
      gc_full r h
    refine ⟨r1, ?_, hslen, ?_, ?_, Or.inr ⟨hfree, hgc, hstack⟩⟩
    · rw [try_gc, if_neg hfree]; exact hgc
    · intro x hx
      obtain ⟨y, _, hfw⟩ := forall₂_mem_right hstack x hx
      exact hbh _ _ hfw
    · intro hpos
      have hfr : get_free r = r.size := le_antisymm hcap (not_lt.mp hfree)
      simp only [get_free] at hfr hpos hle ⊢
      by_cases hz : r1.areas.1.length = r.areas.1.length
      · rw [hsz, if_pos hz, hz]
        omega
      · rw [hsz, if_neg hz]
        have := lt_of_le_of_ne hle hz
        omega

/-- C10: `new_pair` and `new_env` run `try_gc` before popping their
operand indices.  On a well-formed runtime the allocation succeeds, the
stored car/cdr (resp. the stored outer) are the post-collection values
taken from the stack after `try_gc` — when a collection ran they are the
forwarded images of the pre-collection indices — and every field of the
freshly created cell is a valid index of the active semi-space. -/
theorem new_pair_new_env_post_gc (r : Runtime) (h : wfB r = true)
    (hcap : get_free r ≤ r.size) :
    (2 ≤ r.stack.length →
      ∃ r1 car cdr rest r',
        try_gc r = some r1 ∧ r1.stack = car :: cdr :: rest ∧
        new_pair r = some r' ∧
        r'.stack = r1.areas.1.length :: rest ∧
        heapGet r' r1.areas.1.length = some (.Pair car cdr) ∧
        car < r1.areas.1.length ∧ cdr < r1.areas.1.length ∧
        r1.areas.1.length < get_free r' ∧
        (¬ get_free r < r.size →
          List.Forall₂ (fun x x' => fwdTo r1.areas.2 x x')
            r.stack r1.stack)) ∧
    (∀ name outer, outer < get_free r →
      ∃ r1 outer' rest idx r',
        try_gc { r with stack := outer :: r.stack } = some r1 ∧
        r1.stack = outer' :: rest ∧
        new_env r name outer = some (idx, r') ∧
        idx = r1.areas.1.length ∧
        heapGet r' idx = some (.Environment name [] (some outer')) ∧
        outer' < idx ∧ idx < get_free r' ∧
        (¬ get_free r < r.size → fwdTo r1.areas.2 outer outer')) := by
  constructor
  · intro hlen
    obtain ⟨r1, htry, hslen, hbnd, hroom, hcase⟩ := try_gc_spec r h hcap
    have hpos : 0 < get_free r := by
      obtain ⟨x, hx⟩ : ∃ x, x ∈ r.stack := by
        cases hs : r.stack with
        | nil => rw [hs] at hlen; simp at hlen
        | cons a t => exact ⟨a, by simp [hs]⟩
      have := wfB_stack_bound h x hx
      omega
    have hroom' := hroom hpos
    have hroom'' : r1.areas.1.length < r1.size := by
      simpa [get_free] using hroom'
    obtain ⟨car, cdr, rest, hst⟩ :
        ∃ car cdr rest, r1.stack = car :: cdr :: rest := by
      cases hs : r1.stack with
      | nil => rw [hs] at hslen; simp at hslen; omega
      | cons a t =>
          cases ht : t with
          | nil => rw [hs, ht] at hslen; simp at hslen; omega
          | cons b u => exact ⟨a, b, u, by simp [hs, ht]⟩
    have hnp : new_pair r = some
        { stack := r1.areas.1.length :: rest
          areas := (r1.areas.1 ++ [.Pair car cdr], r1.areas.2)
          size := r1.size
          roots := r1.roots } := by
      rw [new_pair, htry]
      dsimp only
      rw [hst]
      dsimp only
      rw [new_node]
      dsimp only [get_free]
      rw [if_pos hroom'']
    refine ⟨r1, car, cdr, rest, _, htry, hst, hnp, rfl, ?_, ?_, ?_, ?_, ?_⟩
    · simp only [heapGet]
      exact List.get?_concat_length _ _
    · have := hbnd car (by simp [hst])
      simpa [get_free] using this
    · have := hbnd cdr (by simp [hst])
      simpa [get_free] using this
    · simp [get_free]
    · intro hng
      rcases hcase with ⟨hl, _⟩ | ⟨_, _, hfw⟩
      · exact absurd hl hng
      · exact hfw
  · intro name outer houter
    have hp := wfB_push h houter
    have hcap' : get_free { r with stack := outer :: r.stack } ≤
        { r with stack := outer :: r.stack }.size := hcap
    obtain ⟨r1, htry, hslen, hbnd, hroom, hcase⟩ :=
      try_gc_spec { r with stack := outer :: r.stack } hp hcap'
    have hpos : 0 < get_free { r with stack := outer :: r.stack } := by
      simp only [get_free] at houter ⊢
      omega
    have hroom' := hroom hpos
    have hroom'' : r1.areas.1.length < r1.size := by
      simpa [get_free] using hroom'
    obtain ⟨outer', rest, hst⟩ : ∃ outer' rest, r1.stack = outer' :: rest := by
      cases hs : r1.stack with
      | nil => rw [hs] at hslen; simp at hslen
      | cons a t => exact ⟨a, t, by simp [hs]⟩
    have hne : new_env r name outer = some (r1.areas.1.length,
        { stack := rest
          areas := (r1.areas.1 ++ [.Environment name [] (some outer')],
                    r1.areas.2)
          size := r1.size
          roots := r1.roots }) := by
      rw [new_env, htry]
      dsimp only
      rw [hst]
      dsimp only
      rw [new_node]
      dsimp only [get_free]
      rw [if_pos hroom'']
    refine ⟨r1, outer', rest, r1.areas.1.length, _, htry, hst, hne, rfl,
      ?_, ?_, ?_, ?_⟩
    · simp only [heapGet]
      exact List.get?_concat_length _ _
    · have := hbnd outer' (by simp [hst])
      simpa [get_free] using this
    · simp [get_free]
    · intro hng
      rcases hcase with ⟨hl, _⟩ | ⟨_, _, hfw⟩
      · exact absurd hl hng
      · rw [hst] at hfw
        cases hfw with
        | cons hx _ => exact hx

/-- C10, witness: on `c10Runtime` the active area is full, so both
allocations do trigger the collection before popping. -/
theorem new_pair_new_env_post_gc_witness :
    (wfB c10Runtime = true ∧ get_free c10Runtime ≤ c10Runtime.size) ∧
    ((2 ≤ c10Runtime.stack.length →
      ∃ r1 car cdr rest r',
        try_gc c10Runtime = some r1 ∧ r1.stack = car :: cdr :: rest ∧
        new_pair c10Runtime = some r' ∧
        r'.stack = r1.areas.1.length :: rest ∧
        heapGet r' r1.areas.1.length = some (.Pair car cdr) ∧
        car < r1.areas.1.length ∧ cdr < r1.areas.1.length ∧
        r1.areas.1.length < get_free r' ∧
        (¬ get_free c10Runtime < c10Runtime.size →
          List.Forall₂ (fun x x' => fwdTo r1.areas.2 x x')
            c10Runtime.stack r1.stack)) ∧
    (∀ name outer, outer < get_free c10Runtime →
      ∃ r1 outer' rest idx r',
        try_gc { c10Runtime with stack := outer :: c10Runtime.stack } =
          some r1 ∧
        r1.stack = outer' :: rest ∧
        new_env c10Runtime name outer = some (idx, r') ∧
        idx = r1.areas.1.length ∧
        heapGet r' idx = some (.Environment name [] (some outer')) ∧
        outer' < idx ∧ idx < get_free r' ∧
        (¬ get_free c10Runtime < c10Runtime.size →
          fwdTo r1.areas.2 outer outer'))) :=
  ⟨⟨by decide, by decide⟩,
   new_pair_new_env_post_gc c10Runtime (by decide) (by decide)⟩

theorem numbersOf_map (l : List Relic.Number) :
    numbersOf (l.map RuntimeNode.Number) = .ok l := by
  induction l with
  | nil => rfl
  | cons v vs ih => simp [numbersOf, nodeToNumber, ih]

theorem node_vec_values :
    ∀ (args : List Nat) (r : Runtime) (rest : List Nat)
      (vals : List Relic.Number),
    r.stack = args ++ rest →
    List.Forall₂ (fun i v => heapGet r i = some (.Number v)) args vals →
    node_vec_from_stack r args.length =
      some (vals.map RuntimeNode.Number, { r with stack := rest }) := by
  intro args
  induction args with
  | nil =>
      intro r rest vals hstk hvals
      cases hvals
      obtain ⟨st, ar, sz, rt⟩ := r
      simp only [List.nil_append] at hstk
      subst hstk
      rfl
  | cons a args' ih =>
      intro r rest vals hstk hvals
      cases hvals with
      | cons hv hrest =>
          rw [List.cons_append] at hstk
          simp only [List.length_cons, node_vec_from_stack]
          rw [hstk]
          dsimp only
          rw [show heapGet r a = _ from hv]
          dsimp only
          have hrec := ih { r with stack := args' ++ rest } rest _ rfl hrest
          rw [hrec]
          rfl

theorem eval_arith_numbers (v : Relic.Number) (vs : List Relic.Number)
    (op : Relic.Number → Relic.Number → Relic.Number)
    (h2 : 1 ≤ vs.length) :
    eval_arith ((v :: vs).map RuntimeNode.Number) op =
      .ok (vs.foldl op v) := by
  rw [eval_arith]
  have hlen : ¬ ((v :: vs).map RuntimeNode.Number).length < 2 := by
    simp only [List.map_cons, List.length_cons, List.length_map]
    omega
  rw [no_less_than_n_params, if_neg hlen]
  dsimp only
  rw [numbersOf_map]

theorem eval_arith_one (v : Relic.Number)
    (op : Relic.Number → Relic.Number → Relic.Number) :
    eval_arith [RuntimeNode.Number v] op =
      .error "Fewer parameters than requested" := by
  rw [eval_arith, no_less_than_n_params, if_pos (by simp)]

theorem loadRes_headroom (r : Runtime) (node : RuntimeNode)
    (hroom : get_free r < r.size) :
    loadRes r node = .ok { r with
      stack := get_free r :: r.stack
      areas := (r.areas.1 ++ [node], r.areas.2) } := by
  rw [loadRes, loadNode, new_node_with_gc, try_gc, if_pos hroom]
  dsimp only
  rw [new_node, if_pos hroom]

theorem foldl_div_float (v : Relic.Number) :
    ∀ vs : List Relic.Number, vs ≠ [] →
      ∃ q, vs.foldl Number.div v = .Float q := by
  intro vs
  induction vs generalizing v with
  | nil => intro h; exact absurd rfl h
  | cons w ws ih =>
      intro _
      cases hw : ws with
      | nil => exact ⟨_, rfl⟩
      | cons u us =>
          rw [List.foldl_cons]
          exact hw ▸ ih (Number.div v w) (by simp [hw])

/-- Unfolding `apply` down to the operator dispatch when the top of the
stack is a symbol above a non-negative integer count. -/
theorem apply_dispatch (fuel : Nat) (r : Runtime) (iop iN : Nat)
    (rest : List Nat) (s : Relic.Symbol) (n : Nat)
    (hstk : r.stack = iop :: iN :: rest)
    (hop : heapGet r iop = some (.Symbol s))
    (hN : heapGet r iN = some (.Number (.Int (n : ℤ)))) :
    apply fuel r = applyOp fuel { r with stack := rest } s n := by
  rw [apply, hstk]
  dsimp only
  rw [hop]
  dsimp only
  rw [hN]
  dsimp only
  rw [usizeFromNumber]
  rw [if_pos (Int.natCast_nonneg n)]
  dsimp only
  rw [Int.toNat_natCast]

/-- C6, counterexample: applying `+` to a single operand does not succeed;
`eval_arith` requires at least two parameters
(`no_less_than_n_params(values, 2)` in src/util.rs), so `(+ 5)` is a
runtime error, contradicting the claimed arity `n ≥ 1`. -/
theorem arith_single_operand_errs :
    apply 1 c6Runtime =
      .err { c6Runtime with stack := [] }
        "Fewer parameters than requested" := by decide

/-- C6, amended: the operators `+ - * /` applied through `apply` accept
`n ≥ 2` numeric operands and return their left-to-right variadic fold
(with `/` always producing a Float); a single operand is rejected with an
arity error. -/
theorem arith_variadic_fold (fuel : Nat) (r : Runtime) (iop iN : Nat)
    (args rest : List Nat)
    (s : Relic.Symbol) (op : Relic.Number → Relic.Number → Relic.Number)
    (v : Relic.Number) (vs : List Relic.Number)
    (hs : (s = .Add ∧ op = Number.add) ∨ (s = .Sub ∧ op = Number.sub) ∨
          (s = .Mul ∧ op = Number.mul) ∨ (s = .Div ∧ op = Number.div))
    (hstk : r.stack = iop :: iN :: (args ++ rest))
    (hop : heapGet r iop = some (.Symbol s))
    (hN : heapGet r iN = some (.Number (.Int (args.length : ℤ))))
    (hvals : List.Forall₂ (fun i v => heapGet r i = some (.Number v))
      args (v :: vs))
    (hroom : get_free r < r.size) :
    (1 ≤ vs.length →
      apply fuel r = .ok { r with
        stack := get_free r :: rest
        areas := (r.areas.1 ++ [.Number (vs.foldl op v)], r.areas.2) } ∧
      (s = .Div → ∃ q, vs.foldl op v = .Float q)) ∧
    (vs = [] →
      apply fuel r = .err { r with stack := rest }
        "Fewer parameters than requested") := by
  have hd := apply_dispatch fuel r iop iN (args ++ rest) s args.length
    hstk hop hN
  have hop' : applyOp fuel { r with stack := args ++ rest } s args.length =
      arithOp { r with stack := args ++ rest } args.length op := by
    rcases hs with ⟨h1, h2⟩ | ⟨h1, h2⟩ | ⟨h1, h2⟩ | ⟨h1, h2⟩ <;>
      (subst h1; subst h2; rfl)
  have hnv := node_vec_values args { r with stack := args ++ rest } rest
    (v :: vs) rfl hvals
  constructor
  · intro h1
    constructor
    · rw [hd, hop', arithOp, hnv]
      dsimp only
      rw [eval_arith_numbers v vs op h1]
      dsimp only
      exact loadRes_headroom { r with stack := rest } _ hroom
    · intro hdiv
      have hopd : op = Number.div := by
        rcases hs with ⟨h1', _⟩ | ⟨h1', _⟩ | ⟨h1', _⟩ | ⟨_, h2'⟩
        · subst h1'; exact absurd hdiv (by decide)
        · subst h1'; exact absurd hdiv (by decide)
        · subst h1'; exact absurd hdiv (by decide)
        · exact h2'
      subst hopd
      exact foldl_div_float v vs (by
        intro hE; rw [hE] at h1; simp at h1)
  · intro h0
    subst h0
    rw [hd, hop', arithOp, hnv]
    dsimp only
    simp only [List.map_cons, List.map_nil]
    rw [eval_arith_one]

/-- C6, witness: `(+ 5 7)` evaluates to 12 through the amended theorem. -/
theorem arith_variadic_fold_witness :
    (get_free c6wRuntime < c6wRuntime.size) ∧
    ((1 ≤ [Relic.Number.Int 7].length →
      apply 1 c6wRuntime = .ok { c6wRuntime with
        stack := get_free c6wRuntime :: []
        areas := (c6wRuntime.areas.1 ++
          [.Number ([Relic.Number.Int 7].foldl Number.add (.Int 5))],
          c6wRuntime.areas.2) } ∧
      (Relic.Symbol.Add = .Div →
        ∃ q, [Relic.Number.Int 7].foldl Number.add (.Int 5) = .Float q)) ∧
    ([Relic.Number.Int 7] = [] →
      apply 1 c6wRuntime = .err { c6wRuntime with stack := [] }
        "Fewer parameters than requested")) :=
  ⟨by decide,
   arith_variadic_fold 1 c6wRuntime 0 1 [2, 3] [] .Add Number.add
     (.Int 5) [.Int 7] (Or.inl ⟨rfl, rfl⟩) (by decide) (by decide)
     (by decide)
     (List.Forall₂.cons (by decide)
       (List.Forall₂.cons (by decide) List.Forall₂.nil))
     (by decide)⟩

/-- C7, counterexample: `(/ 1 0)` does not raise an error: `impl Div for
Number` converts both operands to floats and divides (total in IEEE), so
`apply` succeeds and pushes a Float (the ℚ stand-in records 0 where IEEE
produces an infinity). -/
theorem div_by_zero_no_error :
    ∃ q, apply 1 c7Runtime = .ok { c7Runtime with
      stack := [4]
      areas := (c7Runtime.areas.1 ++ [.Number (.Float q)],
                c7Runtime.areas.2) } := ⟨_, rfl⟩

/-- C7, amended: applying `/` with a divisor equal to zero does not raise
an error: it succeeds and pushes a Float (IEEE infinity or NaN in the
implementation; the ℚ stand-in abstracts the payload). -/
theorem div_by_zero_returns_float (fuel : Nat) (r : Runtime)
    (iop iN a b : Nat) (rest : List Nat) (x : Relic.Number)
    (hstk : r.stack = iop :: iN :: a :: b :: rest)
    (hop : heapGet r iop = some (.Symbol .Div))
    (hN : heapGet r iN = some (.Number (.Int ((2 : Nat) : ℤ))))
    (ha : heapGet r a = some (.Number x))
    (hb : heapGet r b = some (.Number (.Int 0)))
    (hroom : get_free r < r.size) :
    ∃ q, apply fuel r = .ok { r with
      stack := get_free r :: rest
      areas := (r.areas.1 ++ [.Number (.Float q)], r.areas.2) } := by
  have hd := apply_dispatch fuel r iop iN ([a, b] ++ rest) .Div 2
    (by simpa using hstk) hop hN
  have hnv := node_vec_values [a, b] { r with stack := [a, b] ++ rest } rest
    [x, .Int 0] rfl
    (List.Forall₂.cons ha (List.Forall₂.cons hb List.Forall₂.nil))
  have hnv2 : node_vec_from_stack { r with stack := [a, b] ++ rest } 2 =
      some ([x, .Int 0].map RuntimeNode.Number, { r with stack := rest }) :=
    hnv
  refine ⟨x.toF / (Relic.Number.Int 0).toF, ?_⟩
  rw [hd]
  rw [show applyOp fuel { r with stack := [a, b] ++ rest } .Div 2 =
    arithOp { r with stack := [a, b] ++ rest } 2 Number.div from rfl]
  rw [arithOp, hnv2]
  dsimp only
  rw [eval_arith_numbers x [.Int 0] Number.div (by simp)]
  dsimp only
  exact loadRes_headroom { r with stack := rest } _ hroom

/-- C7, witness for the amended theorem at `(/ 1 0)`. -/
theorem div_by_zero_returns_float_witness :
    (get_free c7Runtime < c7Runtime.size) ∧
    (∃ q, apply 1 c7Runtime = .ok { c7Runtime with
      stack := get_free c7Runtime :: []
      areas := (c7Runtime.areas.1 ++ [.Number (.Float q)],
                c7Runtime.areas.2) }) :=
  ⟨by decide,
   div_by_zero_returns_float 1 c7Runtime 0 1 2 3 [] (.Int 1)
     (by decide) (by decide) (by decide) (by decide) (by decide)
     (by decide)⟩

/-- C5, counterexample: in `envCexRuntime` the chain 0 → 1 binds `x` to the
old index 2; `set` with the new index 3 succeeds but returns `Some 3` —
the index just written — not the old index 2 that the claim promises. -/
theorem envSet_returns_new_value :
    (envSet 2 envCexRuntime 0 "x" 3).map (fun p => p.1) = some (some 3) ∧
    mapGet [("x", 2)] "x" = some 2 := by decide

/-- C5, amended: `set(name, v)` updates in place the innermost environment
along the outer chain that already binds `name` and returns the index
just written (the new value `v`, not the previously bound index); when no
environment in the chain binds `name` it reports unbound (`none`) and
leaves the runtime unchanged. -/
theorem envSet_updates_innermost (r : Runtime) (idx : Nat) (l : List Nat)
    (key : String) (v : Nat) (hc : EnvChain r idx l) :
    ((∀ e ∈ l, ¬ envBindsKey r e key) →
       envSet l.length r idx key v = some (none, r)) ∧
    (∀ l1 e l2, l = l1 ++ e :: l2 → (∀ e' ∈ l1, ¬ envBindsKey r e' key) →
       envBindsKey r e key →
       ∃ nm m o, heapGet r e = some (.Environment nm m o) ∧
         envSet l.length r idx key v =
           some (some v,
             { r with areas := (r.areas.1.set e
                 (.Environment nm (mapInsert m key v) o), r.areas.2) })) := by
  induction hc with
  | last e nm m h =>
      constructor
      · intro hnone
        have hne := hnone e (by simp)
        have hm : mapGet m key = none := by
          cases hmg : mapGet m key with
          | none => rfl
          | some w => exact absurd ⟨nm, m, none, h, by simp [hmg]⟩ hne
        simp [envSet, get_cur_env, h, hm]
      · intro l1 e' l2 hl hl1 hbind
        have : l1 = [] ∧ e' = e ∧ l2 = [] := by
          cases l1 with
          | nil => simp at hl; exact ⟨rfl, hl.1.symm, hl.2⟩
          | cons a t => simp at hl
        obtain ⟨h1, h2, _⟩ := this
        subst h1; subst h2
        obtain ⟨nm', m', o', he', hsome⟩ := hbind
        rw [h] at he'
        cases he'
        obtain ⟨w, hw⟩ := Option.isSome_iff_exists.mp hsome
        refine ⟨nm, m, none, h, ?_⟩
        simp [envSet, get_cur_env, h, hw, insert_cur_env]
  | cons e o nm m l' h _ho ih =>
      constructor
      · intro hnone
        have hne := hnone e (by simp)
        have hm : mapGet m key = none := by
          cases hmg : mapGet m key with
          | none => rfl
          | some w => exact absurd ⟨nm, m, some o, h, by simp [hmg]⟩ hne
        have hrec := ih.1 (fun x hx => hnone x (by simp [hx]))
        simp [envSet, get_cur_env, h, hm, hrec]
      · intro l1 e' l2 hl hl1 hbind
        cases l1 with
        | nil =>
            simp at hl
            obtain ⟨he, _⟩ := hl
            subst he
            obtain ⟨nm', m', o', he', hsome⟩ := hbind
            rw [h] at he'
            cases he'
            obtain ⟨w, hw⟩ := Option.isSome_iff_exists.mp hsome
            refine ⟨nm, m, some o, h, ?_⟩
            simp [envSet, get_cur_env, h, hw, insert_cur_env]
        | cons a t =>
            simp at hl
            obtain ⟨ha, hl'⟩ := hl
            subst ha
            have hne := hl1 e (by simp)
            have hm : mapGet m key = none := by
              cases hmg : mapGet m key with
              | none => rfl
              | some w => exact absurd ⟨nm, m, some o, h, by simp [hmg]⟩ hne
            obtain ⟨nm', m', o', he', hrec⟩ :=
              ih.2 t e' l2 hl' (fun x hx => hl1 x (by simp [hx])) hbind
            refine ⟨nm', m', o', he', ?_⟩
            simp [envSet, get_cur_env, h, hm, hrec]

/-- C5, witness: applying the amended theorem on the concrete two-level
chain of `envCexRuntime`, where the outer environment binds `x`. -/
theorem envSet_updates_innermost_witness :
    ((∀ e ∈ [0, 1], ¬ envBindsKey envCexRuntime e "x") →
       envSet 2 envCexRuntime 0 "x" 3 = some (none, envCexRuntime)) ∧
    (∀ l1 e l2, [0, 1] = l1 ++ e :: l2 →
       (∀ e' ∈ l1, ¬ envBindsKey envCexRuntime e' "x") →
       envBindsKey envCexRuntime e "x" →
       ∃ nm m o, heapGet envCexRuntime e = some (.Environment nm m o) ∧
         envSet 2 envCexRuntime 0 "x" 3 =
           some (some 3,
             { envCexRuntime with areas := (envCexRuntime.areas.1.set e
                 (.Environment nm (mapInsert m "x" 3) o),
                 envCexRuntime.areas.2) })) :=
  envSet_updates_innermost envCexRuntime 0 [0, 1] "x" 3
    (EnvChain.cons 0 1 "inner" [] [1] (by decide)
      (EnvChain.last 1 "top" [("x", 2)] (by decide)))

/-- `node_vec_from_stack` pops exactly `n` indices: on success the
resulting runtime is the input with the top `n` stack entries dropped
and everything else untouched. -/
theorem node_vec_shape : ∀ (n : Nat) (r : Runtime)
    (ops : List RuntimeNode) (r1 : Runtime),
    node_vec_from_stack r n = some (ops, r1) →
    r1 = { r with stack := r.stack.drop n } ∧ n ≤ r.stack.length := by
  intro n
  induction n with
  | zero =>
      intro r ops r1 h
      rw [node_vec_from_stack] at h
      simp only [Option.some.injEq, Prod.mk.injEq] at h
      obtain ⟨_, h2⟩ := h
      subst h2
      exact ⟨by simp, Nat.zero_le _⟩
  | succ n ih =>
      intro r ops r1 h
      rw [node_vec_from_stack] at h
      cases hs : r.stack with
      | nil => rw [hs] at h; exact Option.noConfusion h
      | cons idx rest =>
          rw [hs] at h
          dsimp only at h
          cases hg : heapGet r idx with
          | none => rw [hg] at h; exact Option.noConfusion h
          | some node =>
              rw [hg] at h
              dsimp only at h
              cases hrec : node_vec_from_stack { r with stack := rest } n with
              | none => rw [hrec] at h; exact Option.noConfusion h
              | some t =>
                  obtain ⟨ops2, r2⟩ := t
                  rw [hrec] at h
                  dsimp only at h
                  simp only [Option.some.injEq, Prod.mk.injEq] at h
                  obtain ⟨_, h2⟩ := h
                  subst h2
                  obtain ⟨he, hle⟩ := ih { r with stack := rest } ops2 r2 hrec
                  constructor
                  · rw [he]
                    simp [hs]
                  · dsimp only at hle
                    simp only [List.length_cons]
                    omega

/-- `popN` pops exactly `n` indices: the popped list is the top `n`
entries of the stack and the rest of the runtime is untouched. -/
theorem popN_shape : ∀ (n : Nat) (r : Runtime) (xs : List Nat)
    (r1 : Runtime), popN r n = some (xs, r1) →
    xs = r.stack.take n ∧ r1 = { r with stack := r.stack.drop n } ∧
      n ≤ r.stack.length := by
  intro n
  induction n with
  | zero =>
      intro r xs r1 h
      rw [popN] at h
      simp only [Option.some.injEq, Prod.mk.injEq] at h
      obtain ⟨h1, h2⟩ := h
      subst h2
      exact ⟨by simp [h1], by simp, Nat.zero_le _⟩
  | succ n ih =>
      intro r xs r1 h
      rw [popN] at h
      cases hs : r.stack with
      | nil => rw [hs] at h; exact Option.noConfusion h
      | cons idx rest =>
          rw [hs] at h
          dsimp only at h
          cases hrec : popN { r with stack := rest } n with
          | none => rw [hrec] at h; exact Option.noConfusion h
          | some t =>
              obtain ⟨xs2, r2⟩ := t
              rw [hrec] at h
              dsimp only at h
              simp only [Option.some.injEq, Prod.mk.injEq] at h
              obtain ⟨h1, h2⟩ := h
              subst h2
              obtain ⟨hx, he, hle⟩ := ih { r with stack := rest } xs2 r2 hrec
              refine ⟨?_, ?_, ?_⟩
              · rw [← h1, hx]
                simp [hs]
              · rw [he]
                simp [hs]
              · dsimp only at hle
                simp only [List.length_cons]
                omega

/-- `pushList` prepends the reversed list to the stack. -/
theorem pushList_shape : ∀ (xs : List Nat) (r : Runtime),
    pushList r xs = { r with stack := xs.reverse ++ r.stack } := by
  intro xs
  induction xs with
  | nil => intro r; simp [pushList]
  | cons x rest ih =>
      intro r
      have h1 : pushList r (x :: rest) =
          pushList { r with stack := x :: r.stack } rest := rfl
      rw [h1, ih]
      simp

/-- A successful collection preserves the stack depth (every stack entry
is forwarded to exactly one new index). -/
theorem gc_stack_length {r r' : Runtime} (h : gc r = some r') :
    r'.stack.length = r.stack.length := by
  rw [gc] at h
  cases h1 : gcList (r.areas.1.length + 1) r.areas.1 []
      (r.roots.map Prod.snd) with
  | none => rw [h1] at h; exact Option.noConfusion h
  | some t1 =>
      obtain ⟨rootVals, src1, dst1⟩ := t1
      rw [h1] at h
      dsimp only at h
      cases h2 : gcList (r.areas.1.length + 1) src1 dst1 r.stack.reverse with
      | none => rw [h2] at h; exact Option.noConfusion h
      | some t2 =>
          obtain ⟨stackRev, src2, dst2⟩ := t2
          rw [h2] at h
          dsimp only at h
          simp only [Option.some.injEq] at h
          subst h
          obtain ⟨_, hf⟩ := gcList_post _ _ _ _ _ _ _ h2
          have hl := hf.length_eq
          simp only [List.length_reverse] at hl
          simp [hl]

/-- `try_gc` preserves the stack depth whenever it succeeds. -/
theorem try_gc_stack_length {r r1 : Runtime} (h : try_gc r = some r1) :
    r1.stack.length = r.stack.length := by
  rw [try_gc] at h
  by_cases hf : get_free r < r.size
  · rw [if_pos hf] at h
    simp only [Option.some.injEq] at h
    subst h
    rfl
  · rw [if_neg hf] at h
    exact gc_stack_length h

/-- `load_to` pushes exactly one index on success. -/
theorem loadNode_length {r : Runtime} {nd : RuntimeNode} {r' : Runtime}
    (h : loadNode r nd = some r') :
    r'.stack.length = r.stack.length + 1 := by
  rw [loadNode] at h
  cases hn : new_node_with_gc r nd with
  | none => rw [hn] at h; exact Option.noConfusion h
  | some t =>
      obtain ⟨idx, r2⟩ := t
      rw [hn] at h
      dsimp only at h
      simp only [Option.some.injEq] at h
      subst h
      rw [new_node_with_gc] at hn
      cases ht : try_gc r with
      | none => rw [ht] at hn; exact Option.noConfusion hn
      | some r1 =>
          rw [ht] at hn
          dsimp only at hn
          rw [new_node] at hn
          by_cases hf : get_free r1 < r1.size
          · rw [if_pos hf] at hn
            simp only [Option.some.injEq, Prod.mk.injEq] at hn
            obtain ⟨_, hr2⟩ := hn
            subst hr2
            have hl := try_gc_stack_length ht
            simp [hl]
          · rw [if_neg hf] at hn
            exact Option.noConfusion hn

/-- `load_to!` in `apply` pushes exactly one index on success. -/
theorem loadRes_ok_length {r : Runtime} {nd : RuntimeNode} {r' : Runtime}
    (h : loadRes r nd = .ok r') : r'.stack.length = r.stack.length + 1 := by
  rw [loadRes] at h
  cases hl : loadNode r nd with
  | none => rw [hl] at h; exact ExecRes.noConfusion h
  | some r2 =>
      rw [hl] at h
      dsimp only at h
      cases h
      exact loadNode_length hl

/-- `load_to!` never produces a recoverable error (it either succeeds or
panics on allocation failure). -/
theorem loadRes_not_err {r : Runtime} {nd : RuntimeNode} {r' : Runtime}
    {e : String} (h : loadRes r nd = .err r' e) : False := by
  rw [loadRes] at h
  cases hl : loadNode r nd with
  | none => rw [hl] at h; exact ExecRes.noConfusion h
  | some r2 => rw [hl] at h; exact ExecRes.noConfusion h

/-- `new_pair` pops two indices and pushes one: net stack change −1. -/
theorem new_pair_length {r r' : Runtime} (h : new_pair r = some r') :
    r'.stack.length + 1 = r.stack.length := by
  rw [new_pair] at h
  cases ht : try_gc r with
  | none => rw [ht] at h; exact Option.noConfusion h
  | some r1 =>
      rw [ht] at h
      dsimp only at h
      cases hs : r1.stack with
      | nil => rw [hs] at h; exact Option.noConfusion h
      | cons car t =>
          cases t with
          | nil => rw [hs] at h; dsimp only at h; exact Option.noConfusion h
          | cons cdr rest =>
              rw [hs] at h
              dsimp only at h
              rw [new_node] at h
              by_cases hf : get_free { r1 with stack := rest } <
                  ({ r1 with stack := rest } : Runtime).size
              · rw [if_pos hf] at h
                dsimp only at h
                simp only [Option.some.injEq] at h
                subst h
                have hl := try_gc_stack_length ht
                rw [hs] at hl
                simp only [List.length_cons] at hl
                simp only [List.length_cons]
                omega
              · rw [if_neg hf] at h
                exact Option.noConfusion h

/-- The `swap`/`new_pair` loop of `zip_stack_nodes` removes exactly `n`
stack entries. -/
theorem zipLoop_length : ∀ (n : Nat) (r r' : Runtime),
    zipLoop n r = some r' → r'.stack.length + n = r.stack.length := by
  intro n
  induction n with
  | zero =>
      intro r r' h
      rw [zipLoop] at h
      simp only [Option.some.injEq] at h
      subst h
      simp
  | succ n ih =>
      intro r r' h
      rw [zipLoop] at h
      cases hsw : swapStack r with
      | none => rw [hsw] at h; exact Option.noConfusion h
      | some r1 =>
          rw [hsw] at h
          dsimp only at h
          cases hnp : new_pair r1 with
          | none => rw [hnp] at h; exact Option.noConfusion h
          | some r2 =>
              rw [hnp] at h
              dsimp only at h
              have h1 := ih r2 r' h
              have h2 := new_pair_length hnp
              have h3 : r1.stack.length = r.stack.length := by
                rw [swapStack] at hsw
                cases hs : r.stack with
                | nil =>
                    rw [hs] at hsw
                    exact Option.noConfusion hsw
                | cons a t =>
                    cases t with
                    | nil =>
                        rw [hs] at hsw
                        dsimp only at hsw
                        exact Option.noConfusion hsw
                    | cons b rest =>
                        rw [hs] at hsw
                        dsimp only at hsw
                        simp only [Option.some.injEq] at hsw
                        subst hsw
                        simp [hs]
              omega

/-- `zip_stack_nodes` pops `n` indices and pushes one packed list: net
stack change `1 − n`. -/
theorem zip_stack_nodes_length {r : Runtime} {n : Nat} {r' : Runtime}
    (h : zip_stack_nodes r n = some r') :
    r'.stack.length + n = r.stack.length + 1 := by
  rw [zip_stack_nodes] at h
  cases hp : popN r n with
  | none => rw [hp] at h; exact Option.noConfusion h
  | some t =>
      obtain ⟨nodes, r1⟩ := t
      rw [hp] at h
      dsimp only at h
      cases hl : loadNode (pushList r1 nodes) (.Symbol .Nil) with
      | none => rw [hl] at h; exact Option.noConfusion h
      | some r2 =>
          rw [hl] at h
          dsimp only at h
          obtain ⟨hxs, hr1, hle⟩ := popN_shape n r nodes r1 hp
          have h2 := loadNode_length hl
          have h3 := zipLoop_length n r2 r' h
          rw [pushList_shape] at h2
          subst hr1
          dsimp only at h2
          have hnl : nodes.length = n := by
            rw [hxs, List.length_take]
            omega
          simp only [List.length_append, List.length_reverse,
            List.length_drop] at h2
          omega

/-- `pop_as_node` pops exactly one index. -/
theorem pop_as_node_shape {r : Runtime} {nd : RuntimeNode} {r1 : Runtime}
    (h : pop_as_node r = some (nd, r1)) :
    r1 = { r with stack := r.stack.drop 1 } ∧ 1 ≤ r.stack.length := by
  rw [pop_as_node] at h
  cases hs : r.stack with
  | nil => rw [hs] at h; exact Option.noConfusion h
  | cons idx rest =>
      rw [hs] at h
      dsimp only at h
      cases hg : heapGet r idx with
      | none => rw [hg] at h; exact Option.noConfusion h
      | some node =>
          rw [hg] at h
          dsimp only at h
          simp only [Option.some.injEq, Prod.mk.injEq] at h
          obtain ⟨_, h2⟩ := h
          subst h2
          exact ⟨by simp [hs], by simp [hs]⟩

/-- The `arith_op!` arm pops `nargs` operands and pushes one result. -/
theorem arithOp_ok_length {r : Runtime} {n : Nat}
    {op : Relic.Number → Relic.Number → Relic.Number} {r' : Runtime}
    (h : arithOp r n op = .ok r') :
    r'.stack.length + n = r.stack.length + 1 := by
  rw [arithOp] at h
  cases hv : node_vec_from_stack r n with
  | none => rw [hv] at h; exact ExecRes.noConfusion h
  | some t =>
      obtain ⟨ops, r1⟩ := t
      rw [hv] at h
      dsimp only at h
      cases he : eval_arith ops op with
      | error e => rw [he] at h; exact ExecRes.noConfusion h
      | ok v =>
          rw [he] at h
          dsimp only at h
          obtain ⟨hr1, hle⟩ := node_vec_shape n r ops r1 hv
          have hlen := loadRes_ok_length h
          subst hr1
          dsimp only at hlen
          simp only [List.length_drop] at hlen
          omega

/-- A failing `arith_op!` arm has popped exactly its `nargs` operands. -/
theorem arithOp_err_shape {r : Runtime} {n : Nat}
    {op : Relic.Number → Relic.Number → Relic.Number} {r' : Runtime}
    {e : String} (h : arithOp r n op = .err r' e) :
    r' = { r with stack := r.stack.drop n } ∧ n ≤ r.stack.length := by
  rw [arithOp] at h
  cases hv : node_vec_from_stack r n with
  | none => rw [hv] at h; exact ExecRes.noConfusion h
  | some t =>
      obtain ⟨ops, r1⟩ := t
      rw [hv] at h
      dsimp only at h
      cases he : eval_arith ops op with
      | error msg =>
          rw [he] at h
          dsimp only at h
          cases h
          exact node_vec_shape n r ops _ hv
      | ok v =>
          rw [he] at h
          dsimp only at h
          exact (loadRes_not_err h).elim

/-- The `rel_op!` arm pops `nargs` operands and pushes one result. -/
theorem relOp_ok_length {r : Runtime} {n : Nat}
    {op : Relic.Number → Relic.Number → Bool} {r' : Runtime}
    (h : relOp r n op = .ok r') :
    r'.stack.length + n = r.stack.length + 1 := by
  rw [relOp] at h
  cases hv : node_vec_from_stack r n with
  | none => rw [hv] at h; exact ExecRes.noConfusion h
  | some t =>
      obtain ⟨ops, r1⟩ := t
      rw [hv] at h
      dsimp only at h
      cases he : eval_rel ops op with
      | error e => rw [he] at h; exact ExecRes.noConfusion h
      | ok v =>
          rw [he] at h
          dsimp only at h
          obtain ⟨hr1, hle⟩ := node_vec_shape n r ops r1 hv
          have hlen := loadRes_ok_length h
          subst hr1
          dsimp only at hlen
          simp only [List.length_drop] at hlen
          omega

/-- A failing `rel_op!` arm has popped exactly its `nargs` operands. -/
theorem relOp_err_shape {r : Runtime} {n : Nat}
    {op : Relic.Number → Relic.Number → Bool} {r' : Runtime}
    {e : String} (h : relOp r n op = .err r' e) :
    r' = { r with stack := r.stack.drop n } ∧ n ≤ r.stack.length := by
  rw [relOp] at h
  cases hv : node_vec_from_stack r n with
  | none => rw [hv] at h; exact ExecRes.noConfusion h
  | some t =>
      obtain ⟨ops, r1⟩ := t
      rw [hv] at h
      dsimp only at h
      cases he : eval_rel ops op with
      | error msg =>
          rw [he] at h
          dsimp only at h
          cases h
          exact node_vec_shape n r ops _ hv
      | ok v =>
          rw [he] at h
          dsimp only at h
          exact (loadRes_not_err h).elim

/-- The `quotient`/`remainder` arm asserts `nargs = 2`, pops two operands
and pushes one result. -/
theorem intBinOp_ok_length {r : Runtime} {n : Nat} {op : ℤ → ℤ → ℤ}
    {r' : Runtime} (h : intBinOp r n op = .ok r') :
    r'.stack.length + n = r.stack.length + 1 := by
  rw [intBinOp] at h
  by_cases hn : n = 2
  · rw [if_pos hn] at h
    subst hn
    cases hs : r.stack with
    | nil => rw [hs] at h; dsimp only at h; exact ExecRes.noConfusion h
    | cons lhs t =>
        cases t with
        | nil => rw [hs] at h; dsimp only at h; exact ExecRes.noConfusion h
        | cons rhs rest =>
            rw [hs] at h
            dsimp only at h
            split at h
            · split at h
              · have hlen := loadRes_ok_length h
                dsimp only at hlen
                simp only [List.length_cons]
                omega
              · exact ExecRes.noConfusion h
            · exact ExecRes.noConfusion h
  · rw [if_neg hn] at h
    exact ExecRes.noConfusion h

/-- A failing `quotient`/`remainder` arm has popped its two operands. -/
theorem intBinOp_err_shape {r : Runtime} {n : Nat} {op : ℤ → ℤ → ℤ}
    {r' : Runtime} {e : String} (h : intBinOp r n op = .err r' e) :
    r' = { r with stack := r.stack.drop 2 } ∧ 2 ≤ r.stack.length := by
  rw [intBinOp] at h
  by_cases hn : n = 2
  · rw [if_pos hn] at h
    cases hs : r.stack with
    | nil => rw [hs] at h; dsimp only at h; exact ExecRes.noConfusion h
    | cons lhs t =>
        cases t with
        | nil => rw [hs] at h; dsimp only at h; exact ExecRes.noConfusion h
        | cons rhs rest =>
            rw [hs] at h
            dsimp only at h
            split at h
            · split at h
              · exact (loadRes_not_err h).elim
              · cases h
                exact ⟨by simp [hs], by simp [hs]⟩
            · exact ExecRes.noConfusion h
  · rw [if_neg hn] at h
    exact ExecRes.noConfusion h

/-- The `unary_op!` arm asserts `nargs = 1`, pops one operand and pushes
one result. -/
theorem unaryOp_ok_length {r : Runtime} {n : Nat}
    {op : Relic.Number → Relic.Number} {r' : Runtime}
    (h : unaryOp r n op = .ok r') :
    r'.stack.length + n = r.stack.length + 1 := by
  rw [unaryOp] at h
  by_cases hn : n = 1
  · rw [if_pos hn] at h
    subst hn
    cases hs : r.stack with
    | nil => rw [hs] at h; exact ExecRes.noConfusion h
    | cons idx rest =>
        rw [hs] at h
        dsimp only at h
        cases hg : get_number r idx with
        | none => rw [hg] at h; exact ExecRes.noConfusion h
        | some o =>
            cases o with
            | none => rw [hg] at h; dsimp only at h; exact ExecRes.noConfusion h
            | some v =>
                rw [hg] at h
                dsimp only at h
                have hlen := loadRes_ok_length h
                dsimp only at hlen
                simp only [List.length_cons]
                omega
  · rw [if_neg hn] at h
    exact ExecRes.noConfusion h

/-- A failing `unary_op!` arm has popped its single operand. -/
theorem unaryOp_err_shape {r : Runtime} {n : Nat}
    {op : Relic.Number → Relic.Number} {r' : Runtime} {e : String}
    (h : unaryOp r n op = .err r' e) :
    r' = { r with stack := r.stack.drop 1 } ∧ 1 ≤ r.stack.length := by
  rw [unaryOp] at h
  by_cases hn : n = 1
  · rw [if_pos hn] at h
    cases hs : r.stack with
    | nil => rw [hs] at h; exact ExecRes.noConfusion h
    | cons idx rest =>
        rw [hs] at h
        dsimp only at h
        cases hg : get_number r idx with
        | none => rw [hg] at h; exact ExecRes.noConfusion h
        | some o =>
            cases o with
            | none =>
                rw [hg] at h
                dsimp only at h
                cases h
                exact ⟨by simp [hs], by simp [hs]⟩
            | some v =>
                rw [hg] at h
                dsimp only at h
                exact (loadRes_not_err h).elim
  · rw [if_neg hn] at h
    exact ExecRes.noConfusion h

/-- Stack discipline of a successful operator dispatch: every operator
pops its `nargs` operands and pushes one result — except `cons`, which
ignores the operand count and always pops exactly two. -/
theorem applyOp_ok_length {fuel : Nat} {r : Runtime} {s : Relic.Symbol}
    {n : Nat} {r' : Runtime} (h : applyOp fuel r s n = .ok r') :
    (s = .Cons ∧ r'.stack.length + 1 = r.stack.length) ∨
    (s ≠ .Cons ∧ r'.stack.length + n = r.stack.length + 1) := by
  cases s with
  | Nil => simp only [applyOp] at h; exact ExecRes.noConfusion h
  | T => simp only [applyOp] at h; exact ExecRes.noConfusion h
  | Add =>
      simp only [applyOp] at h
      exact Or.inr ⟨by decide, arithOp_ok_length h⟩
  | Mul =>
      simp only [applyOp] at h
      exact Or.inr ⟨by decide, arithOp_ok_length h⟩
  | Sub =>
      simp only [applyOp] at h
      exact Or.inr ⟨by decide, arithOp_ok_length h⟩
  | Div =>
      simp only [applyOp] at h
      exact Or.inr ⟨by decide, arithOp_ok_length h⟩
  | Remainder =>
      simp only [applyOp] at h
      exact Or.inr ⟨by decide, intBinOp_ok_length h⟩
  | Quotient =>
      simp only [applyOp] at h
      exact Or.inr ⟨by decide, intBinOp_ok_length h⟩
  | Floor =>
      simp only [applyOp] at h
      exact Or.inr ⟨by decide, unaryOp_ok_length h⟩
  | Ceiling =>
      simp only [applyOp] at h
      exact Or.inr ⟨by decide, unaryOp_ok_length h⟩
  | Sin =>
      simp only [applyOp] at h
      exact Or.inr ⟨by decide, unaryOp_ok_length h⟩
  | Cos =>
      simp only [applyOp] at h
      exact Or.inr ⟨by decide, unaryOp_ok_length h⟩
  | Abs =>
      simp only [applyOp] at h
      exact Or.inr ⟨by decide, unaryOp_ok_length h⟩
  | Eq =>
      simp only [applyOp] at h
      by_cases hn : n = 2
      · rw [if_pos hn] at h
        subst hn
        cases hs : r.stack with
        | nil => rw [hs] at h; dsimp only at h; exact ExecRes.noConfusion h
        | cons lhs t =>
            cases t with
            | nil =>
                rw [hs] at h
                dsimp only at h
                exact ExecRes.noConfusion h
            | cons rhs rest =>
                rw [hs] at h
                dsimp only at h
                cases hne : node_eq fuel r lhs rhs with
                | val b =>
                    rw [hne] at h
                    dsimp only at h
                    have hlen := loadRes_ok_length h
                    dsimp only at hlen
                    refine Or.inr ⟨by decide, ?_⟩
                    simp only [List.length_cons]
                    omega
                | abort m => rw [hne] at h; exact ExecRes.noConfusion h
                | fuelOut => rw [hne] at h; exact ExecRes.noConfusion h
      · rw [if_neg hn] at h
        exact ExecRes.noConfusion h
  | EqNum =>
      simp only [applyOp] at h
      exact Or.inr ⟨by decide, relOp_ok_length h⟩
  | Gt =>
      simp only [applyOp] at h
      exact Or.inr ⟨by decide, relOp_ok_length h⟩
  | Lt =>
      simp only [applyOp] at h
      exact Or.inr ⟨by decide, relOp_ok_length h⟩
  | Ge =>
      simp only [applyOp] at h
      exact Or.inr ⟨by decide, relOp_ok_length h⟩
  | Le =>
      simp only [applyOp] at h
      exact Or.inr ⟨by decide, relOp_ok_length h⟩
  | Atom =>
      simp only [applyOp] at h
      by_cases hn : n = 1
      · rw [if_pos hn] at h
        subst hn
        cases hp : pop_as_node r with
        | none => rw [hp] at h; exact ExecRes.noConfusion h
        | some t =>
            obtain ⟨nd, r1⟩ := t
            rw [hp] at h
            dsimp only at h
            obtain ⟨hr1, hle⟩ := pop_as_node_shape hp
            have hlen := loadRes_ok_length h
            subst hr1
            dsimp only at hlen
            simp only [List.length_drop] at hlen
            refine Or.inr ⟨by decide, ?_⟩
            omega
      · rw [if_neg hn] at h
        exact ExecRes.noConfusion h
  | Car =>
      simp only [applyOp] at h
      by_cases hn : n = 1
      · rw [if_pos hn] at h
        subst hn
        cases hs : r.stack with
        | nil => rw [hs] at h; exact ExecRes.noConfusion h
        | cons idx rest =>
            rw [hs] at h
            dsimp only at h
            cases hg : heapGet r idx with
            | none => rw [hg] at h; exact ExecRes.noConfusion h
            | some nd =>
                rw [hg] at h
                cases nd with
                | Pair car cdr =>
                    dsimp only at h
                    cases h
                    refine Or.inr ⟨by decide, ?_⟩
                    simp [hs]
                | Symbol s2 => dsimp only at h; exact ExecRes.noConfusion h
                | Number v => dsimp only at h; exact ExecRes.noConfusion h
                | Environment a b c =>
                    dsimp only at h
                    exact ExecRes.noConfusion h
                | Closure c => dsimp only at h; exact ExecRes.noConfusion h
                | BrokenHeart d => dsimp only at h; exact ExecRes.noConfusion h
      · rw [if_neg hn] at h
        exact ExecRes.noConfusion h
  | Cdr =>
      simp only [applyOp] at h
      by_cases hn : n = 1
      · rw [if_pos hn] at h
        subst hn
        cases hs : r.stack with
        | nil => rw [hs] at h; exact ExecRes.noConfusion h
        | cons idx rest =>
            rw [hs] at h
            dsimp only at h
            cases hg : heapGet r idx with
            | none => rw [hg] at h; exact ExecRes.noConfusion h
            | some nd =>
                rw [hg] at h
                cases nd with
                | Pair car cdr =>
                    dsimp only at h
                    cases h
                    refine Or.inr ⟨by decide, ?_⟩
                    simp [hs]
                | Symbol s2 => dsimp only at h; exact ExecRes.noConfusion h
                | Number v => dsimp only at h; exact ExecRes.noConfusion h
                | Environment a b c =>
                    dsimp only at h
                    exact ExecRes.noConfusion h
                | Closure c => dsimp only at h; exact ExecRes.noConfusion h
                | BrokenHeart d => dsimp only at h; exact ExecRes.noConfusion h
      · rw [if_neg hn] at h
        exact ExecRes.noConfusion h
  | Cons =>
      simp only [applyOp] at h
      cases hnp : new_pair r with
      | none => rw [hnp] at h; exact ExecRes.noConfusion h
      | some r2 =>
          rw [hnp] at h
          dsimp only at h
          cases h
          exact Or.inl ⟨rfl, new_pair_length hnp⟩
  | List =>
      simp only [applyOp] at h
      cases hz : zip_stack_nodes r n with
      | none => rw [hz] at h; exact ExecRes.noConfusion h
      | some r2 =>
          rw [hz] at h
          dsimp only at h
          cases h
          exact Or.inr ⟨by decide, zip_stack_nodes_length hz⟩
  | Number =>
      simp only [applyOp] at h
      by_cases hn : n = 1
      · rw [if_pos hn] at h
        subst hn
        cases hp : pop_as_node r with
        | none => rw [hp] at h; exact ExecRes.noConfusion h
        | some t =>
            obtain ⟨nd, r1⟩ := t
            rw [hp] at h
            dsimp only at h
            obtain ⟨hr1, hle⟩ := pop_as_node_shape hp
            have hlen := loadRes_ok_length h
            subst hr1
            dsimp only at hlen
            simp only [List.length_drop] at hlen
            refine Or.inr ⟨by decide, ?_⟩
            omega
      · rw [if_neg hn] at h
        exact ExecRes.noConfusion h
  | User nm => simp only [applyOp] at h; exact ExecRes.noConfusion h

/-- Stack discipline of a failing operator dispatch: a recoverable error
leaves the runtime equal to the input with some popped prefix removed —
the stack below the operand window, the heap, the roots and the size are
untouched. -/
theorem applyOp_err_shape {fuel : Nat} {r : Runtime} {s : Relic.Symbol}
    {n : Nat} {r' : Runtime} {e : String}
    (h : applyOp fuel r s n = .err r' e) :
    ∃ k, k ≤ r.stack.length ∧ r' = { r with stack := r.stack.drop k } := by
  cases s with
  | Nil =>
      simp only [applyOp] at h
      cases h
      exact ⟨0, Nat.zero_le _, by simp⟩
  | T =>
      simp only [applyOp] at h
      cases h
      exact ⟨0, Nat.zero_le _, by simp⟩
  | Add =>
      simp only [applyOp] at h
      obtain ⟨he, hle⟩ := arithOp_err_shape h
      exact ⟨n, hle, he⟩
  | Mul =>
      simp only [applyOp] at h
      obtain ⟨he, hle⟩ := arithOp_err_shape h
      exact ⟨n, hle, he⟩
  | Sub =>
      simp only [applyOp] at h
      obtain ⟨he, hle⟩ := arithOp_err_shape h
      exact ⟨n, hle, he⟩
  | Div =>
      simp only [applyOp] at h
      obtain ⟨he, hle⟩ := arithOp_err_shape h
      exact ⟨n, hle, he⟩
  | Remainder =>
      simp only [applyOp] at h
      obtain ⟨he, hle⟩ := intBinOp_err_shape h
      exact ⟨2, hle, he⟩
  | Quotient =>
      simp only [applyOp] at h
      obtain ⟨he, hle⟩ := intBinOp_err_shape h
      exact ⟨2, hle, he⟩
  | Floor =>
      simp only [applyOp] at h
      obtain ⟨he, hle⟩ := unaryOp_err_shape h
      exact ⟨1, hle, he⟩
  | Ceiling =>
      simp only [applyOp] at h
      obtain ⟨he, hle⟩ := unaryOp_err_shape h
      exact ⟨1, hle, he⟩
  | Sin =>
      simp only [applyOp] at h
      obtain ⟨he, hle⟩ := unaryOp_err_shape h
      exact ⟨1, hle, he⟩
  | Cos =>
      simp only [applyOp] at h
      obtain ⟨he, hle⟩ := unaryOp_err_shape h
      exact ⟨1, hle, he⟩
  | Abs =>
      simp only [applyOp] at h
      obtain ⟨he, hle⟩ := unaryOp_err_shape h
      exact ⟨1, hle, he⟩
  | Eq =>
      simp only [applyOp] at h
      by_cases hn : n = 2
      · rw [if_pos hn] at h
        cases hs : r.stack with
        | nil => rw [hs] at h; dsimp only at h; exact ExecRes.noConfusion h
        | cons lhs t =>
            cases t with
            | nil =>
                rw [hs] at h
                dsimp only at h
                exact ExecRes.noConfusion h
            | cons rhs rest =>
                rw [hs] at h
                dsimp only at h
                cases hne : node_eq fuel r lhs rhs with
                | val b =>
                    rw [hne] at h
                    dsimp only at h
                    exact (loadRes_not_err h).elim
                | abort m => rw [hne] at h; exact ExecRes.noConfusion h
                | fuelOut => rw [hne] at h; exact ExecRes.noConfusion h
      · rw [if_neg hn] at h
        exact ExecRes.noConfusion h
  | EqNum =>
      simp only [applyOp] at h
      obtain ⟨he, hle⟩ := relOp_err_shape h
      exact ⟨n, hle, he⟩
  | Gt =>
      simp only [applyOp] at h
      obtain ⟨he, hle⟩ := relOp_err_shape h
      exact ⟨n, hle, he⟩
  | Lt =>
      simp only [applyOp] at h
      obtain ⟨he, hle⟩ := relOp_err_shape h
      exact ⟨n, hle, he⟩
  | Ge =>
      simp only [applyOp] at h
      obtain ⟨he, hle⟩ := relOp_err_shape h
      exact ⟨n, hle, he⟩
  | Le =>
      simp only [applyOp] at h
      obtain ⟨he, hle⟩ := relOp_err_shape h
      exact ⟨n, hle, he⟩
  | Atom =>
      simp only [applyOp] at h
      by_cases hn : n = 1
      · rw [if_pos hn] at h
        cases hp : pop_as_node r with
        | none => rw [hp] at h; exact ExecRes.noConfusion h
        | some t =>
            obtain ⟨nd, r1⟩ := t
            rw [hp] at h
            dsimp only at h
            exact (loadRes_not_err h).elim
      · rw [if_neg hn] at h
        exact ExecRes.noConfusion h
  | Car =>
      simp only [applyOp] at h
      by_cases hn : n = 1
      · rw [if_pos hn] at h
        cases hs : r.stack with
        | nil => rw [hs] at h; exact ExecRes.noConfusion h
        | cons idx rest =>
            rw [hs] at h
            dsimp only at h
            cases hg : heapGet r idx with
            | none => rw [hg] at h; exact ExecRes.noConfusion h
            | some nd =>
                rw [hg] at h
                cases nd with
                | Pair car cdr => dsimp only at h; exact ExecRes.noConfusion h
                | Symbol s2 =>
                    dsimp only at h
                    cases h
                    exact ⟨1, by simp [hs], by simp [hs]⟩
                | Number v =>
                    dsimp only at h
                    cases h
                    exact ⟨1, by simp [hs], by simp [hs]⟩
                | Environment a b c =>
                    dsimp only at h
                    cases h
                    exact ⟨1, by simp [hs], by simp [hs]⟩
                | Closure c =>
                    dsimp only at h
                    cases h
                    exact ⟨1, by simp [hs], by simp [hs]⟩
                | BrokenHeart d =>
                    dsimp only at h
                    cases h
                    exact ⟨1, by simp [hs], by simp [hs]⟩
      · rw [if_neg hn] at h
        exact ExecRes.noConfusion h
  | Cdr =>
      simp only [applyOp] at h
      by_cases hn : n = 1
      · rw [if_pos hn] at h
        cases hs : r.stack with
        | nil => rw [hs] at h; exact ExecRes.noConfusion h
        | cons idx rest =>
            rw [hs] at h
            dsimp only at h
            cases hg : heapGet r idx with
            | none => rw [hg] at h; exact ExecRes.noConfusion h
            | some nd =>
                rw [hg] at h
                cases nd with
                | Pair car cdr => dsimp only at h; exact ExecRes.noConfusion h
                | Symbol s2 =>
                    dsimp only at h
                    cases h
                    exact ⟨1, by simp [hs], by simp [hs]⟩
                | Number v =>
                    dsimp only at h
                    cases h
                    exact ⟨1, by simp [hs], by simp [hs]⟩
                | Environment a b c =>
                    dsimp only at h
                    cases h
                    exact ⟨1, by simp [hs], by simp [hs]⟩
                | Closure c =>
                    dsimp only at h
                    cases h
                    exact ⟨1, by simp [hs], by simp [hs]⟩
                | BrokenHeart d =>
                    dsimp only at h
                    cases h
                    exact ⟨1, by simp [hs], by simp [hs]⟩
      · rw [if_neg hn] at h
        exact ExecRes.noConfusion h
  | Cons =>
      simp only [applyOp] at h
      cases hnp : new_pair r with
      | none => rw [hnp] at h; exact ExecRes.noConfusion h
      | some r2 => rw [hnp] at h; exact ExecRes.noConfusion h
  | List =>
      simp only [applyOp] at h
      cases hz : zip_stack_nodes r n with
      | none => rw [hz] at h; exact ExecRes.noConfusion h
      | some r2 => rw [hz] at h; exact ExecRes.noConfusion h
  | Number =>
      simp only [applyOp] at h
      by_cases hn : n = 1
      · rw [if_pos hn] at h
        cases hp : pop_as_node r with
        | none => rw [hp] at h; exact ExecRes.noConfusion h
        | some t =>
            obtain ⟨nd, r1⟩ := t
            rw [hp] at h
            dsimp only at h
            exact (loadRes_not_err h).elim
      · rw [if_neg hn] at h
        exact ExecRes.noConfusion h
  | User nm => simp only [applyOp] at h; exact ExecRes.noConfusion h

/-- C2, counterexample: the `cons` arm of `apply` ignores the popped
operand count.  On `c2Runtime` (operator `cons`, count 3, four operands,
six stack entries) `apply` succeeds with a stack of depth 3, while
"popped nargs + 2 items and pushed 1" predicts depth 6 − (3 + 2) + 1 = 2;
and `apply` on an empty stack panics (stack underflow) instead of
returning an error. -/
theorem apply_cons_ignores_count :
    (apply 1 c2Runtime = .ok { c2Runtime with
      stack := [6, 4, 5]
      areas := (c2Runtime.areas.1 ++ [.Pair 2 3], c2Runtime.areas.2) } ∧
     c2Runtime.stack.length - (3 + 2) + 1 = 2 ∧
     ([6, 4, 5] : List Nat).length = 3) ∧
    apply 1 { c2Runtime with stack := [] } = .abort "Stack underflow" := by
  decide

/-- C2, amended: `apply` pops the operator symbol and the operand count;
a successful dispatch then pops exactly `nargs` operands and pushes one
result for every operator except `cons`, which ignores the operand count
and always pops exactly two; a recoverable error leaves the runtime
equal to the input with only some popped prefix of the stack removed
(the stack below the operator/argument window, the heap, the roots and
the size are untouched); and `apply` on an empty stack panics with a
stack underflow instead of returning an error. -/
theorem apply_stack_discipline (fuel : Nat) (r : Runtime) :
    (r.stack = [] → apply fuel r = .abort "Stack underflow") ∧
    (∀ r' iop iN rest s n, r.stack = iop :: iN :: rest →
       heapGet r iop = some (.Symbol s) →
       heapGet r iN = some (.Number (.Int ((n : Nat) : ℤ))) →
       apply fuel r = .ok r' →
       (s ≠ .Cons → r'.stack.length + n + 2 = r.stack.length + 1) ∧
       (s = .Cons → r'.stack.length + 3 = r.stack.length)) ∧
    (∀ r' e, apply fuel r = .err r' e →
       ∃ k, k ≤ r.stack.length ∧
         r' = { r with stack := r.stack.drop k }) := by
  refine ⟨?_, ?_, ?_⟩
  · intro hnil
    rw [apply, hnil]
  · intro r' iop iN rest s n hstk hop hN h
    rw [apply_dispatch fuel r iop iN rest s n hstk hop hN] at h
    have hlen : r.stack.length = rest.length + 2 := by
      rw [hstk]
      simp
    rcases applyOp_ok_length h with ⟨hc, hl⟩ | ⟨hc, hl⟩
    · refine ⟨fun hne => absurd hc hne, fun _ => ?_⟩
      dsimp only at hl
      omega
    · refine ⟨fun _ => ?_, fun hce => absurd hce hc⟩
      dsimp only at hl
      omega
  · intro r' e h
    rw [apply] at h
    cases hs : r.stack with
    | nil => rw [hs] at h; exact ExecRes.noConfusion h
    | cons iop stack1 =>
        rw [hs] at h
        dsimp only at h
        cases hg : heapGet r iop with
        | none => rw [hg] at h; exact ExecRes.noConfusion h
        | some nd =>
            rw [hg] at h
            cases nd with
            | Symbol s =>
                dsimp only at h
                cases stack1 with
                | nil => exact ExecRes.noConfusion h
                | cons iN stack2 =>
                    dsimp only at h
                    cases hg2 : heapGet r iN with
                    | none => rw [hg2] at h; exact ExecRes.noConfusion h
                    | some nd2 =>
                        rw [hg2] at h
                        cases nd2 with
                        | Number nv =>
                            dsimp only at h
                            cases hu : usizeFromNumber nv with
                            | error msg =>
                                rw [hu] at h
                                dsimp only at h
                                cases h
                                exact ⟨2, by simp [hs], by simp [hs]⟩
                            | ok nargs =>
                                rw [hu] at h
                                dsimp only at h
                                obtain ⟨k, hk, he⟩ := applyOp_err_shape h
                                dsimp only at hk he
                                refine ⟨k + 2, by simp [hs]; omega, ?_⟩
                                rw [he]
                                simp [hs]
                        | Symbol s2 =>
                            dsimp only at h
                            cases h
                            exact ⟨2, by simp [hs], by simp [hs]⟩
                        | Pair a b =>
                            dsimp only at h
                            cases h
                            exact ⟨2, by simp [hs], by simp [hs]⟩
                        | Environment a b c =>
                            dsimp only at h
                            cases h
                            exact ⟨2, by simp [hs], by simp [hs]⟩
                        | Closure c =>
                            dsimp only at h
                            cases h
                            exact ⟨2, by simp [hs], by simp [hs]⟩
                        | BrokenHeart d =>
                            dsimp only at h
                            cases h
                            exact ⟨2, by simp [hs], by simp [hs]⟩
            | Number v =>
                dsimp only at h
                cases h
                exact ⟨1, by simp [hs], by simp [hs]⟩
            | Pair a b =>
                dsimp only at h
                cases h
                exact ⟨1, by simp [hs], by simp [hs]⟩
            | Environment a b c =>
                dsimp only at h
                cases h
                exact ⟨1, by simp [hs], by simp [hs]⟩
            | Closure c =>
                dsimp only at h
                cases h
                exact ⟨1, by simp [hs], by simp [hs]⟩
            | BrokenHeart d =>
                dsimp only at h
                cases h
                exact ⟨1, by simp [hs], by simp [hs]⟩

/-- C2, witness: the amended discipline applied to the concrete
evaluation of `(+ 5 7)`: the result stack depth satisfies
"popped nargs + 2 = 4 items, pushed 1". -/
theorem apply_stack_discipline_witness :
    c6wRes.stack.length + 2 + 2 = c6wRuntime.stack.length + 1 :=
  (((apply_stack_discipline 1 c6wRuntime).2.1 c6wRes 0 1 [2, 3] .Add 2
      rfl (by decide) (by decide) (by decide)).1) (by decide)

/-- Setting a list entry to the value it already holds is the
identity. -/
theorem list_set_same {α : Type} : ∀ (l : List α) (i : Nat) (a : α),
    l.get? i = some a → l.set i a = l := by
  intro l
  induction l with
  | nil => intro i a h; simp at h
  | cons x t ih =>
      intro i a h
      cases i with
      | zero =>
          simp only [List.get?] at h
          cases h
          rfl
      | succ i =>
          simp only [List.get?] at h
          rw [List.set]
          rw [ih i a h]

/-- `mapGet` after `mapInsert` at the same key returns the inserted
value. -/
theorem mapGet_mapInsert : ∀ (m : List (String × Nat)) (k : String)
    (v : Nat), mapGet (mapInsert m k v) k = some v := by
  intro m k v
  induction m with
  | nil => simp [mapInsert, mapGet]
  | cons kv rest ih =>
      obtain ⟨k2, v2⟩ := kv
      by_cases hk : k2 = k
      · subst hk
        simp [mapInsert, mapGet]
      · rw [mapInsert]
        rw [if_neg hk]
        rw [mapGet]
        rw [if_neg hk]
        exact ih

/-- `popN` succeeds whenever the stack holds at least `n` entries. -/
theorem popN_total : ∀ (n : Nat) (r : Runtime), n ≤ r.stack.length →
    ∃ xs r1, popN r n = some (xs, r1) := by
  intro n
  induction n with
  | zero => intro r _; exact ⟨[], r, by rw [popN]⟩
  | succ n ih =>
      intro r hlen
      cases hs : r.stack with
      | nil =>
          exfalso
          rw [hs] at hlen
          simp at hlen
      | cons v rest =>
          obtain ⟨xs, r1, hrec⟩ := ih { r with stack := rest } (by
            dsimp only
            rw [hs] at hlen
            simp only [List.length_cons] at hlen
            omega)
          refine ⟨v :: xs, r1, ?_⟩
          rw [popN, hs]
          dsimp only
          rw [hrec]

/-- `load_to` with headroom appends the node and pushes its index. -/
theorem loadNode_headroom (r : Runtime) (node : RuntimeNode)
    (hroom : get_free r < r.size) :
    loadNode r node = some { r with
      stack := get_free r :: r.stack
      areas := (r.areas.1 ++ [node], r.areas.2) } := by
  rw [loadNode, new_node_with_gc, try_gc, if_pos hroom]
  dsimp only
  rw [new_node, if_pos hroom]

/-- `new_pair` with headroom pops car and cdr and appends the pair. -/
theorem new_pair_headroom (r : Runtime) (car cdr : Nat) (rest : List Nat)
    (hs : r.stack = car :: cdr :: rest) (hroom : get_free r < r.size) :
    new_pair r = some { r with
      stack := get_free r :: rest
      areas := (r.areas.1 ++ [.Pair car cdr], r.areas.2) } := by
  have hroom2 : r.areas.1.length < r.size := hroom
  rw [new_pair]
  rw [show try_gc r = some r from by rw [try_gc]; exact if_pos hroom]
  dsimp only
  rw [hs]
  dsimp only
  rw [new_node]
  dsimp only [get_free]
  rw [if_pos hroom2]

/-- `Runtime::move_to_closure_env` on a closure cell with headroom:
returns the closure, appends the fresh environment and redirects
`__cur_env` to it. -/
theorem move_to_closure_env_spec (r : Runtime) (cid : Nat)
    (c : Relic.Closure) (hcid : heapGet r cid = some (.Closure c))
    (hroom : get_free r < r.size) :
    move_to_closure_env r cid = some (.ok (c, pargsEnv r c r.stack)) := by
  have hroom2 : r.areas.1.length < r.size := hroom
  rw [move_to_closure_env, hcid]
  dsimp only
  rw [new_env]
  rw [show try_gc { r with stack := c.env :: r.stack } =
      some { r with stack := c.env :: r.stack } from by
    rw [try_gc]
    exact if_pos hroom]
  dsimp only
  rw [new_node]
  dsimp only [get_free]
  rw [if_pos hroom2]
  dsimp only
  rw [move_to_env]
  rw [show heapGet (Runtime.mk r.stack (r.areas.1 ++
        [RuntimeNode.Environment "closure" [] (some c.env)], r.areas.2)
        r.size r.roots) r.areas.1.length =
      some (RuntimeNode.Environment "closure" [] (some c.env)) from by
    rw [heapGet]
    dsimp only
    exact List.get?_concat_length r.areas.1 _]
  dsimp only
  rw [set_root, pargsEnv]
  rfl

/-- `heapGet` through the environment appended by `prepare_args`. -/
theorem heapGet_pargsEnv {r : Runtime} {i : Nat} {x : RuntimeNode}
    (c : Relic.Closure) (sr : List Nat)
    (h : heapGet r i = some x) :
    heapGet (pargsEnv r c sr) i = some x := by
  obtain ⟨hlt, _⟩ := List.get?_eq_some.mp h
  rw [pargsEnv, heapGet]
  dsimp only
  rw [List.get?_append hlt]
  exact h

/-- `usize::try_from` of a non-negative machine integer. -/
theorem usizeFromNumber_natCast (n : Nat) :
    usizeFromNumber (.Int ((n : Nat) : ℤ)) = .ok n := by
  rw [usizeFromNumber]
  rw [if_pos (Int.natCast_nonneg n)]
  simp

/-- Evaluation of `prepare_args` up to the arity check: the closure env
is installed, the operand count is popped and converted, and the
remainder is the arity branch. -/
theorem prepare_args_head (r : Runtime) (cid : Nat) (c : Relic.Closure)
    (idxN : Nat) (sr : List Nat) (nparams : Nat)
    (hcid : heapGet r cid = some (.Closure c))
    (hstk : r.stack = idxN :: sr)
    (hN : heapGet r idxN = some (.Number (.Int ((nparams : Nat) : ℤ))))
    (hroom : get_free r < r.size) :
    prepare_args r cid =
      (if (!c.variadic && c.nargs ≠ nparams) ∨
          (c.variadic && c.nargs > nparams + 1) then
         some (.error ("arity mismatch: expect " ++ toString c.nargs ++
           ", found " ++ toString nparams))
       else if c.nargs = 0 then some (.ok (pargsEnv r c sr))
       else
         match bindArgs (c.nargs - 1) (pargsEnv r c sr) c.name 0 with
         | none => none
         | some r1 =>
             match (if c.variadic then
                      (if c.nargs ≤ nparams then
                         zip_stack_nodes r1 (nparams - c.nargs + 1)
                       else loadNode r1 (.Symbol .Nil))
                    else some r1) with
             | none => none
             | some r2 =>
                 match r2.stack with
                 | [] => none
                 | last :: rest2 =>
                     match define_cur { r2 with stack := rest2 }
                         ("#" ++ toString (c.nargs - 1) ++ "_func_" ++
                          c.name) last with
                     | none => none
                     | some r3 => some (.ok r3)) := by
  rw [prepare_args, move_to_closure_env_spec r cid c hcid hroom]
  dsimp only
  rw [show (pargsEnv r c r.stack).stack = idxN :: sr from by
    rw [pargsEnv]
    exact hstk]
  dsimp only
  rw [show get_number { pargsEnv r c r.stack with stack := sr } idxN =
      some (some (.Int ((nparams : Nat) : ℤ))) from by
    rw [get_number]
    rw [show heapGet { pargsEnv r c r.stack with stack := sr } idxN =
        some (.Number (.Int ((nparams : Nat) : ℤ))) from
      heapGet_pargsEnv c sr hN]
    ]
  dsimp only
  rw [usizeFromNumber_natCast]
  dsimp only
  rfl

/-- The binding loop of `prepare_args`: with the current environment
alive and enough stack entries it pops `count` entries and only rewrites
the environment cell's variable map. -/
theorem bindArgs_spec : ∀ (count : Nat) (r : Runtime) (name : String)
    (start : Nat) (envIdx : Nat) (nm : String)
    (m : List (String × Nat)) (o : Option Nat),
    current_env r = some envIdx →
    heapGet r envIdx = some (.Environment nm m o) →
    count ≤ r.stack.length →
    ∃ m2, bindArgs count r name start =
      some { r with
             stack := r.stack.drop count
             areas := (r.areas.1.set envIdx (.Environment nm m2 o),
                       r.areas.2) } := by
  intro count
  induction count with
  | zero =>
      intro r name start envIdx nm m o hce henv _
      refine ⟨m, ?_⟩
      rw [bindArgs]
      obtain ⟨st, ⟨a1, a2⟩, sz, rt⟩ := r
      simp only [heapGet] at henv
      dsimp only at henv ⊢
      rw [List.drop_zero, list_set_same a1 envIdx _ henv]
  | succ count ih =>
      intro r name start envIdx nm m o hce henv hlen
      have hlt : envIdx < r.areas.1.length :=
        (List.get?_eq_some.mp henv).1
      cases hs : r.stack with
      | nil =>
          exfalso
          rw [hs] at hlen
          simp at hlen
      | cons v rest =>
          have hdc : define_cur { r with stack := rest }
              ("#" ++ toString start ++ "_func_" ++ name) v =
              some { r with
                     stack := rest
                     areas := (r.areas.1.set envIdx
                       (.Environment nm (mapInsert m
                         ("#" ++ toString start ++ "_func_" ++ name) v) o),
                       r.areas.2) } := by
            rw [define_cur]
            rw [show current_env { r with stack := rest } = some envIdx
              from hce]
            dsimp only
            rw [insert_cur_env]
            rw [show heapGet { r with stack := rest } envIdx =
                some (RuntimeNode.Environment nm m o) from henv]
          obtain ⟨m2, hrec⟩ := ih
            { r with
              stack := rest
              areas := (r.areas.1.set envIdx
                (.Environment nm (mapInsert m
                  ("#" ++ toString start ++ "_func_" ++ name) v) o),
                r.areas.2) }
            name (start + 1) envIdx nm
            (mapInsert m ("#" ++ toString start ++ "_func_" ++ name) v) o
            hce
            (by
              rw [heapGet]
              dsimp only
              exact List.get?_set_eq_of_lt _ hlt)
            (by
              dsimp only
              rw [hs] at hlen
              simp only [List.length_cons] at hlen
              omega)
          refine ⟨m2, ?_⟩
          rw [bindArgs, hs]
          dsimp only
          rw [hdc]
          dsimp only
          rw [hrec]
          simp [List.set_set]

/-- The `swap`/`new_pair` loop of `zip_stack_nodes`, with headroom:
terminates, consumes `n` stack entries, and only appends heap cells. -/
theorem zipLoop_spec : ∀ (n : Nat) (r : Runtime),
    n + 1 ≤ r.stack.length → get_free r + n ≤ r.size →
    ∃ r', zipLoop n r = some r' ∧
      r'.stack.length + n = r.stack.length ∧
      (∃ tail, r'.areas.1 = r.areas.1 ++ tail) ∧
      r'.areas.2 = r.areas.2 ∧ r'.roots = r.roots ∧ r'.size = r.size := by
  intro n
  induction n with
  | zero =>
      intro r _ _
      exact ⟨r, by rw [zipLoop], by simp, ⟨[], by simp⟩, rfl, rfl, rfl⟩
  | succ n ih =>
      intro r hlen hroom
      cases hs : r.stack with
      | nil =>
          exfalso
          rw [hs] at hlen
          simp at hlen
      | cons a t =>
          cases t with
          | nil =>
              exfalso
              rw [hs] at hlen
              simp only [List.length_cons, List.length_nil] at hlen
              omega
          | cons b rest =>
              have hfree : get_free r < r.size := by
                simp only [get_free] at hroom ⊢
                omega
              have hsw : swapStack r =
                  some { r with stack := b :: a :: rest } := by
                rw [swapStack, hs]
              have hnp : new_pair { r with stack := b :: a :: rest } =
                  some { r with
                         stack := get_free r :: rest
                         areas := (r.areas.1 ++ [.Pair b a],
                                   r.areas.2) } :=
                new_pair_headroom { r with stack := b :: a :: rest }
                  b a rest rfl hfree
              obtain ⟨r', hz, hlen2, ⟨tail, htail⟩, h2, hroots, hsize⟩ :=
                ih { r with
                     stack := get_free r :: rest
                     areas := (r.areas.1 ++ [.Pair b a], r.areas.2) }
                  (by
                    dsimp only
                    rw [hs] at hlen
                    simp only [List.length_cons] at hlen ⊢
                    omega)
                  (by
                    simp only [get_free, List.length_append,
                      List.length_cons, List.length_nil] at hroom ⊢
                    omega)
              refine ⟨r', ?_, ?_, ⟨.Pair b a :: tail, ?_⟩, ?_, ?_, ?_⟩
              · rw [zipLoop, hsw]
                dsimp only
                rw [hnp]
                dsimp only
                exact hz
              · dsimp only at hlen2
                rw [hs] at hlen
                simp only [List.length_cons] at hlen2 hlen ⊢
                omega
              · rw [htail]
                dsimp only
                simp
              · rw [h2]
              · rw [hroots]
              · rw [hsize]

/-- `zip_stack_nodes` with headroom: terminates, pops `n` entries and
pushes one packed-list index, only appending heap cells. -/
theorem zip_stack_nodes_spec (r : Runtime) (n : Nat)
    (hlen : n ≤ r.stack.length) (hroom : get_free r + n + 1 ≤ r.size) :
    ∃ r', zip_stack_nodes r n = some r' ∧
      r'.stack.length + n = r.stack.length + 1 ∧
      (∃ tail, r'.areas.1 = r.areas.1 ++ tail) ∧
      r'.areas.2 = r.areas.2 ∧ r'.roots = r.roots ∧ r'.size = r.size := by
  obtain ⟨xs, r1, hp⟩ := popN_total n r hlen
  obtain ⟨hxs, hr1, _⟩ := popN_shape n r xs r1 hp
  have hxlen : xs.length = n := by
    rw [hxs, List.length_take]
    omega
  have hfree : get_free (pushList r1 xs) < (pushList r1 xs).size := by
    rw [pushList_shape]
    subst hr1
    simp only [get_free] at hroom ⊢
    omega
  have hload := loadNode_headroom (pushList r1 xs) (.Symbol .Nil) hfree
  obtain ⟨r', hz, hlen2, ⟨tail, htail⟩, h2, hroots, hsize⟩ :=
    zipLoop_spec n
      { pushList r1 xs with
        stack := get_free (pushList r1 xs) :: (pushList r1 xs).stack
        areas := ((pushList r1 xs).areas.1 ++ [.Symbol .Nil],
                  (pushList r1 xs).areas.2) }
      (by
        rw [pushList_shape]
        subst hr1
        dsimp only
        simp only [List.length_cons, List.length_append,
          List.length_reverse, List.length_drop]
        omega)
      (by
        rw [pushList_shape]
        subst hr1
        simp only [get_free, List.length_append, List.length_cons,
          List.length_nil] at hroom ⊢
        omega)
  refine ⟨r', ?_, ?_, ?_, ?_, ?_, ?_⟩
  · rw [zip_stack_nodes, hp]
    dsimp only
    rw [hload]
    dsimp only
    exact hz
  · rw [pushList_shape] at hlen2
    subst hr1
    dsimp only at hlen2
    simp only [List.length_cons, List.length_append, List.length_reverse,
      List.length_drop] at hlen2
    omega
  · rw [pushList_shape] at htail
    subst hr1
    dsimp only at htail
    rw [htail]
    exact ⟨.Symbol .Nil :: tail, by simp⟩
  · rw [pushList_shape] at h2
    subst hr1
    dsimp only at h2
    exact h2
  · rw [pushList_shape] at hroots
    subst hr1
    dsimp only at hroots
    exact hroots
  · rw [pushList_shape] at hsize
    subst hr1
    dsimp only at hsize
    exact hsize

/-- `bindArgs` packaged: success state with its invariants. -/
theorem bindArgs_spec2 (count : Nat) (r : Runtime) (name : String)
    (start : Nat) (envIdx : Nat) (nm : String) (m : List (String × Nat))
    (o : Option Nat) (hce : current_env r = some envIdx)
    (henv : heapGet r envIdx = some (.Environment nm m o))
    (hlen : count ≤ r.stack.length) :
    ∃ r1 m2, bindArgs count r name start = some r1 ∧
      r1.stack = r.stack.drop count ∧
      current_env r1 = some envIdx ∧
      heapGet r1 envIdx = some (.Environment nm m2 o) ∧
      (∀ j, j ≠ envIdx → heapGet r1 j = heapGet r j) ∧
      r1.areas.1.length = r.areas.1.length ∧
      r1.areas.2 = r.areas.2 ∧ r1.roots = r.roots ∧ r1.size = r.size := by
  obtain ⟨m2, hb⟩ :=
    bindArgs_spec count r name start envIdx nm m o hce henv hlen
  have hlt : envIdx < r.areas.1.length := (List.get?_eq_some.mp henv).1
  refine ⟨_, m2, hb, rfl, hce, ?_, ?_, ?_, rfl, rfl, rfl⟩
  · rw [heapGet]
    dsimp only
    exact List.get?_set_eq_of_lt _ hlt
  · intro j hj
    rw [heapGet, heapGet]
    dsimp only
    exact List.get?_set_ne _ _ (fun h => hj h.symm)
  · dsimp only
    simp

/-- `define_cur` packaged: success state with its invariants. -/
theorem define_cur_spec (r : Runtime) (envIdx : Nat) (nm : String)
    (m : List (String × Nat)) (o : Option Nat) (key : String) (v : Nat)
    (hce : current_env r = some envIdx)
    (henv : heapGet r envIdx = some (.Environment nm m o)) :
    ∃ r3, define_cur r key v = some r3 ∧
      r3.stack = r.stack ∧
      current_env r3 = some envIdx ∧
      heapGet r3 envIdx = some (.Environment nm (mapInsert m key v) o) ∧
      (∀ j, j ≠ envIdx → heapGet r3 j = heapGet r j) ∧
      r3.areas.1.length = r.areas.1.length ∧ r3.size = r.size := by
  have hlt : envIdx < r.areas.1.length := (List.get?_eq_some.mp henv).1
  refine ⟨{ r with areas := (r.areas.1.set envIdx
      (.Environment nm (mapInsert m key v) o), r.areas.2) }, ?_, rfl, hce,
      ?_, ?_, ?_, rfl⟩
  · rw [define_cur, hce]
    dsimp only
    rw [insert_cur_env, henv]
  · rw [heapGet]
    dsimp only
    exact List.get?_set_eq_of_lt _ hlt
  · intro j hj
    rw [heapGet, heapGet]
    dsimp only
    exact List.get?_set_ne _ _ (fun h => hj h.symm)
  · dsimp only
    simp

/-- `load_to` packaged: success state with its invariants. -/
theorem loadNode_spec (r : Runtime) (node : RuntimeNode)
    (hroom : get_free r < r.size) :
    ∃ r2, loadNode r node = some r2 ∧
      r2.stack = get_free r :: r.stack ∧
      heapGet r2 (get_free r) = some node ∧
      (∀ j x, heapGet r j = some x → heapGet r2 j = some x) ∧
      current_env r2 = current_env r ∧
      r2.areas.1.length = r.areas.1.length + 1 ∧ r2.size = r.size := by
  refine ⟨_, loadNode_headroom r node hroom, rfl, ?_, ?_, ?_, ?_, rfl⟩
  · rw [heapGet]
    dsimp only
    exact List.get?_concat_length r.areas.1 _
  · intro j x hj
    rw [heapGet] at hj ⊢
    dsimp only
    rw [List.get?_append (List.get?_eq_some.mp hj).1]
    exact hj
  · rfl
  · dsimp only
    simp

/-- C3: `prepare_args` on a closure cell succeeds exactly when the arity
rule holds — a fixed closure requires `c.nargs = nparams` and a variadic
closure requires `c.nargs ≤ nparams + 1` — and returns the
"arity mismatch" runtime error otherwise; a variadic call with empty
residual (`nparams + 1 = c.nargs`) loads `'()` and binds nil as the last
generated parameter `#⟨c.nargs−1⟩_func_⟨c.name⟩` instead of a packed
list.  The hypotheses give the closure cell, the stack layout
`count :: operands ++ rest` and headroom so that no collection runs. -/
theorem prepare_args_arity (r : Runtime) (cid : Nat) (c : Relic.Closure)
    (idxN : Nat) (args rest : List Nat) (nparams : Nat)
    (hcid : heapGet r cid = some (.Closure c))
    (hstk : r.stack = idxN :: args ++ rest)
    (hN : heapGet r idxN = some (.Number (.Int ((nparams : Nat) : ℤ))))
    (hargs : args.length = nparams)
    (hroom : get_free r + nparams + 2 ≤ r.size) :
    ((c.variadic = false → c.nargs = nparams) →
     (c.variadic = true → c.nargs ≤ nparams + 1) →
       ∃ r2, prepare_args r cid = some (.ok r2)) ∧
    ((c.variadic = false ∧ c.nargs ≠ nparams) ∨
     (c.variadic = true ∧ nparams + 1 < c.nargs) →
       prepare_args r cid = some (.error ("arity mismatch: expect " ++
         toString c.nargs ++ ", found " ++ toString nparams))) ∧
    (c.variadic = true → c.nargs = nparams + 1 →
       ∃ r2 envIdx mEnv iNil,
         prepare_args r cid = some (.ok r2) ∧
         current_env r2 = some envIdx ∧
         heapGet r2 envIdx =
           some (.Environment "closure" mEnv (some c.env)) ∧
         mapGet mEnv ("#" ++ toString (c.nargs - 1) ++ "_func_" ++
           c.name) = some iNil ∧
         heapGet r2 iNil = some (.Symbol .Nil)) := by
  have hroomF : get_free r < r.size := by omega
  have hhead := prepare_args_head r cid c idxN (args ++ rest) nparams hcid
    hstk hN hroomF
  have hce0 : current_env (pargsEnv r c (args ++ rest)) =
      some (get_free r) := by
    rw [pargsEnv, current_env]
    dsimp only
    exact mapGet_mapInsert r.roots "__cur_env" (get_free r)
  have henv0 : heapGet (pargsEnv r c (args ++ rest)) (get_free r) =
      some (.Environment "closure" [] (some c.env)) := by
    rw [pargsEnv, heapGet]
    dsimp only
    exact List.get?_concat_length r.areas.1 _
  have hstk0 : (pargsEnv r c (args ++ rest)).stack = args ++ rest := by
    rw [pargsEnv]
  have hlen0 : (pargsEnv r c (args ++ rest)).stack.length =
      nparams + rest.length := by
    rw [hstk0]
    simp [hargs]
  have harea0 : (pargsEnv r c (args ++ rest)).areas.1.length =
      get_free r + 1 := by
    rw [pargsEnv]
    dsimp only
    simp [get_free]
  have hsize0 : (pargsEnv r c (args ++ rest)).size = r.size := by
    rw [pargsEnv]
  refine ⟨?_, ?_, ?_⟩
  · intro hfix hvar
    have hcond : ¬((!c.variadic && c.nargs ≠ nparams) ∨
        (c.variadic && c.nargs > nparams + 1)) := by
      intro hcond
      cases hv2 : c.variadic
      · rcases hcond with hA | hB
        · rw [hv2] at hA
          simp at hA
          exact hA (hfix hv2)
        · rw [hv2] at hB
          simp at hB
      · rcases hcond with hA | hB
        · rw [hv2] at hA
          simp at hA
        · rw [hv2] at hB
          simp at hB
          have := hvar hv2
          omega
    by_cases h0 : c.nargs = 0
    · rw [hhead, if_neg hcond, if_pos h0]
      exact ⟨_, rfl⟩
    · obtain ⟨r1, m2, hb, hstk1, hce1, henv1, hpres1, harea1, harea1b,
        hroots1, hsize1⟩ :=
        bindArgs_spec2 (c.nargs - 1) (pargsEnv r c (args ++ rest)) c.name 0
          (get_free r) "closure" [] (some c.env) hce0 henv0
          (by
            rw [hlen0]
            cases hv2 : c.variadic
            · have := hfix hv2
              omega
            · have := hvar hv2
              omega)
      cases hv2 : c.variadic
      · have hnp : c.nargs = nparams := hfix hv2
        have hstk1' : r1.stack = args.drop (c.nargs - 1) ++ rest := by
          rw [hstk1, hstk0]
          rw [List.drop_append_of_le_length (by omega)]
        have hlen1 : (args.drop (c.nargs - 1)).length = 1 := by
          rw [List.length_drop]
          omega
        obtain ⟨la, hla⟩ := List.length_eq_one.mp hlen1
        obtain ⟨r3, hdc, _, _, _, _, _, _⟩ := define_cur_spec
          { r1 with stack := rest } (get_free r) "closure" m2 (some c.env)
          ("#" ++ toString (c.nargs - 1) ++ "_func_" ++ c.name) la
          hce1 henv1
        refine ⟨r3, ?_⟩
        rw [hhead, if_neg hcond, if_neg h0, hb]
        dsimp only
        rw [if_neg (show ¬(c.variadic = true) from by simp [hv2])]
        dsimp only
        rw [show r1.stack = la :: rest from by rw [hstk1', hla]; rfl]
        dsimp only
        rw [hdc]
      · have hv := hvar hv2
        by_cases hle : c.nargs ≤ nparams
        · have hzlen : nparams - c.nargs + 1 ≤ r1.stack.length := by
            rw [hstk1, hstk0]
            simp only [List.length_drop, List.length_append]
            omega
          have hzroom : get_free r1 + (nparams - c.nargs + 1) + 1 ≤
              r1.size := by
            simp only [get_free]
            rw [harea1, harea0, hsize1, hsize0]
            omega
          obtain ⟨r2, hz, hzl, ⟨tail, htail⟩, _, hzroots, hzsize⟩ :=
            zip_stack_nodes_spec r1 (nparams - c.nargs + 1) hzlen hzroom
          have hr2len : r2.stack.length = rest.length + 1 := by
            rw [hstk1, hstk0] at hzl
            simp only [List.length_drop, List.length_append] at hzl
            omega
          have hlt1 : get_free r < r1.areas.1.length := by
            rw [harea1, harea0]
            omega
          have hce2 : current_env r2 = some (get_free r) := by
            rw [current_env, hzroots]
            rw [current_env] at hce1
            exact hce1
          have henv2 : heapGet r2 (get_free r) =
              some (.Environment "closure" m2 (some c.env)) := by
            rw [heapGet, htail, List.get?_append hlt1]
            exact henv1
          cases hs2 : r2.stack with
          | nil =>
              exfalso
              rw [hs2] at hr2len
              simp at hr2len
          | cons last rest2 =>
              obtain ⟨r3, hdc, _, _, _, _, _, _⟩ := define_cur_spec
                { r2 with stack := rest2 } (get_free r) "closure" m2
                (some c.env)
                ("#" ++ toString (c.nargs - 1) ++ "_func_" ++ c.name)
                last hce2 henv2
              refine ⟨r3, ?_⟩
              rw [hhead, if_neg hcond, if_neg h0, hb]
              dsimp only
              rw [if_pos hv2, if_pos hle, hz]
              dsimp only
              rw [hs2]
              dsimp only
              rw [hdc]
        · have hfree1 : get_free r1 < r1.size := by
            simp only [get_free]
            rw [harea1, harea0, hsize1, hsize0]
            omega
          obtain ⟨r2, hl, hs2, hnil, hpres2, hcepres, harea2, hsize2⟩ :=
            loadNode_spec r1 (.Symbol .Nil) hfree1
          have hce2 : current_env r2 = some (get_free r) := by
            rw [hcepres]
            exact hce1
          have henv2 : heapGet r2 (get_free r) =
              some (.Environment "closure" m2 (some c.env)) :=
            hpres2 _ _ henv1
          obtain ⟨r3, hdc, _, _, _, _, _, _⟩ := define_cur_spec
            { r2 with stack := r1.stack } (get_free r) "closure" m2
            (some c.env)
            ("#" ++ toString (c.nargs - 1) ++ "_func_" ++ c.name)
            (get_free r1) hce2 henv2
          refine ⟨r3, ?_⟩
          rw [hhead, if_neg hcond, if_neg h0, hb]
          dsimp only
          rw [if_pos hv2, if_neg hle, hl]
          dsimp only
          rw [hs2]
          dsimp only
          rw [hdc]
  · intro harity
    rw [hhead]
    rw [if_pos (show ((!c.variadic && c.nargs ≠ nparams) ∨
        (c.variadic && c.nargs > nparams + 1)) from by
      rcases harity with ⟨hv, hne⟩ | ⟨hv, hlt⟩
      · left
        rw [hv]
        simp [hne]
      · right
        rw [hv]
        simp
        omega)]
  · intro hv2 hn
    have h0 : ¬(c.nargs = 0) := by omega
    have hcond : ¬((!c.variadic && c.nargs ≠ nparams) ∨
        (c.variadic && c.nargs > nparams + 1)) := by
      intro hcond
      rcases hcond with hA | hB
      · rw [hv2] at hA
        simp at hA
      · rw [hv2] at hB
        simp at hB
        omega
    obtain ⟨r1, m2, hb, hstk1, hce1, henv1, hpres1, harea1, harea1b,
      hroots1, hsize1⟩ :=
      bindArgs_spec2 (c.nargs - 1) (pargsEnv r c (args ++ rest)) c.name 0
        (get_free r) "closure" [] (some c.env) hce0 henv0
        (by
          rw [hlen0]
          omega)
    have hle : ¬(c.nargs ≤ nparams) := by omega
    have hfree1 : get_free r1 < r1.size := by
      simp only [get_free]
      rw [harea1, harea0, hsize1, hsize0]
      omega
    obtain ⟨r2, hl, hs2, hnil, hpres2, hcepres, harea2, hsize2⟩ :=
      loadNode_spec r1 (.Symbol .Nil) hfree1
    have hce2 : current_env r2 = some (get_free r) := by
      rw [hcepres]
      exact hce1
    have henv2 : heapGet r2 (get_free r) =
        some (.Environment "closure" m2 (some c.env)) :=
      hpres2 _ _ henv1
    obtain ⟨r3, hdc, hs3, hce3, henv3, hpres3, harea3, hsize3⟩ :=
      define_cur_spec { r2 with stack := r1.stack } (get_free r) "closure"
        m2 (some c.env)
        ("#" ++ toString (c.nargs - 1) ++ "_func_" ++ c.name)
        (get_free r1) hce2 henv2
    have hrun : prepare_args r cid = some (.ok r3) := by
      rw [hhead, if_neg hcond, if_neg h0, hb]
      dsimp only
      rw [if_pos hv2, if_neg hle, hl]
      dsimp only
      rw [hs2]
      dsimp only
      rw [hdc]
    refine ⟨r3, get_free r, _, get_free r1, hrun, hce3, henv3,
      mapGet_mapInsert _ _ _, ?_⟩
    have hne : get_free r1 ≠ get_free r := by
      have h1 : r1.areas.1.length = get_free r + 1 := by
        rw [harea1, harea0]
      simp only [get_free] at h1 ⊢
      omega
    rw [hpres3 _ hne]
    exact hnil

/-- C3, witness: calling the variadic one-parameter closure `c3Closure`
with zero operands succeeds and binds nil as `#0_func_f`. -/
theorem prepare_args_arity_witness :
    ∃ r2 envIdx mEnv iNil,
      prepare_args c3Runtime 0 = some (.ok r2) ∧
      current_env r2 = some envIdx ∧
      heapGet r2 envIdx =
        some (.Environment "closure" mEnv (some c3Closure.env)) ∧
      mapGet mEnv ("#" ++ toString (c3Closure.nargs - 1) ++ "_func_" ++
        c3Closure.name) = some iNil ∧
      heapGet r2 iNil = some (.Symbol .Nil) :=
  (prepare_args_arity c3Runtime 0 c3Closure 1 [] [] 0 (by decide) rfl
    (by decide) rfl (by decide)).2.2 rfl rfl

/-- A pointwise-dominated predicate that strictly loses at one list
element counts strictly less. -/
theorem countP_lt_of_flip {α : Type} (p q : α → Bool) :
    ∀ (l : List α) (x : α), x ∈ l →
    (∀ y ∈ l, p y = true → q y = true) →
    p x = false → q x = true → l.countP p < l.countP q := by
  intro l
  induction l with
  | nil => intro x hx; exact absurd hx (List.not_mem_nil x)
  | cons a t ih =>
      intro x hx himp hpx hqx
      rcases List.mem_cons.mp hx with rfl | hxt
      · rw [List.countP_cons_of_neg _ _ (by simp [hpx]),
          List.countP_cons_of_pos _ _ hqx]
        have := List.countP_mono_left
          (fun y hy => himp y (List.mem_cons_of_mem _ hy))
        omega
      · have ht := ih x hxt
          (fun y hy => himp y (List.mem_cons_of_mem _ hy)) hpx hqx
        rw [List.countP_cons, List.countP_cons]
        have hle : (if p a then 1 else 0) ≤ (if q a then 1 else 0) := by
          by_cases hpa : p a = true
          · rw [if_pos hpa, if_pos (himp a (List.mem_cons_self a t) hpa)]
          · rw [if_neg hpa]
            exact Nat.zero_le _
        omega

/-- `keyGet` over an appended prefix. -/
theorem keyGet_append : ∀ (pre visited : List (RcKey × Nat)) (k : RcKey),
    keyGet (pre ++ visited) k =
      (match keyGet pre k with
       | some x => some x
       | none => keyGet visited k) := by
  intro pre
  induction pre with
  | nil => intro visited k; simp [keyGet]
  | cons kv rest ih =>
      intro visited k
      obtain ⟨k2, v⟩ := kv
      by_cases h : k2 = k
      · simp [keyGet, h]
      · simp only [List.cons_append, keyGet, if_neg h]
        exact ih visited k

/-- Growing the visited map never increases the unvisited count. -/
theorem unvisitedCount_append_le (r : Runtime)
    (pre visited : List (RcKey × Nat)) :
    unvisitedCount r (pre ++ visited) ≤ unvisitedCount r visited := by
  rw [unvisitedCount, unvisitedCount]
  apply List.countP_mono_left
  intro k _ hk
  simp only at hk ⊢
  rw [keyGet_append] at hk
  cases hp : keyGet pre k with
  | none =>
      rw [hp] at hk
      exact hk
  | some x =>
      rw [hp] at hk
      simp at hk

/-- Inserting one fresh identity never increases the unvisited count. -/
theorem unvisitedCount_cons_le (r : Runtime)
    (visited : List (RcKey × Nat)) (k : RcKey) (id : Nat) :
    unvisitedCount r ((k, id) :: visited) ≤ unvisitedCount r visited := by
  have := unvisitedCount_append_le r [(k, id)] visited
  simpa using this

/-- Inserting a fresh identity from the key universe strictly decreases
the unvisited count — the termination argument of the printer. -/
theorem unvisitedCount_insert_lt (r : Runtime)
    (visited : List (RcKey × Nat)) (k : RcKey) (id : Nat)
    (hmem : k ∈ allKeys r) (hnone : keyGet visited k = none) :
    unvisitedCount r ((k, id) :: visited) < unvisitedCount r visited := by
  rw [unvisitedCount, unvisitedCount]
  apply countP_lt_of_flip _ _ _ k hmem
  · intro y _ hy
    simp only at hy ⊢
    rw [keyGet] at hy
    by_cases h : k = y
    · rw [if_pos h] at hy
      simp at hy
    · rw [if_neg h] at hy
      exact hy
  · simp [keyGet]
  · simp [hnone]

/-- Every pair cell of a `pairWF` heap has in-bounds children. -/
theorem pairWF_children {r : Runtime} (hwf : pairWF r = true)
    {i car cdr : Nat} (h : heapGet r i = some (.Pair car cdr)) :
    car < r.areas.1.length ∧ cdr < r.areas.1.length := by
  rw [pairWF, List.all_eq_true] at hwf
  have hmem : RuntimeNode.Pair car cdr ∈ r.areas.1 := List.get?_mem h
  have := hwf _ hmem
  simp at this
  exact this

/-- Shrinking the memo set never decreases `pairsLeft`. -/
theorem pairsLeft_mono (r : Runtime) (v1 v2 : List Nat)
    (hsub : ∀ j, j ∈ v1 → j ∈ v2) :
    pairsLeft r v2 ≤ pairsLeft r v1 := by
  rw [pairsLeft, pairsLeft]
  apply List.countP_mono_left
  intro i _ hi
  rw [Bool.and_eq_true] at hi ⊢
  refine ⟨hi.1, ?_⟩
  have h2 := hi.2
  simp only [List.contains, List.elem_eq_mem, Bool.not_eq_true',
    decide_eq_false_iff_not] at h2 ⊢
  exact fun hmem => h2 (hsub i hmem)

/-- Memoizing a fresh pair strictly decreases `pairsLeft`. -/
theorem pairsLeft_insert_lt (r : Runtime) (visited : List Nat) (i : Nat)
    {car cdr : Nat} (hpair : heapGet r i = some (.Pair car cdr))
    (hnew : ¬ i ∈ visited) :
    pairsLeft r (i :: visited) < pairsLeft r visited := by
  have hi : i < r.areas.1.length := (List.get?_eq_some.mp hpair).1
  rw [pairsLeft, pairsLeft]
  apply countP_lt_of_flip _ _ _ i (List.mem_range.mpr hi)
  · intro y _ hy
    rw [Bool.and_eq_true] at hy ⊢
    refine ⟨hy.1, ?_⟩
    have h2 := hy.2
    simp only [List.contains, List.elem_eq_mem, Bool.not_eq_true',
      decide_eq_false_iff_not, List.mem_cons] at h2 ⊢
    exact fun hmem => h2 (Or.inr hmem)
  · simp [List.contains]
  · simp only [hpair]
    simp [List.contains, hnew]

/-- `to_node` terminates on every `pairWF` heap, cyclic ones included,
because each pair is memoized before its children are visited. -/
theorem to_node_total : ∀ (fuel : Nat) (r : Runtime) (index : Nat)
    (visited : List Nat), pairWF r = true →
    index < r.areas.1.length → pairsLeft r visited < fuel →
    ∃ v2, to_node fuel r index visited = some v2 ∧
      (∀ j, j ∈ visited → j ∈ v2) := by
  intro fuel
  induction fuel with
  | zero =>
      intro r idx v _ _ h
      exact absurd h (Nat.not_lt_zero _)
  | succ fuel ih =>
      intro r index visited hwf hidx hcnt
      rw [to_node]
      by_cases hm : index ∈ visited
      · rw [if_pos hm]
        exact ⟨visited, rfl, fun j hj => hj⟩
      · rw [if_neg hm]
        cases hg : heapGet r index with
        | none =>
            exfalso
            rw [heapGet, List.get?_eq_get hidx] at hg
            exact Option.noConfusion hg
        | some nd =>
            cases nd with
            | Pair car cdr =>
                obtain ⟨hcar, hcdr⟩ := pairWF_children hwf hg
                have hlt1 : pairsLeft r (index :: visited) < fuel := by
                  have h1 := pairsLeft_insert_lt r visited index hg hm
                  omega
                obtain ⟨v2, hrec1, hsub1⟩ :=
                  ih r car (index :: visited) hwf hcar hlt1
                have hlt2 : pairsLeft r v2 < fuel := by
                  have h2 := pairsLeft_mono r (index :: visited) v2 hsub1
                  omega
                obtain ⟨v3, hrec2, hsub2⟩ := ih r cdr v2 hwf hcdr hlt2
                refine ⟨v3, ?_, ?_⟩
                · dsimp only
                  rw [hrec1]
                  dsimp only
                  exact hrec2
                · intro j hj
                  exact hsub2 j (hsub1 j (List.mem_cons_of_mem _ hj))
            | Symbol v => exact ⟨visited, rfl, fun j hj => hj⟩
            | Number v => exact ⟨visited, rfl, fun j hj => hj⟩
            | Environment a b c => exact ⟨visited, rfl, fun j hj => hj⟩
            | Closure c => exact ⟨visited, rfl, fun j hj => hj⟩
            | BrokenHeart d => exact ⟨visited, rfl, fun j hj => hj⟩

/-- Membership of a pair identity in the key universe. -/
theorem pairCell_mem_allKeys {r : Runtime} {j : Nat}
    (h : j < r.areas.1.length) : RcKey.pairCell j ∈ allKeys r := by
  rw [allKeys]
  exact List.mem_append.mpr (Or.inl (List.mem_append.mpr (Or.inl
    (List.mem_map.mpr ⟨j, List.mem_range.mpr h, rfl⟩))))

/-- Membership of a per-reference atom identity in the key universe. -/
theorem atomCell_mem_allKeys {r : Runtime} {j : Nat} (b : Bool)
    (h : j < r.areas.1.length) : RcKey.atomCell j b ∈ allKeys r := by
  rw [allKeys]
  cases b
  · exact List.mem_append.mpr (Or.inl (List.mem_append.mpr (Or.inr
      (List.mem_map.mpr ⟨j, List.mem_range.mpr h, rfl⟩))))
  · exact List.mem_append.mpr (Or.inr
      (List.mem_map.mpr ⟨j, List.mem_range.mpr h, rfl⟩))

/-- `leafView` is defined on every non-pair cell. -/
theorem leafView_isSome {nd : RuntimeNode}
    (h : ∀ a b, nd ≠ .Pair a b) : ∃ leaf, leafView nd = some leaf := by
  cases nd with
  | Pair a b => exact absurd rfl (h a b)
  | Symbol v => exact ⟨_, rfl⟩
  | Number v => exact ⟨_, rfl⟩
  | Environment a b c => exact ⟨_, rfl⟩
  | Closure c => exact ⟨_, rfl⟩
  | BrokenHeart d => exact ⟨_, rfl⟩

/-- Dereferencing a per-reference atom identity. -/
theorem rcNode_atomCell {r : Runtime} {i car cdr : Nat} {b : Bool}
    (hpar : heapGet r i = some (.Pair car cdr)) {nd : RuntimeNode}
    (hc : heapGet r (if b then cdr else car) = some nd)
    {leaf : Bool × String} (hl : leafView nd = some leaf) :
    rcNode r (.atomCell i b) = some (.leaf leaf.1 leaf.2) := by
  obtain ⟨isNil, str⟩ := leaf
  rw [rcNode, hpar]
  dsimp only
  rw [hc]
  dsimp only
  rw [hl]

/-- The children handed out by `rcNode` on a `pairWF` heap are
themselves dereferenceable and live in the key universe. -/
theorem rcNode_children {r : Runtime} (hwf : pairWF r = true)
    {key carK cdrK : RcKey}
    (h : rcNode r key = some (.pair carK cdrK)) :
    ((∃ pn, rcNode r carK = some pn) ∧ carK ∈ allKeys r) ∧
    ((∃ pn, rcNode r cdrK = some pn) ∧ cdrK ∈ allKeys r) := by
  cases key with
  | pairCell i =>
      rw [rcNode] at h
      cases hg : heapGet r i with
      | none => rw [hg] at h; exact Option.noConfusion h
      | some nd =>
          rw [hg] at h
          cases nd with
          | Pair car cdr =>
              dsimp only at h
              simp only [Option.some.injEq, PNode.pair.injEq] at h
              obtain ⟨h1, h2⟩ := h
              subst h1
              subst h2
              obtain ⟨hcar, hcdr⟩ := pairWF_children hwf hg
              have hi : i < r.areas.1.length :=
                (List.get?_eq_some.mp hg).1
              constructor
              · cases hc : heapGet r car with
                | none =>
                    exfalso
                    rw [heapGet, List.get?_eq_get hcar] at hc
                    exact Option.noConfusion hc
                | some cnd =>
                    cases cnd with
                    | Pair a b =>
                        have hck : childKey r i car false =
                            .pairCell car := by
                          rw [childKey, hc]
                        rw [hck]
                        exact ⟨⟨.pair (childKey r car a false)
                          (childKey r car b true), by rw [rcNode, hc]⟩,
                          pairCell_mem_allKeys hcar⟩
                    | Symbol v =>
                        have hck : childKey r i car false =
                            .atomCell i false := by
                          rw [childKey, hc]
                        rw [hck]
                        exact ⟨⟨_, rcNode_atomCell hg
                          (show heapGet r (if false then cdr else car) =
                            some (.Symbol v) from by simpa using hc) rfl⟩,
                          atomCell_mem_allKeys false hi⟩
                    | Number v =>
                        have hck : childKey r i car false =
                            .atomCell i false := by
                          rw [childKey, hc]
                        rw [hck]
                        exact ⟨⟨_, rcNode_atomCell hg
                          (show heapGet r (if false then cdr else car) =
                            some (.Number v) from by simpa using hc) rfl⟩,
                          atomCell_mem_allKeys false hi⟩
                    | Environment a b c =>
                        have hck : childKey r i car false =
                            .atomCell i false := by
                          rw [childKey, hc]
                        rw [hck]
                        exact ⟨⟨_, rcNode_atomCell hg
                          (show heapGet r (if false then cdr else car) =
                            some (.Environment a b c) from by
                              simpa using hc) rfl⟩,
                          atomCell_mem_allKeys false hi⟩
                    | Closure c =>
                        have hck : childKey r i car false =
                            .atomCell i false := by
                          rw [childKey, hc]
                        rw [hck]
                        exact ⟨⟨_, rcNode_atomCell hg
                          (show heapGet r (if false then cdr else car) =
                            some (.Closure c) from by simpa using hc) rfl⟩,
                          atomCell_mem_allKeys false hi⟩
                    | BrokenHeart d =>
                        have hck : childKey r i car false =
                            .atomCell i false := by
                          rw [childKey, hc]
                        rw [hck]
                        exact ⟨⟨_, rcNode_atomCell hg
                          (show heapGet r (if false then cdr else car) =
                            some (.BrokenHeart d) from by
                              simpa using hc) rfl⟩,
                          atomCell_mem_allKeys false hi⟩
              · cases hc : heapGet r cdr with
                | none =>
                    exfalso
                    rw [heapGet, List.get?_eq_get hcdr] at hc
                    exact Option.noConfusion hc
                | some cnd =>
                    cases cnd with
                    | Pair a b =>
                        have hck : childKey r i cdr true =
                            .pairCell cdr := by
                          rw [childKey, hc]
                        rw [hck]
                        exact ⟨⟨.pair (childKey r cdr a false)
                          (childKey r cdr b true), by rw [rcNode, hc]⟩,
                          pairCell_mem_allKeys hcdr⟩
                    | Symbol v =>
                        have hck : childKey r i cdr true =
                            .atomCell i true := by
                          rw [childKey, hc]
                        rw [hck]
                        exact ⟨⟨_, rcNode_atomCell hg
                          (show heapGet r (if true then cdr else car) =
                            some (.Symbol v) from by simpa using hc) rfl⟩,
                          atomCell_mem_allKeys true hi⟩
                    | Number v =>
                        have hck : childKey r i cdr true =
                            .atomCell i true := by
                          rw [childKey, hc]
                        rw [hck]
                        exact ⟨⟨_, rcNode_atomCell hg
                          (show heapGet r (if true then cdr else car) =
                            some (.Number v) from by simpa using hc) rfl⟩,
                          atomCell_mem_allKeys true hi⟩
                    | Environment a b c =>
                        have hck : childKey r i cdr true =
                            .atomCell i true := by
                          rw [childKey, hc]
                        rw [hck]
                        exact ⟨⟨_, rcNode_atomCell hg
                          (show heapGet r (if true then cdr else car) =
                            some (.Environment a b c) from by
                              simpa using hc) rfl⟩,
                          atomCell_mem_allKeys true hi⟩
                    | Closure c =>
                        have hck : childKey r i cdr true =
                            .atomCell i true := by
                          rw [childKey, hc]
                        rw [hck]
                        exact ⟨⟨_, rcNode_atomCell hg
                          (show heapGet r (if true then cdr else car) =
                            some (.Closure c) from by simpa using hc) rfl⟩,
                          atomCell_mem_allKeys true hi⟩
                    | BrokenHeart d =>
                        have hck : childKey r i cdr true =
                            .atomCell i true := by
                          rw [childKey, hc]
                        rw [hck]
                        exact ⟨⟨_, rcNode_atomCell hg
                          (show heapGet r (if true then cdr else car) =
                            some (.BrokenHeart d) from by
                              simpa using hc) rfl⟩,
                          atomCell_mem_allKeys true hi⟩
          | Symbol v => dsimp only at h; exact Option.noConfusion h
          | Number v => dsimp only at h; exact Option.noConfusion h
          | Environment a b c =>
              dsimp only at h
              exact Option.noConfusion h
          | Closure c => dsimp only at h; exact Option.noConfusion h
          | BrokenHeart d => dsimp only at h; exact Option.noConfusion h
  | atomCell p b =>
      exfalso
      rw [rcNode] at h
      cases hg : heapGet r p with
      | none => rw [hg] at h; exact Option.noConfusion h
      | some nd =>
          rw [hg] at h
          cases nd with
          | Pair car cdr =>
              dsimp only at h
              cases hc : heapGet r (if b then cdr else car) with
              | none => rw [hc] at h; exact Option.noConfusion h
              | some cnd =>
                  rw [hc] at h
                  dsimp only at h
                  cases hl : leafView cnd with
                  | none => rw [hl] at h; exact Option.noConfusion h
                  | some leaf =>
                      obtain ⟨n1, n2⟩ := leaf
                      rw [hl] at h
                      dsimp only at h
                      simp at h
          | Symbol v => dsimp only at h; exact Option.noConfusion h
          | Number v => dsimp only at h; exact Option.noConfusion h
          | Environment a2 b2 c2 =>
              dsimp only at h
              exact Option.noConfusion h
          | Closure c => dsimp only at h; exact Option.noConfusion h
          | BrokenHeart d => dsimp only at h; exact Option.noConfusion h

/-- Totality of the printer: with fuel exceeding the number of unvisited
cell identities, both `fmtNode` and `fmtTail` succeed, and the visited
map only grows.  The fuel strictly drops on every recursive call while
the unvisited count strictly drops at every `visited.insert`, so the
bound is preserved. -/
theorem fmt_total : ∀ fuel : Nat,
    (∀ (r : Runtime) (visited : List (RcKey × Nat)) (key : RcKey)
       (id : Nat) (pn : PNode), pairWF r = true →
       rcNode r key = some pn → unvisitedCount r visited < fuel →
       ∃ s v2 pre, fmtNode fuel r visited key id = some (s, v2) ∧
         v2 = pre ++ visited) ∧
    (∀ (r : Runtime) (visited : List (RcKey × Nat)) (key : RcKey)
       (curId : Nat) (pn : PNode), pairWF r = true →
       rcNode r key = some pn → unvisitedCount r visited < fuel →
       ∃ s v2 pre, fmtTail fuel r visited key curId = some (s, v2) ∧
         v2 = pre ++ visited) := by
  intro fuel
  induction fuel with
  | zero =>
      constructor
      · intro r v k i pn _ _ h
        exact absurd h (Nat.not_lt_zero _)
      · intro r v k i pn _ _ h
        exact absurd h (Nat.not_lt_zero _)
  | succ fuel ih =>
      obtain ⟨ihN, ihT⟩ := ih
      constructor
      · intro r visited key id pn hwf hk hcnt
        rw [fmtNode, hk]
        cases pn with
        | leaf isNil s =>
            dsimp only
            exact ⟨s, visited, [], rfl, by simp⟩
        | pair carK cdrK =>
            dsimp only
            obtain ⟨⟨⟨pnc, hcar⟩, hcmem⟩, ⟨pnd, hcdr⟩, hdmem⟩ :=
              rcNode_children hwf hk
            cases hv : keyGet visited cdrK with
            | some prev =>
                dsimp only
                exact ⟨_, visited, [], rfl, by simp⟩
            | none =>
                dsimp only
                have hins : unvisitedCount r ((cdrK, id) :: visited) <
                    fuel := by
                  have h1 := unvisitedCount_insert_lt r visited cdrK id
                    hdmem hv
                  omega
                cases hv2 : keyGet ((cdrK, id) :: visited) carK with
                | some prev =>
                    dsimp only
                    obtain ⟨t, vT, preT, hT, hTpre⟩ :=
                      ihT r ((cdrK, id) :: visited) cdrK id pnd hwf hcdr
                        hins
                    rw [hT]
                    dsimp only
                    refine ⟨_, vT, preT ++ [(cdrK, id)], rfl, ?_⟩
                    rw [hTpre]
                    simp
                | none =>
                    dsimp only
                    obtain ⟨s1, vC, preC, hC, hCpre⟩ :=
                      ihN r ((cdrK, id) :: visited) carK id pnc hwf hcar
                        hins
                    rw [hC]
                    dsimp only
                    have hmono : unvisitedCount r ((carK, id) :: vC) <
                        fuel := by
                      have h1 : unvisitedCount r vC ≤
                          unvisitedCount r ((cdrK, id) :: visited) := by
                        rw [hCpre]
                        exact unvisitedCount_append_le r preC _
                      have h2 := unvisitedCount_cons_le r vC carK id
                      omega
                    obtain ⟨t, vT, preT, hT, hTpre⟩ :=
                      ihT r ((carK, id) :: vC) cdrK id pnd hwf hcdr hmono
                    rw [hT]
                    dsimp only
                    refine ⟨_, vT,
                      preT ++ (carK, id) :: preC ++ [(cdrK, id)], rfl, ?_⟩
                    rw [hTpre, hCpre]
                    simp
      · intro r visited key curId pn hwf hk hcnt
        rw [fmtTail, hk]
        cases pn with
        | leaf isNil s =>
            dsimp only
            cases isNil
            · exact ⟨_, visited, [], by rw [if_neg (by simp)], by simp⟩
            · exact ⟨_, visited, [], by rw [if_pos rfl], by simp⟩
        | pair carK cdrK =>
            dsimp only
            obtain ⟨⟨⟨pnc, hcar⟩, hcmem⟩, ⟨pnd, hcdr⟩, hdmem⟩ :=
              rcNode_children hwf hk
            cases hv : keyGet visited cdrK with
            | some prev =>
                dsimp only
                exact ⟨_, visited, [], rfl, by simp⟩
            | none =>
                dsimp only
                have hins : unvisitedCount r
                    ((cdrK, curId + 1) :: visited) < fuel := by
                  have h1 := unvisitedCount_insert_lt r visited cdrK
                    (curId + 1) hdmem hv
                  omega
                cases hv2 : keyGet ((cdrK, curId + 1) :: visited) carK with
                | some prev =>
                    dsimp only
                    obtain ⟨t, vT, preT, hT, hTpre⟩ :=
                      ihT r ((cdrK, curId + 1) :: visited) cdrK (curId + 1)
                        pnd hwf hcdr hins
                    rw [hT]
                    dsimp only
                    refine ⟨_, vT, preT ++ [(cdrK, curId + 1)], rfl, ?_⟩
                    rw [hTpre]
                    simp
                | none =>
                    dsimp only
                    obtain ⟨s1, vC, preC, hC, hCpre⟩ :=
                      ihN r ((cdrK, curId + 1) :: visited) carK (curId + 1)
                        pnc hwf hcar hins
                    rw [hC]
                    dsimp only
                    have hmono : unvisitedCount r
                        ((carK, curId + 1) :: vC) < fuel := by
                      have h1 : unvisitedCount r vC ≤ unvisitedCount r
                          ((cdrK, curId + 1) :: visited) := by
                        rw [hCpre]
                        exact unvisitedCount_append_le r preC _
                      have h2 := unvisitedCount_cons_le r vC carK
                        (curId + 1)
                      omega
                    obtain ⟨t, vT, preT, hT, hTpre⟩ :=
                      ihT r ((carK, curId + 1) :: vC) cdrK (curId + 1) pnd
                        hwf hcdr hmono
                    rw [hT]
                    dsimp only
                    refine ⟨_, vT,
                      preT ++ (carK, curId + 1) :: preC ++
                        [(cdrK, curId + 1)], rfl, ?_⟩
                    rw [hTpre, hCpre]
                    simp

/-- C9: printing a cell (`display_node_idx`) terminates for every
well-formed heap state, including heaps containing cyclic pairs: the
graph builder `to_node` memoizes every pair by identity (its heap
index) before recursing into its children, and the printer
`fmt_with_visited` records a pair's cdr cell in `visited` before
walking it, so each explored set grows strictly inside a finite
identity universe; a pair whose cdr cell is already in `visited` is
printed as the `#k#` back-reference of its first visit instead of being
recursed into. -/
theorem display_node_idx_total (r : Runtime) (index : Nat)
    (hwf : pairWF r = true) (hidx : index < r.areas.1.length) :
    (∃ s, display_node_idx r index = some s) ∧
    (∀ (fuel : Nat) (visited : List (RcKey × Nat)) (i id prev : Nat)
       (carK cdrK : RcKey),
       rcNode r (.pairCell i) = some (.pair carK cdrK) →
       keyGet visited cdrK = some prev →
       fmtNode (fuel + 1) r visited (.pairCell i) id =
         some ("#" ++ toString prev ++ "#", visited)) := by
  constructor
  · have hcap : pairsLeft r [] < r.areas.1.length + 2 := by
      rw [pairsLeft]
      have h1 : (List.range r.areas.1.length).countP (fun i =>
          (match heapGet r i with
           | some (.Pair _ _) => true
           | _ => false) && !(([] : List Nat).contains i)) ≤
          (List.range r.areas.1.length).length :=
        List.countP_le_length _
      have h2 : (List.range r.areas.1.length).length =
          r.areas.1.length := List.length_range _
      omega
    have hcap2 : unvisitedCount r [] < 3 * r.areas.1.length + 2 := by
      rw [unvisitedCount]
      have h1 : (allKeys r).countP (fun k => (keyGet [] k).isNone) ≤
          (allKeys r).length :=
        List.countP_le_length _
      have h2 : (allKeys r).length = 3 * r.areas.1.length := by
        simp only [allKeys, List.length_append, List.length_map,
          List.length_range]
        omega
      omega
    obtain ⟨v2, ht, _⟩ := to_node_total (r.areas.1.length + 2) r index []
      hwf hidx hcap
    rw [display_node_idx, ht]
    dsimp only
    cases hg : heapGet r index with
    | none =>
        exfalso
        rw [heapGet, List.get?_eq_get hidx] at hg
        exact Option.noConfusion hg
    | some nd =>
        cases nd with
        | Pair car cdr =>
            have hrc : rcNode r (.pairCell index) =
                some (.pair (childKey r index car false)
                  (childKey r index cdr true)) := by
              rw [rcNode, hg]
            obtain ⟨s, vf, pre, hfmt, _⟩ :=
              (fmt_total (3 * r.areas.1.length + 2)).1 r []
                (.pairCell index) 0 _ hwf hrc hcap2
            dsimp only
            rw [hfmt]
            exact ⟨s, rfl⟩
        | Symbol v => exact ⟨_, rfl⟩
        | Number v => exact ⟨_, rfl⟩
        | Environment a b c => exact ⟨_, rfl⟩
        | Closure c => exact ⟨_, rfl⟩
        | BrokenHeart d => exact ⟨_, rfl⟩
  · intro fuel visited i id prev carK cdrK hk hv
    rw [fmtNode, hk]
    dsimp only
    rw [hv]

/-- C9, witness: the cyclic heap `c9Runtime` — the pair at index 0 is
its own car — prints successfully (the printed text is `(#0#)`). -/
theorem display_node_idx_total_witness :
    ∃ s, display_node_idx c9Runtime 0 = some s :=
  (display_node_idx_total c9Runtime 0 (by decide) (by decide)).1

end Relic
